import Mathlib

/-!
# The MPC engine: circuit text format, oblivious transfer, compiler, peers

Shallow embedding of `circuit/parser.go` (`Parse`, `Marshal`, `IO.Split` and
what they call), a model of the RSA oblivious transfer of package `ot`, and
shallow embeddings of `compiler/circuits/compiler.go` (`NewCompiler`,
`ZeroWire`, `Zero`, `One`), of `p2p/network.go` (the OT phases of a peer and
the peer map of a network) and of `compiler/lexer.go` (`ReadRune`,
`UnreadRune`, `Get`).

A text (the content behind an `io.Reader`, or what is written to an
`io.Writer`) is the list of its characters; Go `int` is a 64-bit two's
complement integer, `Wire` and `Gate.ID` are `uint32`, `Operation` is a byte.
The library calls (`bufio.Reader.ReadString`, `regexp.Regexp.Split`,
`strconv.Atoi`, `fmt.Fprintf`, `sort.Slice`) are modelled by their documented
behaviour.
-/

namespace Mpc

/-! ## Outcomes of Go code -/

/-- Error values that `Parse` can return. -/
inductive ParseError where
  | eof
  | invalid1stLine
  | invalid2ndLine
  | invalidGate
  | invalidOperation
  | numError
  deriving DecidableEq

/-- Outcome of a call: a value, a returned `error`, or a run-time panic
(index out of range). -/
inductive Outcome (α : Type) where
  | ok (a : α)
  | err (e : ParseError)
  | panic
  deriving DecidableEq

namespace Outcome

/-- Sequencing: the first error or panic ends the computation. -/
def bind {α β : Type} (x : Outcome α) (f : α → Outcome β) : Outcome β :=
  match x with
  | ok a => f a
  | err e => err e
  | panic => panic

/-- The call returned a value. -/
def isOk {α : Type} : Outcome α → Bool
  | ok _ => true
  | _ => false

/-- The call returned a non-nil `error` (and no value). -/
def isErr {α : Type} : Outcome α → Bool
  | err _ => true
  | _ => false

end Outcome

/-! ## Machine integers -/

/-- Wrap-around of Go `int` arithmetic (64 bits, two's complement). -/
def wrapInt (x : Int) : Int := (x + 2 ^ 63) % 2 ^ 64 - 2 ^ 63

/-- Conversion `uint32(v)` / `Wire(v)` of an `int`. -/
def toUint32 (v : Int) : Nat := (v % 2 ^ 32).toNat

/-- Values of Go type `int`. -/
def IsInt64 (x : Int) : Prop := -(2 ^ 63) ≤ x ∧ x < 2 ^ 63

instance (x : Int) : Decidable (IsInt64 x) := by
  unfold IsInt64; infer_instance

/-! ## `strconv.Atoi` and `%d` -/

/-- ASCII decimal digit. -/
def isDigit (c : Char) : Bool := decide (48 ≤ c.toNat) && decide (c.toNat ≤ 57)

/-- Value of a string of decimal digits, read left to right from `acc`;
`none` when a character is not a digit. -/
def digitsValue : List Char → Nat → Option Nat
  | [], acc => some acc
  | c :: cs, acc =>
    if isDigit c then digitsValue cs (acc * 10 + (c.toNat - 48)) else none

/-- Sign and digit part of a numeric field, as `strconv.ParseInt` picks off
a leading `+` or `-`. -/
def splitSign : List Char → Bool × List Char
  | [] => (false, [])
  | c :: cs =>
    if c = '-' then (true, cs) else if c = '+' then (false, cs) else (false, c :: cs)

/-- Function `strconv.Atoi`: an optional sign followed by one or more decimal
digits, with a value that fits `int`; anything else is a `*NumError`. -/
def Atoi (s : List Char) : Outcome Int :=
  match splitSign s with
  | (_, []) => .err .numError
  | (neg, d :: ds) =>
    match digitsValue (d :: ds) 0 with
    | none => .err .numError
    | some n =>
      if neg then
        if n ≤ 2 ^ 63 then .ok (-(n : Int)) else .err .numError
      else
        if n < 2 ^ 63 then .ok (n : Int) else .err .numError

/-- Character of a decimal digit. -/
def digitChar (d : Nat) : Char := Char.ofNat (48 + d)

/-- Decimal digits of `n`, most significant first, in front of `acc`. -/
def natDigits : Nat → Nat → List Char → List Char
  | 0, _, acc => acc
  | fuel + 1, n, acc =>
    if n < 10 then digitChar n :: acc
    else natDigits fuel (n / 10) (digitChar (n % 10) :: acc)

/-- Verb `%d` on an unsigned value. -/
def fmtNat (n : Nat) : List Char := natDigits (n + 1) n []

/-- Verb `%d` on an `int`. -/
def fmtInt (i : Int) : List Char :=
  if i < 0 then '-' :: fmtNat i.natAbs else fmtNat i.toNat

/-! ## Data model -/

/-- Type `Operation` (a byte) and its four named constants. -/
abbrev Operation := Nat

def XOR : Operation := 0
def AND : Operation := 1
def OR : Operation := 2
def INV : Operation := 3

/-- Method `Operation.String`. -/
def Operation.String (op : Operation) : List Char :=
  if op = XOR then "XOR".toList
  else if op = AND then "AND".toList
  else if op = OR then "OR".toList
  else if op = INV then "INV".toList
  else "\x7bOperation ".toList ++ fmtNat op ++ "\x7d".toList

/-- Struct `IOArg`. -/
structure IOArg where
  Name : String
  Typ : String
  Size : Int
  deriving DecidableEq

/-- Type `IO` of the source: a list of arguments. -/
abbrev IOArgs := List IOArg

/-- Method `IO.Size`: the sum of the argument sizes, in `int` arithmetic. -/
def IOArgs.Size (io : IOArgs) : Int :=
  io.foldl (fun sum a => wrapInt (sum + a.Size)) 0

/-- Struct `Gate`; a `Wire` is a `uint32`. -/
structure Gate where
  ID : Nat
  Inputs : List Nat
  Outputs : List Nat
  Op : Operation
  deriving DecidableEq

/-- Go map `map[int]*Gate`: its entries, in the order a `range` loop visits
them (keys are pairwise distinct). -/
abbrev GateMap := List (Int × Gate)

/-- Map lookup `m[k]`. -/
def GateMap.lookup (m : GateMap) (k : Int) : Option Gate :=
  (m.find? (fun p => decide (p.1 = k))).map Prod.snd

/-- Map assignment `m[k] = g`. -/
def GateMap.set (m : GateMap) (k : Int) (g : Gate) : GateMap :=
  m.filter (fun p => decide (p.1 ≠ k)) ++ [(k, g)]

/-- Struct `Circuit`. -/
structure Circuit where
  NumGates : Int
  NumWires : Int
  N1 : IOArgs
  N2 : IOArgs
  N3 : IOArgs
  Gates : GateMap
  deriving DecidableEq

/-! ## Reading lines -/

/-- Class `[[:space:]]` of the regular expression `reParts`. -/
def isSpace (c : Char) : Bool :=
  (decide (9 ≤ c.toNat) && decide (c.toNat ≤ 13)) || decide (c.toNat = 32)

/-- Call `reParts.Split(s, -1)`: the pieces of `s` between the maximal runs of
white space; a run at the start or at the end of `s` leaves an empty piece
there, and the empty string gives one empty piece. -/
def reSplit : List Char → List (List Char)
  | [] => [[]]
  | c :: cs =>
    if isSpace c then
      match cs with
      | [] => [[], []]
      | d :: _ => if isSpace d then reSplit cs else [] :: reSplit cs
    else
      match reSplit cs with
      | [] => [[c]]
      | f :: fs => (c :: f) :: fs

/-- Call `r.ReadString(10)` on a reader with content `r`: the bytes up to and
including the first newline, whether the end of input was hit before a newline
(`err == io.EOF`), and the content left in the reader. -/
def ReadString : List Char → List Char × Bool × List Char
  | [] => ([], true, [])
  | c :: cs =>
    if c = '\n' then ([c], false, cs)
    else
      match ReadString cs with
      | (line, eof, rest) => (c :: line, eof, rest)

/-- The `for` loop of `readLine`, with a bound on the number of iterations. -/
def readLineLoop : Nat → List Char → Outcome (List (List Char)) × List Char
  | 0, r => (.err .eof, r)
  | fuel + 1, r =>
    match ReadString r with
    | (_, true, rest) => (.err .eof, rest)
    | (line, false, rest) =>
      if line.length = 1 then readLineLoop fuel rest
      else
        let parts := reSplit line.dropLast
        if parts.length > 0 then (.ok parts, rest) else readLineLoop fuel rest

/-- Function `readLine`: the fields of the next line that is not just a
newline, with the reader content left after it.  Every iteration consumes at
least one byte, so `r.length + 1` iterations always suffice. -/
def readLine (r : List Char) : Outcome (List (List Char)) × List Char :=
  readLineLoop (r.length + 1) r

/-! ## `Parse` -/

/-- Slice indexing `line[i]`, which panics outside `0 ≤ i < len(line)`. -/
def index (line : List (List Char)) (i : Int) : Outcome (List Char) :=
  if i < 0 then .panic
  else
    match line.get? i.toNat with
    | some f => .ok f
    | none => .panic

/-- Loop `for i := 0; i < n; i++` reading the wires `line[base+i]`; the first
argument counts the iterations left. -/
def readWires (line : List (List Char)) (base : Int) : Nat → Int → Outcome (List Nat)
  | 0, _ => .ok []
  | k + 1, i =>
    (index line (base + i)).bind fun f =>
    (Atoi f).bind fun v =>
    (readWires line base k (i + 1)).bind fun rest =>
    .ok (toUint32 v :: rest)

/-- The `switch` on the last field of a gate line. -/
def parseOp (f : List Char) : Outcome Operation :=
  if f = "XOR".toList then .ok XOR
  else if f = "AND".toList then .ok AND
  else if f = "OR".toList then .ok OR
  else if f = "INV".toList then .ok INV
  else .err .invalidOperation

/-- Body of the gate loop of `Parse` for the fields `line` of one line and the
loop counter `gate`.  The sum `2+n1+n2+1` of the arity check is computed in
`int` arithmetic and wraps around; the indices `2+i` and `2+n1+i` stay far from
the ends of the `int` range, because an access outside the line panics first. -/
def parseGate (gate : Int) (line : List (List Char)) : Outcome Gate :=
  if line.length < 3 then .err .invalidGate
  else
    (index line 0).bind fun f0 =>
    (Atoi f0).bind fun n1 =>
    (index line 1).bind fun f1 =>
    (Atoi f1).bind fun n2 =>
    if wrapInt (2 + n1 + n2 + 1) ≠ (line.length : Int) then .err .invalidGate
    else
      (readWires line 2 n1.toNat 0).bind fun inputs =>
      (readWires line (2 + n1) n2.toNat 0).bind fun outputs =>
      (index line ((line.length : Int) - 1)).bind fun last =>
      (parseOp last).bind fun op =>
      .ok { ID := toUint32 gate, Inputs := inputs, Outputs := outputs, Op := op }

/-- The gate loop `for gate := 0; ; gate++` of `Parse`, with a bound on the
number of iterations: end of input ends the loop.  Every iteration consumes at
least one byte, so the bound `r.length + 1` that `Parse` passes is never
exhausted. -/
def gateLoop : Nat → List Char → Int → GateMap → Outcome GateMap
  | 0, _, _, gates => .ok gates
  | fuel + 1, r, gate, gates =>
    match readLine r with
    | (.err .eof, _) => .ok gates
    | (.err e, _) => .err e
    | (.panic, _) => .panic
    | (.ok line, rest) =>
      (parseGate gate line).bind fun g =>
      gateLoop fuel rest (gate + 1) (gates.set gate g)

/-- Function `Parse` on a reader with content `input`.  The line that `Parse`
prints on standard output before it returns `Invalid 1st line` is not part of
the result. -/
def Parse (input : List Char) : Outcome Circuit :=
  match readLine input with
  | (.err e, _) => .err e
  | (.panic, _) => .panic
  | (.ok line1, r1) =>
    if line1.length ≠ 2 then .err .invalid1stLine
    else
      (index line1 0).bind fun a0 =>
      (Atoi a0).bind fun numGates =>
      (index line1 1).bind fun a1 =>
      (Atoi a1).bind fun numWires =>
      match readLine r1 with
      | (.err e, _) => .err e
      | (.panic, _) => .panic
      | (.ok line2, r2) =>
        if line2.length ≠ 3 then .err .invalid2ndLine
        else
          (index line2 0).bind fun b0 =>
          (Atoi b0).bind fun n1 =>
          (index line2 1).bind fun b1 =>
          (Atoi b1).bind fun n2 =>
          (index line2 2).bind fun b2 =>
          (Atoi b2).bind fun n3 =>
          (gateLoop (r2.length + 1) r2 0 []).bind fun gates =>
          .ok { NumGates := numGates, NumWires := numWires,
                N1 := [{ Name := "", Typ := "", Size := n1 }],
                N2 := [{ Name := "", Typ := "", Size := n2 }],
                N3 := [{ Name := "", Typ := "", Size := n3 }],
                Gates := gates }

/-! ## `Marshal` -/

/-- Call `sort.Slice(gates, less)` with `less` comparing the `Key` fields: the
slice ordered by key.  `sort.Slice` does not promise an order for entries with
equal keys; here they keep their relative order, as they do in the insertion
sort that `sort.Slice` runs on slices of fewer than 12 entries.  For slices
with pairwise distinct keys the result does not depend on this choice. -/
def sortSlice (gates : List (Nat × Gate)) : List (Nat × Gate) :=
  gates.insertionSort (fun a b => a.1 ≤ b.1)

instance sortKeyTotal : IsTotal (Nat × Gate) (fun a b => a.1 ≤ b.1) :=
  ⟨fun a b => Nat.le_total a.1 b.1⟩

instance sortKeyTrans : IsTrans (Nat × Gate) (fun a b => a.1 ≤ b.1) :=
  ⟨fun _ _ _ h1 h2 => Nat.le_trans h1 h2⟩

instance sortKeyAntisymm : IsAntisymm (Nat × Gate) (fun a b => a.1 < b.1) :=
  ⟨fun _ _ h1 h2 => absurd h1 (Nat.lt_asymm h2)⟩

/-- The slice `gates` of `Marshal` after sorting: one `kv` per map entry, keyed
by the gate's `ID`. -/
def Circuit.sortedGates (c : Circuit) : List (Nat × Gate) :=
  sortSlice (c.Gates.map fun p => (p.2.ID, p.2))

/-- Text written for the wires of a gate: a space and `%d` for each. -/
def marshalWires (ws : List Nat) : List Char :=
  (ws.map fun w => ' ' :: fmtNat w).flatten

/-- Text written for one gate. -/
def marshalGate (g : Gate) : List Char :=
  fmtInt g.Inputs.length ++ ' ' :: fmtInt g.Outputs.length
    ++ marshalWires g.Inputs ++ marshalWires g.Outputs
    ++ ' ' :: g.Op.String ++ ['\n']

/-- Method `Circuit.Marshal`: the text written to `out`. -/
def Marshal (c : Circuit) : List Char :=
  fmtInt c.NumGates ++ ' ' :: fmtInt c.NumWires ++ ['\n']
    ++ fmtInt c.N1.Size ++ ' ' :: fmtInt c.N2.Size ++ ' ' :: fmtInt c.N3.Size ++ ['\n']
    ++ ['\n']
    ++ (c.sortedGates.map fun kv => marshalGate kv.2).flatten


/-! ## Lines, fields and blank lines of a text -/

/-- Complete lines of a text, each without its newline, and the rest after the
last newline (a last line that lacks its terminator). -/
def splitLines : List Char → List (List Char) × List Char
  | [] => ([], [])
  | c :: cs =>
    if c = '\n' then ([] :: (splitLines cs).1, (splitLines cs).2)
    else
      match (splitLines cs).1 with
      | [] => ([], c :: (splitLines cs).2)
      | l :: ls => ((c :: l) :: ls, (splitLines cs).2)

/-- Fields of the terminated, non-empty lines of a text, in file order. -/
def textLines (t : List Char) : List (List (List Char)) :=
  ((splitLines t).1.filter fun l => decide (l ≠ [])).map reSplit

/-- Gates of a list of gate lines, the first with loop counter `n`. -/
def parseGateList : Nat → List (List (List Char)) → Outcome (List Gate)
  | _, [] => .ok []
  | n, l :: ls =>
    (parseGate (n : Int) l).bind fun g =>
    (parseGateList (n + 1) ls).bind fun gs =>
    .ok (g :: gs)

/-- Map that stores the gates of a list under the keys `n`, `n+1`, ... -/
def gatesFrom : Nat → List Gate → GateMap
  | _, [] => []
  | n, g :: gs => ((n : Int), g) :: gatesFrom (n + 1) gs

/-- What `Parse` computes from the fields of the terminated non-empty lines. -/
def parseLines : List (List (List Char)) → Outcome Circuit
  | [] => .err .eof
  | line1 :: rest1 =>
    if line1.length ≠ 2 then .err .invalid1stLine
    else
      (index line1 0).bind fun a0 =>
      (Atoi a0).bind fun numGates =>
      (index line1 1).bind fun a1 =>
      (Atoi a1).bind fun numWires =>
      match rest1 with
      | [] => .err .eof
      | line2 :: gateLines =>
        if line2.length ≠ 3 then .err .invalid2ndLine
        else
          (index line2 0).bind fun b0 =>
          (Atoi b0).bind fun n1 =>
          (index line2 1).bind fun b1 =>
          (Atoi b1).bind fun n2 =>
          (index line2 2).bind fun b2 =>
          (Atoi b2).bind fun n3 =>
          (parseGateList 0 gateLines).bind fun gs =>
          .ok { NumGates := numGates, NumWires := numWires,
                N1 := [{ Name := "", Typ := "", Size := n1 }],
                N2 := [{ Name := "", Typ := "", Size := n2 }],
                N3 := [{ Name := "", Typ := "", Size := n3 }],
                Gates := gatesFrom 0 gs }

/-- Position `n` of a text is the start of a line: the start of the text, or
just after a newline. -/
def atLineStart (n : Nat) (t : List Char) : Bool :=
  decide (n = 0) || decide ((t.take n).getLast? = some '\n')

/-- The text with a blank line (a lone newline) inserted at position `n`. -/
def insertBlankLine (n : Nat) (t : List Char) : List Char :=
  t.take n ++ '\n' :: t.drop n

/-- Blank lines inserted one after the other, each at a position of the text
obtained so far; a position that is not the start of a line is skipped. -/
def insertBlankLines : List Nat → List Char → List Char
  | [], t => t
  | n :: ns, t => insertBlankLines ns (if atLineStart n t then insertBlankLine n t else t)

/-- Gate lines of a text: the terminated non-empty lines after the first two. -/
def gateLines (t : List Char) : List (List (List Char)) := (textLines t).drop 2

/-- Names of the four operations in the text format. -/
def opNames : List (List Char) := ["XOR".toList, "AND".toList, "OR".toList, "INV".toList]

/-- Syntax of a numeric field: an optional sign and one or more decimal digits. -/
def IsDecimal (s : List Char) : Bool :=
  !(splitSign s).2.isEmpty && (splitSign s).2.all isDigit

/-- A field holds the wire `w`: it is a decimal integer whose value, converted
to `Wire`, is `w`. -/
def FieldIsWire (f : List Char) (w : Nat) : Prop := ∃ v, Atoi f = .ok v ∧ w = toUint32 v

/-- Input and output fields of a gate line whose two counts are non-negative:
the `nIn` fields after the counts and the `nOut` fields after those. -/
def lineWires (line : List (List Char)) : Option (List (List Char) × List (List Char)) :=
  match line with
  | f0 :: f1 :: rest =>
    match Atoi f0, Atoi f1 with
    | .ok n1, .ok n2 =>
      if 0 ≤ n1 ∧ 0 ≤ n2 then
        some (rest.take n1.toNat, (rest.drop n1.toNat).take n2.toNat)
      else none
    | _, _ => none
  | _ => none

/-- A text with `n` gate lines `1 1 0 1 INV` after its two header lines. -/
def manyGatesText (n : Nat) : List Char :=
  "0 2\n1 0 1\n".toList ++ (List.replicate n ("1 1 0 1 INV".toList ++ ['\n'])).flatten

/-- A field of the text format: not empty, without white space or newline. -/
def IsField (f : List Char) : Prop := f ≠ [] ∧ ∀ c ∈ f, isSpace c = false ∧ c ≠ '\n'

/-- Fields written one after the other with a single space between them. -/
def joinFields : List (List Char) → List Char
  | [] => []
  | [f] => f
  | f :: g :: fs => f ++ ' ' :: joinFields (g :: fs)

/-- Fields of the line that `Marshal` writes for a gate. -/
def gateFields (g : Gate) : List (List Char) :=
  fmtInt g.Inputs.length :: fmtInt g.Outputs.length ::
    (g.Inputs.map fmtNat ++ g.Outputs.map fmtNat ++ [g.Op.String])

/-- The values of a circuit fit their Go types: `NumGates` and `NumWires` are
`int`, gate IDs and wires are `uint32`, and the line of a gate (two counts, a
field per wire and the op) has a length that is an `int`. -/
def WellTyped (c : Circuit) : Prop :=
  IsInt64 c.NumGates ∧ IsInt64 c.NumWires ∧
  ∀ p ∈ c.Gates, p.2.ID < 2 ^ 32 ∧
    (∀ w ∈ p.2.Inputs, w < 2 ^ 32) ∧ (∀ w ∈ p.2.Outputs, w < 2 ^ 32) ∧
    p.2.Inputs.length + p.2.Outputs.length + 3 < 2 ^ 63

instance (c : Circuit) : Decidable (WellTyped c) := by
  unfold WellTyped; infer_instance

/-- Valid circuit: the gates are stored under the keys `0..NumGates-1`, each
with ID equal to its key and with one of the four named operations. -/
def ValidCircuit (c : Circuit) : Prop :=
  0 ≤ c.NumGates ∧
  (c.Gates.map Prod.fst).Perm ((List.range c.NumGates.toNat).map fun (i : Nat) => (i : Int)) ∧
  ∀ p ∈ c.Gates, (p.2.ID : Int) = p.1 ∧ p.2.Op ∈ [XOR, AND, OR, INV]

instance (c : Circuit) : Decidable (ValidCircuit c) := by
  unfold ValidCircuit; infer_instance

/-! ## The gate data model and topological consistency -/

/-- The gate data model of the specification: one output wire, one input wire
for `INV`, two input wires for `XOR`, `AND` and `OR`. -/
def GateModel (g : Gate) : Bool :=
  decide (g.Outputs.length = 1) &&
    (if g.Op = INV then decide (g.Inputs.length = 1) else decide (g.Inputs.length = 2))

/-- Wire `w` is an input wire of the circuit: one of the first `N1 + N2` wires. -/
def isCircuitInput (c : Circuit) (w : Nat) : Bool :=
  decide ((w : Int) < c.N1.Size + c.N2.Size)

/-- Wire `w` is produced by a gate with an ID below `id`. -/
def producedBefore (c : Circuit) (id : Nat) (w : Nat) : Bool :=
  c.Gates.any fun p => decide (p.2.ID < id) && decide (w ∈ p.2.Outputs)

/-- Topological consistency of the specification: every input wire of every
gate is a circuit input or the output of a gate with a smaller ID, and every
wire of every gate is below `NumWires`. -/
def TopologicallyConsistent (c : Circuit) : Bool :=
  c.Gates.all fun p =>
    (p.2.Inputs.all fun w =>
      (isCircuitInput c w || producedBefore c p.2.ID w) && decide ((w : Int) < c.NumWires)) &&
    (p.2.Outputs.all fun w => decide ((w : Int) < c.NumWires))

/-! ## Marshalling again -/

/-- The gates of a list with the IDs that the gate loop of `Parse` gives them:
the loop counter, from `n` on, converted to `uint32`. -/
def renumber : Nat → List Gate → List Gate
  | _, [] => []
  | n, g :: gs => { g with ID := toUint32 (n : Int) } :: renumber (n + 1) gs

/-- A text with `n + 2` gate lines after its two header lines: the line
`1 1 0 2 INV`, then `n` lines `2 1 0 1 3 AND`, then the line `1 1 0 2 INV`
again. -/
def wrapGatesText (n : Nat) : List Char :=
  "4294967297 4\n2 0 2\n".toList ++ ("1 1 0 2 INV".toList ++ ['\n'] ++
    ((List.replicate n ("2 1 0 1 3 AND".toList ++ ['\n'])).flatten ++
      ("1 1 0 2 INV".toList ++ ['\n'])))

/-- The gate of the line `1 1 0 2 INV`, with ID 0. -/
def wrapGateA : Gate := { ID := 0, Inputs := [0], Outputs := [2], Op := INV }

/-- The gate of the line `2 1 0 1 3 AND`, with ID 0. -/
def wrapGateB : Gate := { ID := 0, Inputs := [0, 1], Outputs := [3], Op := AND }

/-! ## Splitting an input value into arguments (`IO.Split`)

A `big.Int` is an `Int`; a panic is `none`. -/

/-- The inner loop of `IO.Split` for one argument, with `n` rounds to go at
loop counter `i`: bit `bit` of `inp` is copied to bit `i` of `r`, and `bit` is
incremented in `int` arithmetic.  `in.Bit(bit)` panics for a negative index. -/
def splitArg (inp : Int) : Nat → Nat → Int → Nat → Option (Nat × Int)
  | 0, _, bit, r => some (r, bit)
  | n + 1, i, bit, r =>
    if bit < 0 then none
    else splitArg inp n (i + 1) (wrapInt (bit + 1))
      (if inp.testBit bit.toNat then r ||| 2 ^ i else r)

/-- The outer loop of `IO.Split`, from bit index `bit` on. -/
def splitLoop (inp : Int) : List IOArg → Int → Option (List Int)
  | [], _ => some []
  | arg :: io, bit =>
    match splitArg inp arg.Size.toNat 0 bit 0 with
    | none => none
    | some r =>
      match splitLoop inp io r.2 with
      | none => none
      | some rs => some ((r.1 : Int) :: rs)

/-- Method `IO.Split`. -/
def IOArgs.Split (io : IOArgs) (inp : Int) : Option (List Int) := splitLoop inp io 0

/-- The values that the specification gives for `Split`: for each argument in
turn the bits `[o, o + Size)` of `inp`, least-significant bit first, where `o`
is the sum of the sizes of the arguments before it (starting from `o`). -/
def splitSpec (inp : Int) : Nat → List IOArg → List Int
  | _, [] => []
  | o, arg :: io => inp / 2 ^ o % 2 ^ arg.Size.toNat :: splitSpec inp (o + arg.Size.toNat) io

/-- The sum of the values of the arguments, each shifted to its offset: the
value of argument `j` times `2^o_j`. -/
def joinArgs : Nat → List IOArg → List Int → Int
  | o, arg :: io, v :: vs => v * 2 ^ o + joinArgs (o + arg.Size.toNat) io vs
  | _, _, _ => 0

/-- The two counts of a gate line are not negative: neither of its first two
fields is a decimal integer below zero. -/
def countsNonNeg (line : List (List Char)) : Bool :=
  (line.take 2).all fun f =>
    match Atoi f with
    | .ok v => decide (0 ≤ v)
    | _ => true

/-! ## Oblivious transfer (package `ot`)

The sources of package `ot` are not part of this development; the protocol is
modelled from section 4.3 of the specification.  The random values of a
transfer (`x0`, `x1` of the sender, `k_r` of the receiver) are parameters. -/

namespace OT

/-- Modelled from the spec: the error kinds of the OT operations
(`MessageLengthMismatch`, `ReceiveVRequired`, and `OTStateError` for any other
operation called before its precondition); package `ot` is missing. -/
inductive OTError where
  | messageLengthMismatch
  | receiveVRequired
  | stateError
  deriving DecidableEq

/-- Modelled from the spec: the fixed-width big-endian encoding of a big
integer in exactly `k` bytes; package `ot` is missing. -/
def encode : Nat → Nat → List Nat
  | 0, _ => []
  | k + 1, n => encode k (n / 256) ++ [n % 256]

/-- Modelled from the spec: the big integer of a big-endian byte string;
package `ot` is missing. -/
def decode (bs : List Nat) : Nat := bs.foldl (fun acc b => acc * 256 + b) 0

/-- Modelled from the spec: `H`, the left-truncation of the `k`-byte big-endian
encoding of `x` to `len` bytes; package `ot` is missing. -/
def H (k x len : Nat) : List Nat := (encode k x).take len

/-- Modelled from the spec: byte-wise XOR of a message with a mask; package
`ot` is missing. -/
def xorBytes (m mask : List Nat) : List Nat := List.zipWith Nat.xor m mask

/-- Modelled from the spec: `v − x` computed in `Z_N` (add `N` if negative);
package `ot` is missing. -/
def subMod (v x N : Nat) : Nat := if x ≤ v then v - x else v + N - x

/-- Modelled from the spec: the OT sender state, an RSA key pair `(N, e, d)`
with `k` the byte length of the key; package `ot` is missing. -/
structure Sender where
  N : Nat
  e : Nat
  d : Nat
  k : Nat
  deriving DecidableEq

/-- Modelled from the spec: the state of one transfer on the sender side: the
random messages `x0`, `x1`, the payloads `m0`, `m1` and the challenge `v` once
received; package `ot` is missing. -/
structure SenderTransfer where
  sender : Sender
  x0 : Nat
  x1 : Nat
  m0 : List Nat
  m1 : List Nat
  v : Option Nat
  deriving DecidableEq

/-- Modelled from the spec: the OT receiver state, the sender's public key
`(N, e)`; package `ot` is missing. -/
structure Receiver where
  N : Nat
  e : Nat
  k : Nat
  deriving DecidableEq

/-- Modelled from the spec: the state of one transfer on the receiver side: the
choice bit, the blinding scalar `k_r`, the random messages once received and
the recovered message; package `ot` is missing. -/
structure ReceiverTransfer where
  receiver : Receiver
  bit : Bool
  kr : Nat
  xs : Option (Nat × Nat)
  m : Option (List Nat)
  deriving DecidableEq

/-- Modelled from the spec: `sender.public_key()` handed to `new_receiver`;
package `ot` is missing. -/
def Sender.NewReceiver (s : Sender) : Receiver := { N := s.N, e := s.e, k := s.k }

/-- Modelled from the spec: `sender.new_transfer(m0, m1)`, which requires
`|m0| = |m1|` and fails with `MessageLengthMismatch` otherwise; `x0` and `x1`
are the random messages drawn for the transfer; package `ot` is missing. -/
def Sender.NewTransfer (s : Sender) (x0 x1 : Nat) (m0 m1 : List Nat) :
    Except OTError SenderTransfer :=
  if m0.length = m1.length then
    .ok { sender := s, x0 := x0, x1 := x1, m0 := m0, m1 := m1, v := none }
  else .error .messageLengthMismatch

/-- Modelled from the spec: `transfer.random_messages()`, the `k`-byte
big-endian encodings of `x0` and `x1`; package `ot` is missing. -/
def SenderTransfer.RandomMessages (t : SenderTransfer) : List Nat × List Nat :=
  (encode t.sender.k t.x0, encode t.sender.k t.x1)

/-- Modelled from the spec: `transfer.receive_v(v)` stores `v`; package `ot` is
missing. -/
def SenderTransfer.ReceiveV (t : SenderTransfer) (v : List Nat) : SenderTransfer :=
  { t with v := some (decode v) }

/-- Modelled from the spec: `transfer.messages()`, the blinded payloads
`m0 XOR H(k0)` and `m1 XOR H(k1)` with `k_i = (v − x_i)^d mod N`; it fails with
`ReceiveVRequired` if `v` is unset; package `ot` is missing. -/
def SenderTransfer.Messages (t : SenderTransfer) : Except OTError (List Nat × List Nat) :=
  match t.v with
  | none => .error .receiveVRequired
  | some v =>
    let k0 := (subMod v t.x0 t.sender.N) ^ t.sender.d % t.sender.N
    let k1 := (subMod v t.x1 t.sender.N) ^ t.sender.d % t.sender.N
    .ok (xorBytes t.m0 (H t.sender.k k0 t.m0.length), xorBytes t.m1 (H t.sender.k k1 t.m1.length))

/-- Modelled from the spec: `receiver.new_transfer(bit)`; `kr` is the blinding
scalar drawn for the transfer; package `ot` is missing. -/
def Receiver.NewTransfer (r : Receiver) (kr : Nat) (bit : Bool) : ReceiverTransfer :=
  { receiver := r, bit := bit, kr := kr, xs := none, m := none }

/-- Modelled from the spec: `transfer.receive_random_messages((x0, x1))` stores
both; package `ot` is missing. -/
def ReceiverTransfer.ReceiveRandomMessages (t : ReceiverTransfer)
    (x : List Nat × List Nat) : ReceiverTransfer :=
  { t with xs := some (decode x.1, decode x.2) }

/-- Modelled from the spec: `transfer.v()`, the `k`-byte encoding of
`v = (x_b + k_r^e) mod N`; package `ot` is missing. -/
def ReceiverTransfer.V (t : ReceiverTransfer) : Except OTError (List Nat) :=
  match t.xs with
  | none => .error .stateError
  | some (x0, x1) =>
    let xb := if t.bit then x1 else x0
    .ok (encode t.receiver.k ((xb + t.kr ^ t.receiver.e) % t.receiver.N))

/-- Modelled from the spec: `transfer.receive_messages((m0', m1'))` decrypts
the chosen one, `m_b = m_b' XOR H(k_r)`; package `ot` is missing. -/
def ReceiverTransfer.ReceiveMessages (t : ReceiverTransfer)
    (ms : List Nat × List Nat) : ReceiverTransfer :=
  let mb := if t.bit then ms.2 else ms.1
  { t with m := some (xorBytes mb (H t.receiver.k t.kr mb.length)) }

/-- Modelled from the spec: `transfer.message()`, the recovered message and the
choice bit; package `ot` is missing. -/
def ReceiverTransfer.Message (t : ReceiverTransfer) : Except OTError (List Nat × Bool) :=
  match t.m with
  | none => .error .stateError
  | some m => .ok (m, t.bit)

/-- Modelled from the spec: one complete transfer in the order of the
protocol and of the test `benchmark`: the receiver takes the sender's random
messages, the sender takes the receiver's `v`, the receiver takes the sender's
masked messages and reports its message and bit; package `ot` is missing. -/
def transfer (s : Sender) (x0 x1 kr : Nat) (m0 m1 : List Nat) (bit : Bool) :
    Except OTError (List Nat × Bool) :=
  match s.NewTransfer x0 x1 m0 m1 with
  | .error err => .error err
  | .ok sXfer =>
    let rXfer := (s.NewReceiver.NewTransfer kr bit).ReceiveRandomMessages sXfer.RandomMessages
    match rXfer.V with
    | .error err => .error err
    | .ok v =>
      match (sXfer.ReceiveV v).Messages with
      | .error err => .error err
      | .ok ms => (rXfer.ReceiveMessages ms).Message

/-- Modelled from the spec: an RSA key pair generated for modulus `N = p * q`
with distinct primes and `e * d = 1` modulo `(p-1)(q-1)`, whose modulus fits
the `k` bytes of the encodings; package `ot` is missing. -/
def Sender.ValidKey (s : Sender) (p q : Nat) : Prop :=
  p.Prime ∧ q.Prime ∧ p ≠ q ∧ s.N = p * q ∧ s.e * s.d % ((p - 1) * (q - 1)) = 1 ∧
    s.N ≤ 256 ^ s.k

end OT

/-! ## The circuit compiler (package `circuits`)

Wires are heap objects referred to by pointer.  The heap is the list of the
wires allocated so far and a pointer is an index into it, so two pointers are
equal exactly when they were returned by the same allocation.  A slice is the
list of its elements; a slice expression whose bounds are out of range is a
run-time panic, written `none`. -/

namespace Circuits

/-- Struct `Wire`: the fields `Input` and `Outputs`, which hold gate objects,
are nil in every wire made here and are left out. -/
structure Wire where
  Output : Bool
  Assigned : Bool
  ID : Nat
  deriving DecidableEq

/-- The wires allocated so far; a `*Wire` is an index into this list. -/
abbrev Heap := List Wire

/-- A gate object of the compiler, interface `Gate`: its operation and the
wires it is attached to. -/
structure GateObj where
  Op : Operation
  Inputs : List Nat
  Outputs : List Nat
  deriving DecidableEq

/-- Struct `Compiler`: the counters and work lists of `Compile`
(`nextWireID`, `nextGateID`, `pending`, `assigned`, `compiled`) are not used
by the functions below and are left out. -/
structure Compiler where
  N1 : IOArgs
  N2 : IOArgs
  N3 : IOArgs
  Inputs : List Nat
  Outputs : List Nat
  Gates : List GateObj
  zeroWire : Option Nat
  deriving DecidableEq

/-- Function `NewIO`. -/
def NewIO (size : Int) : IOArgs := [{ Name := "", Typ := "", Size := size }]

/-- Function `NewWire`: allocates `&Wire{}`. -/
def NewWire (h : Heap) : Nat × Heap :=
  (h.length, h ++ [{ Output := false, Assigned := false, ID := 0 }])

/-- Function `NewOutputWire`: allocates `&Wire{Output: true}`. -/
def NewOutputWire (h : Heap) : Nat × Heap :=
  (h.length, h ++ [{ Output := true, Assigned := false, ID := 0 }])

/-- The first loop of `NewCompiler`: `n` rounds of
`Inputs = append(Inputs, NewWire())`. -/
def newInputs : Nat → List Nat → Heap → List Nat × Heap
  | 0, ws, h => (ws, h)
  | n + 1, ws, h => newInputs n (ws ++ [(NewWire h).1]) (NewWire h).2

/-- The second loop of `NewCompiler`: `n` rounds of
`Outputs = append(Outputs, NewOutputWire())`. -/
def newOutputs : Nat → List Nat → Heap → List Nat × Heap
  | 0, ws, h => (ws, h)
  | n + 1, ws, h => newOutputs n (ws ++ [(NewOutputWire h).1]) (NewOutputWire h).2

/-- Function `NewCompiler`.  The loop `for i := 0; i < n1.Size()+n2.Size(); i++`
runs as many rounds as the `int` sum says, none when it is not positive. -/
def NewCompiler (n1 n2 n3 : IOArgs) (h : Heap) : Compiler × Heap :=
  let ins := newInputs (wrapInt (n1.Size + n2.Size)).toNat [] h
  let outs := newOutputs n3.Size.toNat [] ins.2
  ({ N1 := n1, N2 := n2, N3 := n3, Inputs := ins.1, Outputs := outs.1, Gates := [],
     zeroWire := none }, outs.2)

/-- Method `Compiler.ZeroWire`: the wire returned, the compiler and the heap
after the call.  The slice expressions `c.Inputs[0:c.N1.Size()]` and
`c.Inputs[c.N1.Size():]` panic unless `0 ≤ N1.Size() ≤ len(Inputs)` (the
second one also when the bound is within the capacity only). -/
def ZeroWire (c : Compiler) (h : Heap) : Option (Nat × Compiler × Heap) :=
  match c.zeroWire with
  | some z => some (z, c, h)
  | none =>
    let z := NewWire h
    if 0 ≤ c.N1.Size ∧ c.N1.Size ≤ c.Inputs.length then
      let head := c.Inputs.take c.N1.Size.toNat ++ [z.1] ++ c.Inputs.drop c.N1.Size.toNat
      some (z.1, { c with
        zeroWire := some z.1
        Inputs := head
        N1 := c.N1 ++ [{ Name := "0", Typ := "", Size := 1 }] }, z.2)
    else none

/-- A run of `k` calls of `ZeroWire` on the same compiler, one after the
other. -/
def zeroWireCalls : Nat → Compiler → Heap → Option (Compiler × Heap)
  | 0, c, h => some (c, h)
  | k + 1, c, h =>
    match ZeroWire c h with
    | none => none
    | some r => zeroWireCalls k r.2.1 r.2.2

end Circuits

/-! ## Peer sessions (package `p2p`)

The connection (`Conn`), the OT endpoints of package `ot`, the listener and
the dialer are the environment of this package.  A `World` holds the replies
the environment is going to give, in order, and the trace of the calls made so
far.  Every call that returns something takes the next reply and records one
event; a call that returns nothing only records its event.  When the replies
are used up every further call fails.  Errors of the environment are opaque
codes.  When a function returns a non-nil error its other results are not
modelled.  Log output is not modelled.  A `big.Int` is an `Int`, a byte slice
is a list of numbers. -/

namespace P2P

/-- One answer of the environment: the error (`none` is a nil error), and the
values returned with it, as far as the call has any. -/
structure Reply where
  err : Option Nat
  num : Nat
  data : List Nat
  data2 : List Nat
  deriving DecidableEq

/-- The calls into the environment, with their arguments; a connection is
named by a number. -/
inductive Event where
  | sendUint32 (conn : Nat) (v : Int)
  | sendData (conn : Nat) (d : List Nat)
  | flush (conn : Nat)
  | receiveUint32 (conn : Nat)
  | receiveData (conn : Nat)
  | receive (conn : Nat) (idx : Nat) (bit : Nat)
  | close (conn : Nat)
  | newSender (bits : Nat)
  | newReceiver (pubN : List Nat) (pubE : Nat)
  | newTransfer (m0 m1 : List Nat)
  | randomMessages
  | receiveV (v : List Nat)
  | messages
  | dial (addr : String)
  | sleep
  | accept
  | listenerClose
  deriving DecidableEq

/-- The environment: the replies still to come, the calls made so far, and the
number of connections made so far by `NewConn`. -/
structure World where
  script : List Reply
  trace : List Event
  conns : Nat
  deriving DecidableEq

/-- Error values: an error passed on from the environment, and the two errors
made with `fmt.Errorf` in this package. -/
inductive Err where
  | env (code : Nat)
  | protocol (pc count : Int)
  | invalidOTResult (len : Nat)
  deriving DecidableEq

/-- Result of a call: a value with a nil error, a non-nil error, or a
run-time panic. -/
inductive Res (α : Type) where
  | ok (a : α)
  | err (e : Err)
  | panic
  deriving DecidableEq

/-- A method body: it runs in a world and leaves a result and a world. -/
abbrev M (α : Type) := World → Res α × World

/-- A call that returns something: the next reply is taken and the event is
recorded. -/
def call (e : Event) (w : World) : Reply × World :=
  match w.script with
  | [] => ({ err := some 0, num := 0, data := [], data2 := [] },
      { w with trace := w.trace ++ [e] })
  | r :: rs => (r, { w with script := rs, trace := w.trace ++ [e] })

/-- A call that returns nothing: the event is recorded. -/
def emit (e : Event) (w : World) : World := { w with trace := w.trace ++ [e] }

/-- A call followed by `if err != nil { return err }`. -/
def step {α : Type} (e : Event) (k : Reply → M α) : M α := fun w =>
  match (call e w).1.err with
  | some c => (.err (.env c), (call e w).2)
  | none => k (call e w).1 (call e w).2

/-- A call whose results do not include an error. -/
def ask {α : Type} (e : Event) (k : Reply → M α) : M α := fun w =>
  k (call e w).1 (call e w).2

/-- A call that returns nothing, followed by the rest of the body. -/
def tell {α : Type} (e : Event) (k : M α) : M α := fun w => k (emit e w)

/-- Sequencing: the second body runs only when the first returned a nil
error. -/
def M.bind {α β : Type} (m : M α) (f : α → M β) : M β := fun w =>
  match (m w).1 with
  | .ok a => f a (m w).2
  | .err e => (.err e, (m w).2)
  | .panic => (.panic, (m w).2)

/-- Struct `Peer`; the fields `otSender` and `otReceiver` refer to objects of
the environment and are left out. -/
structure Peer where
  id : Int
  conn : Nat
  client : Bool
  deriving DecidableEq

/-- Method `big.Int.Bit` at a non-negative index. -/
def bigBit (x : Int) (i : Nat) : Nat := if x.testBit i then 1 else 0

/-- Modelled from the spec: a label of package `ot`, given by its byte
serialization; package `ot` is missing. -/
structure Label where
  bytes : List Nat
  deriving DecidableEq

/-- Modelled from the spec: `ot.LabelFromData`, the label with the given
bytes; package `ot` is missing. -/
def LabelFromData (n : List Nat) : Label := { bytes := n }

/-- Modelled from the spec: method `Label.Bytes`; package `ot` is missing. -/
def Label.Bytes (l : Label) : List Nat := l.bytes

/-- The loop of `OTLambdaQuery`, with `n` rounds to go, at index `i`. -/
def otLambdaQueryLoop (peer : Peer) (choices : Int) : Nat → Nat → Nat → M Int
  | 0, _, result => fun w => (.ok (result : Int), w)
  | n + 1, i, result =>
    step (.receive peer.conn i (bigBit choices i)) fun r =>
      if r.data.length ≠ 1 then fun w => (.err (.invalidOTResult r.data.length), w)
      else if r.data.headD 0 ≠ 0 then otLambdaQueryLoop peer choices n (i + 1) (result ||| 2 ^ i)
      else otLambdaQueryLoop peer choices n (i + 1) result

/-- Method `Peer.OTLambdaQuery`. -/
def OTLambdaQuery (peer : Peer) (count : Int) (choices : Int) : M Int :=
  step (.sendUint32 peer.conn count) fun _ =>
  step (.flush peer.conn) fun _ =>
  otLambdaQueryLoop peer choices count.toNat 0 0

/-- The part of the loop bodies of `OTLambdaRespond` and `OTRRespond` that
serves one transfer of the messages `m0` and `m1`: from `NewTransfer` to the
last `Flush`. -/
def serveTransfer (peer : Peer) (m0 m1 : List Nat) : M Unit :=
  step (.newTransfer m0 m1) fun _ =>
  ask .randomMessages fun x =>
  step (.sendData peer.conn x.data) fun _ =>
  step (.sendData peer.conn x.data2) fun _ =>
  step (.flush peer.conn) fun _ =>
  step (.receiveData peer.conn) fun v =>
  tell (.receiveV v.data) <|
  step .messages fun mp =>
  step (.sendData peer.conn mp.data) fun _ =>
  step (.sendData peer.conn mp.data2) fun _ =>
  step (.flush peer.conn) fun _ => fun w => (.ok (), w)

/-- The loop of `OTLambdaRespond`, with `n` rounds to go. -/
def otLambdaRespondLoop (peer : Peer) (x1 x2 : Int) : Nat → M Unit
  | 0 => fun w => (.ok (), w)
  | n + 1 =>
    step (.receiveUint32 peer.conn) fun bit =>
      (serveTransfer peer [bigBit x1 bit.num] [bigBit x2 bit.num]).bind fun _ =>
        otLambdaRespondLoop peer x1 x2 n

/-- Method `Peer.OTLambdaRespond`. -/
def OTLambdaRespond (peer : Peer) (count : Int) (x1 x2 : Int) : M Unit :=
  step (.receiveUint32 peer.conn) fun pc =>
    if (pc.num : Int) ≠ count then fun w => (.err (.protocol pc.num count), w)
    else otLambdaRespondLoop peer x1 x2 count.toNat

/-- Method `Peer.OTLambda`. -/
def OTLambda (peer : Peer) (count : Int) (choices x1 x2 : Int) : M Int := fun w =>
  if peer.client then
    match (OTLambdaQuery peer count choices w).1 with
    | .err e => (.err e, (OTLambdaQuery peer count choices w).2)
    | .panic => (.panic, (OTLambdaQuery peer count choices w).2)
    | .ok result =>
      match (OTLambdaRespond peer count x1 x2 (OTLambdaQuery peer count choices w).2).1 with
      | .err e =>
        (.err e, (OTLambdaRespond peer count x1 x2 (OTLambdaQuery peer count choices w).2).2)
      | .panic =>
        (.panic, (OTLambdaRespond peer count x1 x2 (OTLambdaQuery peer count choices w).2).2)
      | .ok _ =>
        (.ok result, (OTLambdaRespond peer count x1 x2 (OTLambdaQuery peer count choices w).2).2)
  else
    match (OTLambdaRespond peer count x1 x2 w).1 with
    | .err e => (.err e, (OTLambdaRespond peer count x1 x2 w).2)
    | .panic => (.panic, (OTLambdaRespond peer count x1 x2 w).2)
    | .ok _ => OTLambdaQuery peer count choices (OTLambdaRespond peer count x1 x2 w).2

/-- The loop of `OTRQuery`, with `n` rounds to go, at index `i`; `result`
holds the labels stored so far. -/
def otrQueryLoop (peer : Peer) (choices : Int) : Nat → Nat → List Label → M (List Label)
  | 0, _, result => fun w => (.ok result, w)
  | n + 1, i, result =>
    step (.receive peer.conn i (bigBit choices i)) fun r =>
      otrQueryLoop peer choices n (i + 1) (result ++ [LabelFromData r.data])

/-- Method `Peer.OTRQuery`; `make([]ot.Label, count)` panics when `count` is
negative. -/
def OTRQuery (peer : Peer) (count : Int) (choices : Int) : M (List Label) :=
  step (.sendUint32 peer.conn count) fun _ =>
  step (.flush peer.conn) fun _ =>
    if count < 0 then fun w => (.panic, w)
    else otrQueryLoop peer choices count.toNat 0 []

/-- Method `Peer.OTRQueries`. -/
def OTRQueries (peer : Peer) (count : Int) (chA chB chC : Int) :
    M (List Label × List Label × List Label) :=
  (OTRQuery peer count chA).bind fun ra =>
  (OTRQuery peer count chB).bind fun rb =>
  (OTRQuery peer count chC).bind fun rc => fun w => (.ok (ra, rb, rc), w)

/-- The loop of `OTRRespond`, with `n` rounds to go; the index expressions
`x1[bit]` and `x2[bit]` panic when `bit` is out of range. -/
def otrRespondLoop (peer : Peer) (x1 x2 : List Label) : Nat → M Unit
  | 0 => fun w => (.ok (), w)
  | n + 1 =>
    step (.receiveUint32 peer.conn) fun bit =>
      match x1[bit.num]?, x2[bit.num]? with
      | some l1, some l2 =>
        (serveTransfer peer l1.Bytes l2.Bytes).bind fun _ => otrRespondLoop peer x1 x2 n
      | _, _ => fun w => (.panic, w)

/-- Method `Peer.OTRRespond`. -/
def OTRRespond (peer : Peer) (x1 x2 : List Label) : M Unit :=
  step (.receiveUint32 peer.conn) fun pc =>
    if pc.num ≠ x1.length then fun w => (.err (.protocol pc.num x1.length), w)
    else otrRespondLoop peer x1 x2 x1.length

/-- Method `Peer.OTRResponses`. -/
def OTRResponses (peer : Peer) (x1Ag x2Ag x1Bg x2Bg x1Cg x2Cg : List Label) : M Unit :=
  (OTRRespond peer x1Ag x2Ag).bind fun _ =>
  (OTRRespond peer x1Bg x2Bg).bind fun _ =>
  OTRRespond peer x1Cg x2Cg

/-- Method `Peer.OTR`. -/
def OTR (peer : Peer) (chA chB chC : Int) (x1Ag x2Ag x1Bg x2Bg x1Cg x2Cg : List Label) :
    M (List Label × List Label × List Label) := fun w =>
  if peer.client then
    match (OTRQueries peer x1Ag.length chA chB chC w).1 with
    | .err e => (.err e, (OTRQueries peer x1Ag.length chA chB chC w).2)
    | .panic => (.panic, (OTRQueries peer x1Ag.length chA chB chC w).2)
    | .ok r =>
      match (OTRResponses peer x1Ag x2Ag x1Bg x2Bg x1Cg x2Cg
          (OTRQueries peer x1Ag.length chA chB chC w).2).1 with
      | .err e => (.err e, (OTRResponses peer x1Ag x2Ag x1Bg x2Bg x1Cg x2Cg
          (OTRQueries peer x1Ag.length chA chB chC w).2).2)
      | .panic => (.panic, (OTRResponses peer x1Ag x2Ag x1Bg x2Bg x1Cg x2Cg
          (OTRQueries peer x1Ag.length chA chB chC w).2).2)
      | .ok _ => (.ok r, (OTRResponses peer x1Ag x2Ag x1Bg x2Bg x1Cg x2Cg
          (OTRQueries peer x1Ag.length chA chB chC w).2).2)
  else
    match (OTRResponses peer x1Ag x2Ag x1Bg x2Bg x1Cg x2Cg w).1 with
    | .err e => (.err e, (OTRResponses peer x1Ag x2Ag x1Bg x2Bg x1Cg x2Cg w).2)
    | .panic => (.panic, (OTRResponses peer x1Ag x2Ag x1Bg x2Bg x1Cg x2Cg w).2)
    | .ok _ => OTRQueries peer x1Ag.length chA chB chC
        (OTRResponses peer x1Ag x2Ag x1Bg x2Bg x1Cg x2Cg w).2

/-- The number of calls of `NewTransfer` in a trace. -/
def newTransferCalls (t : List Event) : Nat :=
  (t.filter fun e => match e with
    | .newTransfer _ _ => true
    | _ => false).length

/-- The body only adds calls to the trace. -/
def Grows {α : Type} (m : M α) : Prop := ∀ w, w.trace <+: (m w).2.trace

/-- The body calls `NewTransfer` at most `n` times, and exactly `n` times when
it returns a nil error. -/
def Serves {α : Type} (m : M α) (n : Nat) : Prop :=
  ∀ w, newTransferCalls (m w).2.trace ≤ newTransferCalls w.trace + n ∧
    ∀ a, (m w).1 = .ok a → newTransferCalls (m w).2.trace = newTransferCalls w.trace + n

/-- The body `whole`, run in `w`, runs `first` to its end and then, only when
`first` returned a nil error, runs `second` in the world that `first` left:
an error or panic of `first` is the result of `whole` and nothing is done
after it; otherwise `whole` ends in the world that `second` leaves, with the
error or panic of `second` if there is one. -/
def RunsInOrder {α β γ : Type} (first : M α) (second : M β) (whole : M γ) (w : World) : Prop :=
  w.trace <+: (first w).2.trace ∧
  (∀ e, (first w).1 = .err e → whole w = (.err e, (first w).2)) ∧
  ((first w).1 = .panic → whole w = (.panic, (first w).2)) ∧
  (∀ a, (first w).1 = .ok a →
    (whole w).2 = (second (first w).2).2 ∧
    (first w).2.trace <+: (whole w).2.trace ∧
    (∀ e, (second (first w).2).1 = .err e → (whole w).1 = .err e) ∧
    ((second (first w).2).1 = .panic → (whole w).1 = .panic) ∧
    (∀ b, (second (first w).2).1 = .ok b → ∃ c, (whole w).1 = .ok c))

/-! ### The network and its peer map

The accept loop and the goroutine of `Peer.init` run concurrently with the
other methods in the source.  Here every method runs alone, and `Peer.init`
runs its goroutine to the end before the rest of its body, so the replies are
taken in that order. -/

/-- Go map `map[int]*Peer`: its entries, with pairwise distinct keys. -/
abbrev PeerMap := List (Int × Peer)

/-- Map lookup `m[id]`. -/
def PeerMap.lookup (m : PeerMap) (id : Int) : Option Peer :=
  (m.find? (fun p => decide (p.1 = id))).map Prod.snd

/-- Map assignment `m[id] = peer`. -/
def PeerMap.set (m : PeerMap) (id : Int) (peer : Peer) : PeerMap :=
  m.filter (fun p => decide (p.1 ≠ id)) ++ [(id, peer)]

/-- Struct `Network`: the mutex, the address and the listener belong to the
environment and are left out. -/
structure Network where
  ID : Int
  Peers : PeerMap
  deriving DecidableEq

/-- Function `NewConn`: a new connection object. -/
def NewConn (w : World) : Nat × World := (w.conns, { w with conns := w.conns + 1 })

/-- The goroutine of `Peer.init`: it reads the peer's public key and makes the
OT receiver; its result is what it sends on the channel `finished`. -/
def initReceive (peer : Peer) : M Unit :=
  step (.receiveData peer.conn) fun pubN =>
  step (.receiveUint32 peer.conn) fun pubE =>
  step (.newReceiver pubN.data pubE.num) fun _ => fun w => (.ok (), w)

/-- Method `Peer.init`: the reply to `ot.NewSender` carries the public key,
`data` its modulus and `num` its exponent.  An error of the body is returned
after the goroutine has finished; without one the result of the goroutine is
returned.  The error of the last `Flush` is dropped. -/
def Peer.init (peer : Peer) : M Unit := fun w =>
  (step (.newSender 2048) fun sender =>
    step (.sendData peer.conn sender.data) fun _ =>
    step (.sendUint32 peer.conn sender.num) fun _ =>
    ask (.flush peer.conn) fun _ => fun w1 => ((initReceive peer w).1, w1))
  (initReceive peer w).2

/-- Method `Network.newPeer`. -/
def newPeer (client : Bool) (conn : Nat) (id : Int) (nw : Network) (w : World) :
    Res Unit × Network × World :=
  match nw.Peers.lookup id with
  | some _ =>
    match (call (.close conn) w).1.err with
    | some c => (.err (.env c), nw, (call (.close conn) w).2)
    | none => (.ok (), nw, (call (.close conn) w).2)
  | none =>
    let peer : Peer := { id := id, conn := conn, client := client }
    ((peer.init w).1, { nw with Peers := nw.Peers.set id peer }, (peer.init w).2)

/-- Method `Network.AddPeer`, with a bound on the number of rounds of its
loop: the result is `none` when the bound is reached before the method
returns.  An error of `newPeer` is printed and the loop goes on. -/
def AddPeer (addr : String) (id : Int) :
    Nat → Network → World → Option (Res Unit) × Network × World
  | 0, nw, w => (none, nw, w)
  | n + 1, nw, w =>
    match nw.Peers.lookup id with
    | some _ => (some (.ok ()), nw, w)
    | none =>
      match (call (.dial addr) w).1.err with
      | some _ => AddPeer addr id n nw (emit .sleep (call (.dial addr) w).2)
      | none =>
        let c := NewConn (call (.dial addr) w).2
        let s := call (.sendUint32 c.1 nw.ID) c.2
        match s.1.err with
        | some e => (some (.err (.env e)), nw, (call (.close c.1) s.2).2)
        | none =>
          let f := call (.flush c.1) s.2
          match f.1.err with
          | some e => (some (.err (.env e)), nw, (call (.close c.1) f.2).2)
          | none =>
            let r := newPeer true c.1 id nw f.2
            match r.1 with
            | .panic => (some .panic, r.2.1, r.2.2)
            | _ => AddPeer addr id n r.2.1 r.2.2

/-- Method `Network.acceptLoop`, with a bound on the number of rounds of its
loop: the result says whether the method returned. -/
def acceptLoop : Nat → Network → World → Bool × Network × World
  | 0, nw, w => (false, nw, w)
  | n + 1, nw, w =>
    match (call .accept w).1.err with
    | some _ => (true, nw, (call .accept w).2)
    | none =>
      let c := NewConn (call .accept w).2
      let i := call (.receiveUint32 c.1) c.2
      match i.1.err with
      | some _ => acceptLoop n nw (call (.close c.1) i.2).2
      | none =>
        let r := newPeer false c.1 i.1.num nw i.2
        acceptLoop n r.2.1 r.2.2

/-- Method `Peer.Ping`. -/
def Peer.Ping (peer : Peer) : M Unit :=
  step (.sendUint32 peer.conn 0xffffffff) fun _ =>
  step (.flush peer.conn) fun _ => fun w => (.ok (), w)

/-- Method `Network.Ping`: the errors of the peers are dropped. -/
def Ping (nw : Network) (w : World) : Network × World :=
  (nw, nw.Peers.foldl (fun w1 p => (p.2.Ping w1).2) w)

/-- Method `Network.Close`. -/
def Close (nw : Network) (w : World) : Res Unit × Network × World :=
  match (call .listenerClose w).1.err with
  | some c => (.err (.env c), nw, (call .listenerClose w).2)
  | none => (.ok (), nw, (call .listenerClose w).2)

/-- Method `Network.Stats`: it reads the counters of the connection of every
peer; the sum is given as the list of the connections read. -/
def Stats (nw : Network) : List Nat × Network :=
  (nw.Peers.map fun p => p.2.conn, nw)

end P2P

/-! ### Constants of the compiler -/

namespace Circuits

/-- Modelled from the spec: constructor `NewINV` of the gate objects, which is
missing: the gate object of an `INV` gate from wire `i` to wire `o`. -/
def NewINV (i o : Nat) : GateObj := { Op := INV, Inputs := [i], Outputs := [o] }

/-- Method `Compiler.AddGate`. -/
def AddGate (c : Compiler) (gate : GateObj) : Compiler := { c with Gates := c.Gates ++ [gate] }

/-- Method `Compiler.Zero`: the wire `w` is allocated before `ZeroWire` is
called. -/
def Zero (c : Compiler) (o : Nat) (h : Heap) : Option (Compiler × Heap) :=
  match ZeroWire c (NewWire h).2 with
  | none => none
  | some r =>
    some (AddGate (AddGate r.2.1 (NewINV r.1 (NewWire h).1)) (NewINV (NewWire h).1 o), r.2.2)

/-- Method `Compiler.One`. -/
def One (c : Compiler) (o : Nat) (h : Heap) : Option (Compiler × Heap) :=
  match ZeroWire c h with
  | none => none
  | some r => some (AddGate r.2.1 (NewINV r.1 o), r.2.2)

/-- A request for a constant on the output wire `o`: a call of `Zero` or of
`One`. -/
inductive Const where
  | zero (o : Nat)
  | one (o : Nat)
  deriving DecidableEq

/-- A run of requests for constants on the same compiler, one after the
other. -/
def constants : List Const → Compiler → Heap → Option (Compiler × Heap)
  | [], c, h => some (c, h)
  | .zero o :: ks, c, h =>
    match Zero c o h with
    | none => none
    | some r => constants ks r.1 r.2
  | .one o :: ks, c, h =>
    match One c o h with
    | none => none
    | some r => constants ks r.1 r.2

end Circuits

/-! ### The calls of a query -/

namespace P2P

/-- The calls that a complete run of `OTLambdaQuery` makes, in order: the
count is sent and flushed, then one transfer is received for each index below
`count`, with the choice bit of that index. -/
def queryCalls (conn : Nat) (count choices : Int) : List Event :=
  [.sendUint32 conn count, .flush conn] ++
    (List.range count.toNat).map fun i => .receive conn i (bigBit choices i)

/-- The message of reply `i` of a list of replies exists and its first byte is
not zero. -/
def delivered (rs : List Reply) (i : Nat) : Bool :=
  match rs[i]? with
  | some r => decide (r.data.headD 0 ≠ 0)
  | none => false

end P2P

/-! ### The calls of a served transfer -/

namespace P2P

/-- The calls of one served transfer of the messages `m0` and `m1`, given the
replies to the ten calls that take one: `NewTransfer` with the two messages,
`RandomMessages`, the two random messages sent and flushed, `ReceiveData`,
`ReceiveV` with the data received, `Messages`, and the two messages it
returned sent and flushed. -/
def transferCalls (conn : Nat) (m0 m1 : List Nat) (rs : List Reply) : List Event :=
  match rs with
  | _ :: x :: _ :: _ :: _ :: v :: mp :: _ =>
    [.newTransfer m0 m1, .randomMessages, .sendData conn x.data, .sendData conn x.data2,
      .flush conn, .receiveData conn, .receiveV v.data, .messages,
      .sendData conn mp.data, .sendData conn mp.data2, .flush conn]
  | _ => []

/-- The calls of `n` served transfers, given the replies: each is a
`ReceiveUint32` that reads an index `b`, followed by the calls of one transfer
of the messages `msgs b`. -/
def servedCalls (conn : Nat) (msgs : Nat → List Nat × List Nat) : Nat → List Reply → List Event
  | 0, _ => []
  | _ + 1, [] => []
  | n + 1, b :: rs =>
    .receiveUint32 conn :: (transferCalls conn (msgs b.num).1 (msgs b.num).2 (rs.take 10) ++
      servedCalls conn msgs n (rs.drop 10))

/-- The indexes read by `n` served transfers, given the replies. -/
def servedIndexes : Nat → List Reply → List Nat
  | 0, _ => []
  | _ + 1, [] => []
  | n + 1, b :: rs => b.num :: servedIndexes n (rs.drop 10)

/-- The bytes of the label `x[b]`, none when `b` is out of range. -/
def labelAt (x : List Label) (b : Nat) : List Nat :=
  match x[b]? with
  | some l => l.Bytes
  | none => []

end P2P

/-! ## The lexer of the compiler (`compiler/lexer.go`)

The input behind the `bufio.Reader` is the list of the runes that its
`ReadRune` delivers, followed by `io.EOF`.  The functions `unicode.IsLetter`
and `unicode.IsDigit` and the map `ast.Types` are parameters of the model. -/

namespace Lex

/-- Type `TokenType`. -/
inductive TokenType where
  | T_Identifier
  | T_Symbol
  | T_SymPackage
  | T_SymFunc
  | T_SymReturn
  | T_Type
  | T_Mult
  | T_MultEq
  | T_Div
  | T_DivEq
  | T_Plus
  | T_PlusPlus
  | T_PlusEq
  | T_Minus
  | T_MinusMinus
  | T_MinusEq
  | T_LParen
  | T_RParen
  | T_LBrace
  | T_RBrace
  | T_Comma
  deriving DecidableEq

/-- Struct `ast.Point`: a position in the source, with the fields that
`NewLexer` and `ReadRune` set. -/
structure Point where
  Line : Int
  Col : Int
  deriving DecidableEq

/-- Struct `ast.TypeInfo`: the type found in `ast.Types` and the number of
bits. -/
structure TypeInfo where
  Typ : Nat
  Bits : Int
  deriving DecidableEq

/-- Struct `Token`. -/
structure Token where
  Typ : TokenType
  From : Point
  To : Point
  StrVal : List Char
  TypeInfo : TypeInfo
  deriving DecidableEq

/-- Errors that `Get` returns: `io.EOF` of the reader and the error made with
`fmt.Errorf` for an unexpected character. -/
inductive LexError where
  | eof
  | unexpected (point : Point) (r : Char)
  deriving DecidableEq

deriving instance DecidableEq for Except

/-- The library functions that the lexer calls and that are not modelled:
`unicode.IsLetter`, `unicode.IsDigit` and the lookup in the map `ast.Types`. -/
structure Lib where
  IsLetter : Char → Bool
  IsDigit : Char → Bool
  Types : List Char → Option Nat

/-- Struct `Lexer`; the field `input` holds the runes that the reader `in` has
still to deliver. -/
structure Lexer where
  input : List Char
  point : Point
  tokenStart : Point
  ungot : Option Token
  unread : Bool
  unreadRune : Char
  unreadPoint : Point
  deriving DecidableEq

/-- A library for examples: the letters and digits of ASCII, and the types
`int` and `float`. -/
def asciiLib : Lib :=
  { IsLetter := Char.isAlpha, IsDigit := Char.isDigit,
    Types := fun s => if s = "int".toList then some 1 else if s = "float".toList then some 2
      else none }

/-- Function `NewLexer`. -/
def NewLexer (text : List Char) : Lexer :=
  { input := text, point := { Line := 1, Col := 0 }, tokenStart := { Line := 0, Col := 0 },
    ungot := none, unread := false, unreadRune := Char.ofNat 0,
    unreadPoint := { Line := 0, Col := 0 } }

/-- Function `unicode.IsSpace`: the code points with the property White_Space. -/
def IsSpace (r : Char) : Bool :=
  (0x09 ≤ r.toNat && r.toNat ≤ 0x0d) || r.toNat = 0x20 || r.toNat = 0x85 || r.toNat = 0xa0 ||
    r.toNat = 0x1680 || (0x2000 ≤ r.toNat && r.toNat ≤ 0x200a) || r.toNat = 0x2028 ||
    r.toNat = 0x2029 || r.toNat = 0x202f || r.toNat = 0x205f || r.toNat = 0x3000

/-- Method `Lexer.ReadRune`. -/
def Lexer.ReadRune (l : Lexer) : Except LexError Char × Lexer :=
  if l.unread then
    (.ok l.unreadRune, { l with point := l.unreadPoint, unreadPoint := l.point, unread := false })
  else
    match l.input with
    | [] => (.error .eof, l)
    | r :: rest =>
      if r = '\n' then
        (.ok r, { l with input := rest, unreadPoint := l.point,
                         point := { Line := wrapInt (l.point.Line + 1), Col := 0 } })
      else
        (.ok r, { l with input := rest, unreadPoint := l.point,
                         point := { l.point with Col := wrapInt (l.point.Col + 1) } })

/-- The number of runes that `ReadRune` can still return: the rune pushed
back, if there is one, and the runes of the input. -/
def Lexer.pending (l : Lexer) : Nat := (if l.unread then 1 else 0) + l.input.length

/-- Method `Lexer.UnreadRune`. -/
def Lexer.UnreadRune (l : Lexer) (r : Char) : Lexer :=
  { l with point := l.unreadPoint, unreadPoint := l.point, unreadRune := r, unread := true }

/-- Method `Lexer.Token`. -/
def Lexer.Token (l : Lexer) (t : TokenType) : Lex.Token :=
  { Typ := t, From := l.tokenStart, To := l.point, StrVal := [],
    TypeInfo := { Typ := 0, Bits := 0 } }

/-- Method `Lexer.Unget`. -/
def Lexer.Unget (l : Lexer) (t : Lex.Token) : Lexer := { l with ungot := some t }

/-- The map `symbols`. -/
def symbols (s : List Char) : Option TokenType :=
  if s = "package".toList then some .T_SymPackage
  else if s = "func".toList then some .T_SymFunc
  else if s = "return".toList then some .T_SymReturn
  else none

/-- Call `reType.FindStringSubmatch(symbol)` for the POSIX expression
`^(int|float)([[:digit:]]*)$`: the two submatches, if the symbol matches. -/
def reTypeMatch (symbol : List Char) : Option (List Char × List Char) :=
  if "float".toList.isPrefixOf symbol ∧ (symbol.drop 5).all isDigit then
    some ("float".toList, symbol.drop 5)
  else if "int".toList.isPrefixOf symbol ∧ (symbol.drop 3).all isDigit then
    some ("int".toList, symbol.drop 3)
  else none

/-- The value that `strconv.Atoi` returns for a string of decimal digits, with
its error dropped: 0 for the empty string, the largest `int` when the number
is out of range. -/
def atoiValue (digits : List Char) : Int :=
  match digitsValue digits 0 with
  | some n => if n < 2 ^ 63 then (n : Int) else 2 ^ 63 - 1
  | none => 0

/-- The inner loop of `Get` that skips a comment: runes are read up to and
including the next newline; `fuel` bounds the number of rounds. -/
def skipComment : Nat → Lexer → Option LexError × Lexer
  | 0, l => (some .eof, l)
  | fuel + 1, l =>
    match l.ReadRune.1 with
    | .error err => (some err, l.ReadRune.2)
    | .ok r => if r = '\n' then (none, l.ReadRune.2) else skipComment fuel l.ReadRune.2

/-- The inner loop of `Get` that reads the rest of a symbol: letters and
digits are appended to `symbol`, another rune is pushed back, the end of the
input ends the symbol and another error is returned; `fuel` bounds the number
of rounds. -/
def readSymbol (lib : Lib) : Nat → List Char → Lexer → Except LexError (List Char) × Lexer
  | 0, symbol, l => (.ok symbol, l)
  | fuel + 1, symbol, l =>
    match l.ReadRune.1 with
    | .error .eof => (.ok symbol, l.ReadRune.2)
    | .error err => (.error err, l.ReadRune.2)
    | .ok r =>
      if !lib.IsLetter r && !lib.IsDigit r then (.ok symbol, l.ReadRune.2.UnreadRune r)
      else readSymbol lib fuel (symbol ++ [r]) l.ReadRune.2

/-- The code of `Get` after the loop that reads a symbol. -/
def symbolToken (lib : Lib) (symbol : List Char) (l : Lexer) : Token :=
  match symbols symbol with
  | some tt => l.Token tt
  | none =>
    match reTypeMatch symbol with
    | some (name, digits) =>
      match lib.Types name with
      | some tt =>
        { l.Token .T_Type with
          TypeInfo := { Typ := tt, Bits := atoiValue digits }
          StrVal := symbol }
      | none => { l.Token .T_Identifier with StrVal := symbol }
    | none => { l.Token .T_Identifier with StrVal := symbol }

/-- The code of `Get` for an operator `r` whose token may take a second rune:
`two` lists the second runes and their tokens, `one` is the token of the
operator alone.  The lexer `l` is the state after the operator was read. -/
def operator (l : Lexer) (one : TokenType) (two : List (Char × TokenType)) :
    Except LexError Token × Lexer :=
  match l.ReadRune.1 with
  | .error .eof => (.ok (l.ReadRune.2.Token one), l.ReadRune.2)
  | .error err => (.error err, l.ReadRune.2)
  | .ok r =>
    match two.find? (fun p => p.1 = r) with
    | some p => (.ok (l.ReadRune.2.Token p.2), l.ReadRune.2)
    | none => (.ok ((l.ReadRune.2.UnreadRune r).Token one), l.ReadRune.2.UnreadRune r)

/-- The code of `Get` for the rune `/`: the token `/=`, the token `/`, or a
comment that runs to the end of the line, after which the loop of `Get` goes
on (`again`).  The lexer `l` is the state after the `/` was read. -/
def slash (l : Lexer) (again : Lexer → Except LexError Lex.Token × Lexer) :
    Except LexError Lex.Token × Lexer :=
  match l.ReadRune.1 with
  | .error .eof => (.ok (l.ReadRune.2.Token .T_Div), l.ReadRune.2)
  | .error err => (.error err, l.ReadRune.2)
  | .ok r =>
    if r = '/' then
      match (skipComment (l.ReadRune.2.input.length + 1) l.ReadRune.2).1 with
      | some err => (.error err, (skipComment (l.ReadRune.2.input.length + 1) l.ReadRune.2).2)
      | none => again (skipComment (l.ReadRune.2.input.length + 1) l.ReadRune.2).2
    else if r = '=' then (.ok (l.ReadRune.2.Token .T_DivEq), l.ReadRune.2)
    else (.ok ((l.ReadRune.2.UnreadRune r).Token .T_Div), l.ReadRune.2.UnreadRune r)

/-- The body of the outer loop of `Get` after the rune `r` was read, `l1`
being the state after that read; `again` stands for `continue`, the next round
of the loop. -/
def getBody (lib : Lib) (r : Char) (l1 : Lexer)
    (again : Lexer → Except LexError Lex.Token × Lexer) : Except LexError Lex.Token × Lexer :=
  if IsSpace r then again l1
  else if r = '+' then operator l1 .T_Plus [('+', .T_PlusPlus), ('=', .T_PlusEq)]
  else if r = '-' then operator l1 .T_Minus [('-', .T_MinusMinus), ('=', .T_MinusEq)]
  else if r = '*' then operator l1 .T_Mult [('=', .T_MultEq)]
  else if r = '/' then slash l1 again
  else if r = '(' then (.ok (l1.Token .T_LParen), l1)
  else if r = ')' then (.ok (l1.Token .T_RParen), l1)
  else if r = '\x7b' then (.ok (l1.Token .T_LBrace), l1)
  else if r = '\x7d' then (.ok (l1.Token .T_RBrace), l1)
  else if r = ',' then (.ok (l1.Token .T_Comma), l1)
  else if lib.IsLetter r then
    match (readSymbol lib (l1.input.length + 1) [r] l1).1 with
    | .error err => (.error err, (readSymbol lib (l1.input.length + 1) [r] l1).2)
    | .ok symbol =>
      (.ok (symbolToken lib symbol (readSymbol lib (l1.input.length + 1) [r] l1).2),
        (readSymbol lib (l1.input.length + 1) [r] l1).2)
  else (.error (.unexpected (l1.UnreadRune r).point r), l1.UnreadRune r)

/-- The outer loop of `Get`: `tokenStart` is set, a rune is read, and the body
runs; `fuel` bounds the number of rounds. -/
def getLoop (lib : Lib) : Nat → Lexer → Except LexError Lex.Token × Lexer
  | 0, l => (.error .eof, l)
  | fuel + 1, l =>
    match ({ l with tokenStart := l.point } : Lexer).ReadRune.1 with
    | .error err => (.error err, ({ l with tokenStart := l.point } : Lexer).ReadRune.2)
    | .ok r => getBody lib r ({ l with tokenStart := l.point } : Lexer).ReadRune.2 (getLoop lib fuel)

/-- Method `Lexer.Get`. -/
def Lexer.Get (lib : Lib) (l : Lexer) : Except LexError Lex.Token × Lexer :=
  match l.ungot with
  | some token => (.ok token, { l with ungot := none })
  | none => getLoop lib (l.input.length + 2) l

/-- The rounds of the loop of `Get` that read white space: the state in which
the loop reads the first rune that is not white space, or finds the end of the
input; `fuel` bounds the number of rounds. -/
def skipSpace : Nat → Lexer → Lexer
  | 0, l => l
  | fuel + 1, l =>
    match ({ l with tokenStart := l.point } : Lexer).ReadRune.1 with
    | .ok r =>
      if IsSpace r then skipSpace fuel ({ l with tokenStart := l.point } : Lexer).ReadRune.2
      else l
    | .error _ => l

end Lex

/-! # Theorems -/

/-! ## Lines of a text -/

theorem reSplit_ne_nil (s : List Char) : reSplit s ≠ [] := by
  induction s with
  | nil => simp [reSplit]
  | cons c cs ih =>
    unfold reSplit
    split
    · cases cs with
      | nil => simp
      | cons d ds =>
        simp only
        split
        · exact ih
        · simp
    · split <;> simp

theorem readString_nl (cs : List Char) : ReadString ('\n' :: cs) = (['\n'], false, cs) := by
  simp [ReadString]

theorem readString_ne (c : Char) (cs : List Char) (hc : c ≠ '\n') :
    ReadString (c :: cs) = (c :: (ReadString cs).1, (ReadString cs).2.1, (ReadString cs).2.2) := by
  simp [ReadString, hc]

theorem splitLines_nl (cs : List Char) :
    splitLines ('\n' :: cs) = ([] :: (splitLines cs).1, (splitLines cs).2) := by
  simp [splitLines]

theorem splitLines_ne (c : Char) (cs : List Char) (hc : c ≠ '\n') :
    splitLines (c :: cs) =
      match (splitLines cs).1 with
      | [] => ([], c :: (splitLines cs).2)
      | l :: ls => ((c :: l) :: ls, (splitLines cs).2) := by
  simp [splitLines, hc]

theorem readString_eof (r : List Char) (h : (ReadString r).2.1 = true) :
    (splitLines r).1 = [] ∧ (ReadString r).2.2 = [] := by
  induction r with
  | nil => simp [splitLines, ReadString]
  | cons c cs ih =>
    by_cases hc : c = '\n'
    · subst hc
      rw [readString_nl] at h
      simp at h
    · rw [readString_ne c cs hc] at h ⊢
      rw [splitLines_ne c cs hc]
      have h2 := ih h
      rw [h2.1]
      exact ⟨rfl, h2.2⟩

theorem readString_line (r : List Char) (h : (ReadString r).2.1 = false) :
    ∃ l, (ReadString r).1 = l ++ ['\n'] ∧
      splitLines r = (l :: (splitLines (ReadString r).2.2).1, (splitLines (ReadString r).2.2).2) ∧
      (ReadString r).2.2.length < r.length := by
  induction r with
  | nil => simp [ReadString] at h
  | cons c cs ih =>
    by_cases hc : c = '\n'
    · subst hc
      rw [readString_nl, splitLines_nl]
      exact ⟨[], rfl, rfl, by simp⟩
    · rw [readString_ne c cs hc] at h ⊢
      rw [splitLines_ne c cs hc]
      obtain ⟨l, h1, h2, h3⟩ := ih h
      refine ⟨c :: l, by simp [h1], ?_, by simp only [List.length_cons]; omega⟩
      rw [h2]

theorem readLineLoop_spec (fuel : Nat) (r : List Char) (hf : r.length < fuel) :
    match readLineLoop fuel r with
    | (.ok line, rest) => textLines r = line :: textLines rest ∧ rest.length < r.length
    | (.err e, _) => e = .eof ∧ textLines r = []
    | (.panic, _) => False := by
  induction fuel generalizing r with
  | zero => omega
  | succ n ih =>
    unfold readLineLoop
    rcases hrs : ReadString r with ⟨line, eof, rest⟩
    cases eof with
    | true =>
      have := readString_eof r (by rw [hrs])
      simp [textLines, this.1]
    | false =>
      obtain ⟨l, h1, h2, h3⟩ := readString_line r (by rw [hrs])
      rw [hrs] at h1 h2 h3
      simp only at h1 h2 h3
      simp only
      have hrec := ih rest (by omega)
      by_cases hl : line.length = 1
      · simp only [hl, if_true]
        have hl0 : l = [] := by
          rw [h1] at hl
          simpa using hl
        have ht : textLines r = textLines rest := by
          simp [textLines, h2, hl0]
        rw [ht]
        revert hrec
        split
        · rintro ⟨ha, hb⟩
          exact ⟨ha, by omega⟩
        · exact id
        · exact id
      · simp only [hl, if_false]
        have hl0 : l ≠ [] := by
          intro h0
          apply hl
          rw [h1, h0]; rfl
        have hp : (reSplit line.dropLast).length > 0 :=
          List.length_pos.mpr (reSplit_ne_nil _)
        simp only [hp, if_true]
        refine ⟨?_, h3⟩
        simp [textLines, h2, hl0, h1]

theorem readLine_spec (r : List Char) :
    match readLine r with
    | (.ok line, rest) => textLines r = line :: textLines rest ∧ rest.length < r.length
    | (.err e, _) => e = .eof ∧ textLines r = []
    | (.panic, _) => False :=
  readLineLoop_spec (r.length + 1) r (Nat.lt_succ_self _)

/-! ## `Parse` as a function of the lines -/

@[simp] theorem Outcome.bind_ok {α β : Type} (a : α) (f : α → Outcome β) :
    (Outcome.ok a).bind f = f a := rfl

@[simp] theorem Outcome.bind_err {α β : Type} (e : ParseError) (f : α → Outcome β) :
    (Outcome.err e : Outcome α).bind f = .err e := rfl

@[simp] theorem Outcome.bind_panic {α β : Type} (f : α → Outcome β) :
    (Outcome.panic : Outcome α).bind f = .panic := rfl

theorem Outcome.bind_assoc {α β γ : Type} (x : Outcome α) (f : α → Outcome β)
    (g : β → Outcome γ) : (x.bind f).bind g = x.bind fun a => (f a).bind g := by
  cases x <;> rfl

theorem Outcome.bind_eq_ok {α β : Type} {x : Outcome α} {f : α → Outcome β} {b : β}
    (h : x.bind f = .ok b) : ∃ a, x = .ok a ∧ f a = .ok b := by
  cases x with
  | ok a => exact ⟨a, rfl, h⟩
  | err e => simp at h
  | panic => simp at h

theorem gateMap_set_fresh (m : GateMap) (k : Int) (g : Gate) (h : ∀ p ∈ m, p.1 < k) :
    m.set k g = m ++ [(k, g)] := by
  unfold GateMap.set
  congr 1
  apply List.filter_eq_self.mpr
  intro p hp
  have := h p hp
  simp only [ne_eq, decide_not, Bool.not_eq_true', decide_eq_false_iff_not]
  omega

theorem gateLoop_eq (fuel : Nat) (r : List Char) (n : Nat) (gates : GateMap)
    (hf : r.length < fuel) (hk : ∀ p ∈ gates, p.1 < (n : Int)) :
    gateLoop fuel r n gates =
      (parseGateList n (textLines r)).bind fun gs => .ok (gates ++ gatesFrom n gs) := by
  induction fuel generalizing r n gates with
  | zero => omega
  | succ f ih =>
    unfold gateLoop
    have hs := readLine_spec r
    rcases hrl : readLine r with ⟨o, rest⟩
    rw [hrl] at hs
    cases o with
    | panic => exact hs.elim
    | err e =>
      obtain ⟨he, ht⟩ := hs
      subst he
      simp [ht, parseGateList, gatesFrom]
    | ok line =>
      obtain ⟨ht, hl⟩ := hs
      simp only
      rw [ht]
      simp only [parseGateList]
      rw [Outcome.bind_assoc]
      congr 1
      funext g
      rw [gateMap_set_fresh gates n g hk]
      have := ih rest (n + 1) (gates ++ [((n : Int), g)]) (by omega) (by
        intro p hp
        rcases List.mem_append.mp hp with h | h
        · have := hk p h
          push_cast
          omega
        · simp only [List.mem_singleton] at h
          subst h
          push_cast
          simp)
      rw [show ((n : Int) + 1) = ((n + 1 : Nat) : Int) by push_cast; rfl, this]
      rw [Outcome.bind_assoc]
      congr 1
      funext gs
      simp [gatesFrom]

theorem Parse_eq (t : List Char) : Parse t = parseLines (textLines t) := by
  unfold Parse
  have hs := readLine_spec t
  rcases hrl : readLine t with ⟨o, r1⟩
  rw [hrl] at hs
  cases o with
  | panic => exact hs.elim
  | err e =>
    obtain ⟨he, ht⟩ := hs
    simp [ht, he, parseLines]
  | ok line1 =>
    obtain ⟨ht, _⟩ := hs
    rw [ht]
    simp only [parseLines]
    split
    · rfl
    · congr 1; funext a0; congr 1; funext numGates; congr 1; funext a1; congr 1; funext numWires
      have hs2 := readLine_spec r1
      rcases hrl2 : readLine r1 with ⟨o2, r2⟩
      rw [hrl2] at hs2
      cases o2 with
      | panic => exact hs2.elim
      | err e =>
        obtain ⟨he, ht2⟩ := hs2
        simp [ht2, he]
      | ok line2 =>
        obtain ⟨ht2, _⟩ := hs2
        rw [ht2]
        simp only
        split
        · rfl
        · congr 1; funext b0; congr 1; funext n1; congr 1; funext b1; congr 1; funext n2
          congr 1; funext b2; congr 1; funext n3
          have := gateLoop_eq (r2.length + 1) r2 0 [] (Nat.lt_succ_self _) (by simp)
          simp only [Nat.cast_zero, List.nil_append] at this
          rw [this, Outcome.bind_assoc]
          rfl

/-! ## Blank lines -/

theorem splitLines_append_nl (pre post : List Char) :
    splitLines (pre ++ '\n' :: post) =
      ((splitLines pre).1 ++ (splitLines pre).2 :: (splitLines post).1, (splitLines post).2) := by
  induction pre with
  | nil => simp [splitLines]
  | cons c cs ih =>
    by_cases hc : c = '\n'
    · subst hc
      rw [List.cons_append, splitLines_nl, splitLines_nl, ih]
      simp
    · rw [List.cons_append, splitLines_ne c _ hc, splitLines_ne c _ hc, ih]
      cases h : (splitLines cs).1 with
      | nil => simp
      | cons l ls => simp

theorem splitLines_snd_of_getLast (pre : List Char) (h : pre.getLast? = some '\n') :
    ∃ p, pre = p ++ ['\n'] := by
  rcases List.eq_nil_or_concat pre with h0 | ⟨p, c, hp⟩
  · subst h0; simp at h
  · subst hp
    simp at h
    subst h
    exact ⟨p, by simp⟩

theorem textLines_insertBlankLine (n : Nat) (t : List Char) (h : atLineStart n t = true) :
    textLines (insertBlankLine n t) = textLines t := by
  unfold insertBlankLine
  unfold atLineStart at h
  simp only [Bool.or_eq_true, decide_eq_true_eq] at h
  rcases h with h | h
  · subst h
    simp [textLines, splitLines_nl]
  · obtain ⟨p, hp⟩ := splitLines_snd_of_getLast _ h
    have ht : t = (p ++ ['\n']) ++ t.drop n := by
      rw [← hp]; exact (List.take_append_drop n t).symm
    rw [hp]
    generalize t.drop n = post at ht
    subst ht
    simp only [List.append_assoc, List.singleton_append]
    unfold textLines
    rw [splitLines_append_nl p, splitLines_append_nl p, splitLines_nl]
    simp [List.filter_cons]

theorem textLines_insertBlankLines (ns : List Nat) (t : List Char) :
    textLines (insertBlankLines ns t) = textLines t := by
  induction ns generalizing t with
  | nil => rfl
  | cons n ns ih =>
    unfold insertBlankLines
    rw [ih]
    split
    · next h => exact textLines_insertBlankLine n t h
    · rfl

/-! ## Structure of an accepted text -/

theorem digitsValue_some (s : List Char) (acc n : Nat) (h : digitsValue s acc = some n) :
    s.all isDigit = true := by
  induction s generalizing acc with
  | nil => rfl
  | cons c cs ih =>
    unfold digitsValue at h
    by_cases hc : isDigit c = true
    · simp only [hc, if_true] at h
      simp [hc, ih _ h]
    · simp [hc] at h

theorem atoi_ok_decimal (s : List Char) (v : Int) (h : Atoi s = .ok v) : IsDecimal s = true := by
  unfold Atoi at h
  unfold IsDecimal
  rcases hs : splitSign s with ⟨neg, ds⟩
  rw [hs] at h
  cases ds with
  | nil => simp at h
  | cons d ds =>
    simp only at h
    cases hd : digitsValue (d :: ds) 0 with
    | none => rw [hd] at h; simp at h
    | some n =>
      have := digitsValue_some _ _ _ hd
      simp [this]

theorem atoi_ok_int64 (s : List Char) (v : Int) (h : Atoi s = .ok v) : IsInt64 v := by
  unfold Atoi at h
  rcases hs : splitSign s with ⟨neg, ds⟩
  rw [hs] at h
  cases ds with
  | nil => simp at h
  | cons d ds =>
    simp only at h
    cases hd : digitsValue (d :: ds) 0 with
    | none => rw [hd] at h; simp at h
    | some n =>
      rw [hd] at h
      simp only at h
      unfold IsInt64
      cases neg with
      | true =>
        simp only [if_true] at h
        split at h
        · injection h with h; subst h
          constructor <;> omega
        · simp at h
      | false =>
        simp only [Bool.false_eq_true, if_false] at h
        split at h
        · injection h with h; subst h
          constructor <;> omega
        · simp at h

theorem index_ok (line : List (List Char)) (i : Int) (f : List Char) (h : index line i = .ok f) :
    0 ≤ i ∧ line.get? i.toNat = some f := by
  unfold index at h
  split at h
  · simp at h
  · split at h
    · next heq => injection h with h; subst h; exact ⟨by omega, heq⟩
    · simp at h

theorem index_nat (line : List (List Char)) (i : Nat) :
    index line (i : Int) = match line.get? i with | some f => .ok f | none => .panic := by
  unfold index
  simp

theorem parseOp_ok (f : List Char) (op : Operation) (h : parseOp f = .ok op) :
    f = op.String ∧ op ≤ 3 ∧ f ∈ opNames := by
  unfold parseOp at h
  split at h
  · next hf => injection h with h; subst h; subst hf; decide
  · split at h
    · next hf => injection h with h; subst h; subst hf; decide
    · split at h
      · next hf => injection h with h; subst h; subst hf; decide
      · split at h
        · next hf => injection h with h; subst h; subst hf; decide
        · simp at h

theorem parseOp_not_name (f : List Char) (h : f ∉ opNames) : parseOp f = .err .invalidOperation := by
  unfold parseOp
  simp only [opNames, List.mem_cons, List.mem_singleton, not_or, List.not_mem_nil, or_false] at h
  rw [if_neg h.1, if_neg h.2.1, if_neg h.2.2.1, if_neg h.2.2.2]

/-- What an accepted gate line satisfies. -/
theorem parseGate_ok (k : Int) (line : List (List Char)) (g : Gate) (h : parseGate k line = .ok g) :
    3 ≤ line.length ∧ g.ID = toUint32 k ∧
    ∃ f0 f1 last n1 n2, line.get? 0 = some f0 ∧ line.get? 1 = some f1 ∧
      line.getLast? = some last ∧
      Atoi f0 = .ok n1 ∧ Atoi f1 = .ok n2 ∧
      wrapInt (2 + n1 + n2 + 1) = (line.length : Int) ∧
      readWires line 2 n1.toNat 0 = .ok g.Inputs ∧
      readWires line (2 + n1) n2.toNat 0 = .ok g.Outputs ∧
      parseOp last = .ok g.Op := by
  unfold parseGate at h
  split at h
  · simp at h
  · next hlen =>
    obtain ⟨f0, hf0, h⟩ := Outcome.bind_eq_ok h
    obtain ⟨n1, hn1, h⟩ := Outcome.bind_eq_ok h
    obtain ⟨f1, hf1, h⟩ := Outcome.bind_eq_ok h
    obtain ⟨n2, hn2, h⟩ := Outcome.bind_eq_ok h
    split at h
    · simp at h
    · next hw =>
      obtain ⟨ins, hins, h⟩ := Outcome.bind_eq_ok h
      obtain ⟨outs, houts, h⟩ := Outcome.bind_eq_ok h
      obtain ⟨last, hlast, h⟩ := Outcome.bind_eq_ok h
      obtain ⟨op, hop, h⟩ := Outcome.bind_eq_ok h
      injection h with h
      subst h
      refine ⟨by omega, rfl, f0, f1, last, n1, n2, ?_, ?_, ?_, hn1, hn2, ?_, hins, houts, hop⟩
      · exact (index_ok _ _ _ hf0).2
      · exact (index_ok _ _ _ hf1).2
      · have := (index_ok _ _ _ hlast).2
        rw [List.getLast?_eq_getElem?]
        rw [List.get?_eq_getElem?] at this
        rw [← this]
        congr 1
        omega
      · simpa using hw

theorem readWires_ok (line : List (List Char)) (base : Int) (k : Nat) (i : Int) (ws : List Nat)
    (h : readWires line base k i = .ok ws) :
    ws.length = k ∧ ∀ j : Nat, j < k → 0 ≤ base + i + j ∧
      ∃ f v, line.get? (base + i + j).toNat = some f ∧ Atoi f = .ok v ∧
        ws.get? j = some (toUint32 v) := by
  induction k generalizing i ws with
  | zero =>
    simp only [readWires] at h
    injection h with h
    subst h
    simp
  | succ k ih =>
    simp only [readWires] at h
    obtain ⟨f, hf, h⟩ := Outcome.bind_eq_ok h
    obtain ⟨v, hv, h⟩ := Outcome.bind_eq_ok h
    obtain ⟨rest, hrest, h⟩ := Outcome.bind_eq_ok h
    injection h with h
    subst h
    obtain ⟨hlen, hall⟩ := ih (i + 1) rest hrest
    obtain ⟨h0, hget⟩ := index_ok _ _ _ hf
    refine ⟨by simp [hlen], ?_⟩
    intro j hj
    cases j with
    | zero =>
      simp only [Nat.cast_zero, add_zero]
      exact ⟨h0, f, v, hget, hv, rfl⟩
    | succ j =>
      obtain ⟨h1, f2, v2, hg, ha, hw⟩ := hall j (by omega)
      have e : base + i + ((j + 1 : Nat) : Int) = base + (i + 1) + (j : Int) := by
        push_cast; ring
      rw [e]
      exact ⟨h1, f2, v2, hg, ha, by simpa using hw⟩

theorem readWires_forall2 (line : List (List Char)) (base : Int) (k : Nat) (i : Int)
    (ws : List Nat) (h : readWires line base k i = .ok ws) (h0 : 0 ≤ base + i) :
    List.Forall₂ FieldIsWire ((line.drop (base + i).toNat).take k) ws := by
  induction k generalizing i ws with
  | zero =>
    simp only [readWires] at h
    injection h with h
    subst h
    simp
  | succ k ih =>
    simp only [readWires] at h
    obtain ⟨f, hf, h⟩ := Outcome.bind_eq_ok h
    obtain ⟨v, hv, h⟩ := Outcome.bind_eq_ok h
    obtain ⟨rest, hrest, h⟩ := Outcome.bind_eq_ok h
    injection h with h
    subst h
    obtain ⟨_, hget⟩ := index_ok _ _ _ hf
    have hrec := ih (i + 1) rest hrest (by omega)
    have e : (base + (i + 1)).toNat = (base + i).toNat + 1 := by omega
    rw [e] at hrec
    rw [List.get?_eq_getElem?] at hget
    have hlt : (base + i).toNat < line.length := by
      by_contra hc
      rw [List.getElem?_eq_none (by omega)] at hget
      simp at hget
    have hd : line.drop (base + i).toNat = f :: line.drop ((base + i).toNat + 1) := by
      rw [List.drop_eq_getElem_cons hlt]
      congr 1
      rw [List.getElem?_eq_getElem hlt] at hget
      injection hget
    rw [hd, List.take_succ_cons]
    exact List.Forall₂.cons ⟨v, hv, rfl⟩ hrec

theorem wrapInt_range (x : Int) : IsInt64 (wrapInt x) := by
  unfold wrapInt IsInt64
  omega

theorem wrapInt_id (x : Int) (h : IsInt64 x) : wrapInt x = x := by
  unfold wrapInt
  unfold IsInt64 at h
  omega

/-- The arity check of a gate line: a line with fewer than three fields is an
error, and so is a line whose counts are integers with `nIn + nOut + 3` within
the `int` range and different from the number of fields. -/
theorem parseGate_arity (k : Int) (line : List (List Char)) :
    (line.length < 3 → parseGate k line = .err .invalidGate) ∧
    (∀ f0 f1 n1 n2, line.get? 0 = some f0 → line.get? 1 = some f1 →
      Atoi f0 = .ok n1 → Atoi f1 = .ok n2 → IsInt64 (n1 + n2 + 3) →
      (line.length : Int) ≠ n1 + n2 + 3 → parseGate k line = .err .invalidGate) := by
  constructor
  · intro h
    unfold parseGate
    rw [if_pos h]
  · intro f0 f1 n1 n2 h0 h1 a0 a1 hr hne
    unfold parseGate
    split
    · rfl
    · have i0 : index line 0 = .ok f0 := by
        have := index_nat line 0
        rw [h0] at this
        exact this
      have i1 : index line 1 = .ok f1 := by
        have := index_nat line 1
        rw [h1] at this
        exact this
      rw [i0, Outcome.bind_ok, a0, Outcome.bind_ok, i1, Outcome.bind_ok, a1, Outcome.bind_ok]
      have hw : wrapInt (2 + n1 + n2 + 1) = n1 + n2 + 3 := by
        rw [show 2 + n1 + n2 + 1 = n1 + n2 + 3 by ring]
        exact wrapInt_id _ hr
      rw [if_pos (by rw [hw]; exact fun e => hne e.symm)]

/-- Every field but the last of an accepted gate line with non-negative counts
is a decimal integer. -/
theorem parseGate_numeric (k : Int) (line : List (List Char)) (g : Gate)
    (h : parseGate k line = .ok g)
    (hc0 : ∀ f v, line.get? 0 = some f → Atoi f = .ok v → 0 ≤ v)
    (hc1 : ∀ f v, line.get? 1 = some f → Atoi f = .ok v → 0 ≤ v) :
    ∀ f ∈ line.dropLast, IsDecimal f = true := by
  obtain ⟨hlen, _, f0, f1, last, n1, n2, hf0, hf1, _, hn1, hn2, hw, hin, hout, _⟩ :=
    parseGate_ok k line g h
  have hp1 := hc0 f0 n1 hf0 hn1
  have hp2 := hc1 f1 n2 hf1 hn2
  intro f hf
  obtain ⟨p, hp, hfp⟩ := List.getElem_of_mem hf
  rw [List.length_dropLast] at hp
  rw [List.getElem_dropLast] at hfp
  have hget : line.get? p = some f := by
    rw [List.get?_eq_getElem?, List.getElem?_eq_getElem (by omega), hfp]
  by_cases hp0 : p = 0
  · subst hp0
    rw [hf0] at hget
    injection hget with e
    subst e
    exact atoi_ok_decimal _ _ hn1
  by_cases hp1 : p = 1
  · subst hp1
    rw [hf1] at hget
    injection hget with e
    subst e
    exact atoi_ok_decimal _ _ hn2
  have r1 := atoi_ok_int64 _ _ hn1
  have r2 := atoi_ok_int64 _ _ hn2
  unfold IsInt64 at r1 r2
  obtain ⟨hil, hia⟩ := readWires_ok _ _ _ _ _ hin
  obtain ⟨hol, hoa⟩ := readWires_ok _ _ _ _ _ hout
  unfold wrapInt at hw
  by_cases hin1 : (p : Int) < 2 + n1
  · -- read by the input loop
    obtain ⟨_, f2, v, hg, ha, _⟩ := hia (p - 2) (by omega)
    have e : ((2 : Int) + 0 + ((p - 2 : Nat) : Int)).toNat = p := by omega
    rw [e, hget] at hg
    injection hg with e2
    subst e2
    exact atoi_ok_decimal _ _ ha
  · -- read by the output loop
    have hj : (p : Int) - (2 + n1) < n2 := by omega
    obtain ⟨_, f2, v, hg, ha, _⟩ := hoa ((p : Int) - (2 + n1)).toNat (by omega)
    have e : ((2 : Int) + n1 + 0 + ((((p : Int) - (2 + n1)).toNat : Nat) : Int)).toNat = p := by
      omega
    rw [e, hget] at hg
    injection hg with e2
    subst e2
    exact atoi_ok_decimal _ _ ha

theorem parseGateList_get (n : Nat) (ls : List (List (List Char))) (gs : List Gate)
    (h : parseGateList n ls = .ok gs) :
    gs.length = ls.length ∧ ∀ i line, ls.get? i = some line →
      ∃ g, gs.get? i = some g ∧ parseGate ((n + i : Nat) : Int) line = .ok g := by
  induction ls generalizing n gs with
  | nil =>
    simp only [parseGateList] at h
    injection h with h
    subst h
    simp
  | cons l ls ih =>
    simp only [parseGateList] at h
    obtain ⟨g, hg, h⟩ := Outcome.bind_eq_ok h
    obtain ⟨rest, hrest, h⟩ := Outcome.bind_eq_ok h
    injection h with h
    subst h
    obtain ⟨hl, hall⟩ := ih (n + 1) rest hrest
    refine ⟨by simp [hl], ?_⟩
    intro i line hi
    cases i with
    | zero =>
      simp only [List.get?_cons_zero, Option.some.injEq] at hi
      subst hi
      exact ⟨g, rfl, hg⟩
    | succ i =>
      simp only [List.get?_cons_succ] at hi
      obtain ⟨g2, hg2, hp⟩ := hall i line hi
      refine ⟨g2, by simpa using hg2, ?_⟩
      rw [show n + (i + 1) = n + 1 + i by omega]
      exact hp

theorem gatesFrom_keys (n : Nat) (gs : List Gate) :
    (gatesFrom n gs).map Prod.fst = (List.range' n gs.length).map fun (i : Nat) => (i : Int) := by
  induction gs generalizing n with
  | nil => rfl
  | cons g gs ih => simp [gatesFrom, ih, List.range'_succ]

theorem gatesFrom_lookup (n : Nat) (gs : List Gate) (i : Nat) :
    (gatesFrom n gs).lookup ((n + i : Nat) : Int) = gs.get? i := by
  induction gs generalizing n i with
  | nil => simp [gatesFrom, GateMap.lookup]
  | cons g gs ih =>
    cases i with
    | zero => simp [gatesFrom, GateMap.lookup]
    | succ i =>
      have := ih (n + 1) i
      unfold GateMap.lookup at this ⊢
      simp only [gatesFrom, List.get?_cons_succ]
      rw [List.find?_cons_of_neg]
      · rw [show n + (i + 1) = n + 1 + i by omega]
        exact this
      · simp only [decide_eq_true_eq]
        push_cast
        omega

theorem gatesFrom_lookup_none (n : Nat) (gs : List Gate) (k : Int)
    (h : k < n ∨ (n : Int) + gs.length ≤ k) : (gatesFrom n gs).lookup k = none := by
  induction gs generalizing n with
  | nil => simp [gatesFrom, GateMap.lookup]
  | cons g gs ih =>
    have := ih (n + 1) (by
      simp only [List.length_cons] at h
      push_cast at h ⊢
      omega)
    unfold GateMap.lookup at this ⊢
    simp only [gatesFrom]
    rw [List.find?_cons_of_neg]
    · exact this
    · simp only [decide_eq_true_eq]
      simp only [List.length_cons] at h
      push_cast at h
      omega

/-- What an accepted list of lines satisfies. -/
theorem parseLines_ok (ls : List (List (List Char))) (c : Circuit) (h : parseLines ls = .ok c) :
    ∃ a0 a1 b0 b1 b2 gls n1 n2 n3 gs, ls = [a0, a1] :: [b0, b1, b2] :: gls ∧
      Atoi a0 = .ok c.NumGates ∧ Atoi a1 = .ok c.NumWires ∧
      Atoi b0 = .ok n1 ∧ Atoi b1 = .ok n2 ∧ Atoi b2 = .ok n3 ∧
      c.N1 = [{ Name := "", Typ := "", Size := n1 }] ∧
      c.N2 = [{ Name := "", Typ := "", Size := n2 }] ∧
      c.N3 = [{ Name := "", Typ := "", Size := n3 }] ∧
      parseGateList 0 gls = .ok gs ∧ c.Gates = gatesFrom 0 gs := by
  cases ls with
  | nil => simp [parseLines] at h
  | cons line1 rest1 =>
    simp only [parseLines] at h
    split at h
    · simp at h
    · next hl1 =>
      obtain ⟨a0, ha0, h⟩ := Outcome.bind_eq_ok h
      obtain ⟨numGates, hng, h⟩ := Outcome.bind_eq_ok h
      obtain ⟨a1, ha1, h⟩ := Outcome.bind_eq_ok h
      obtain ⟨numWires, hnw, h⟩ := Outcome.bind_eq_ok h
      cases rest1 with
      | nil => simp at h
      | cons line2 gls =>
        simp only at h
        split at h
        · simp at h
        · next hl2 =>
          obtain ⟨b0, hb0, h⟩ := Outcome.bind_eq_ok h
          obtain ⟨n1, hn1, h⟩ := Outcome.bind_eq_ok h
          obtain ⟨b1, hb1, h⟩ := Outcome.bind_eq_ok h
          obtain ⟨n2, hn2, h⟩ := Outcome.bind_eq_ok h
          obtain ⟨b2, hb2, h⟩ := Outcome.bind_eq_ok h
          obtain ⟨n3, hn3, h⟩ := Outcome.bind_eq_ok h
          obtain ⟨gs, hgs, h⟩ := Outcome.bind_eq_ok h
          injection h with h
          subst h
          refine ⟨a0, a1, b0, b1, b2, gls, n1, n2, n3, gs, ?_, hng, hnw, hn1, hn2, hn3,
            rfl, rfl, rfl, hgs, rfl⟩
          have e1 : line1 = [a0, a1] := by
            match line1, hl1, ha0, ha1 with
            | [x, y], _, ha0, ha1 =>
              simp [index] at ha0 ha1
              rw [ha0, ha1]
            | [], hl1, _, _ => simp at hl1
            | [_], hl1, _, _ => simp at hl1
            | _ :: _ :: _ :: _, hl1, _, _ => simp at hl1
          have e2 : line2 = [b0, b1, b2] := by
            match line2, hl2, hb0, hb1, hb2 with
            | [x, y, z], _, hb0, hb1, hb2 =>
              simp [index] at hb0 hb1 hb2
              rw [hb0, hb1, hb2]
            | [], hl2, _, _, _ => simp at hl2
            | [_], hl2, _, _, _ => simp at hl2
            | [_, _], hl2, _, _, _ => simp at hl2
            | _ :: _ :: _ :: _ :: _, hl2, _, _, _ => simp at hl2
          rw [e1, e2]

theorem parse_ok_lines (t : List Char) (c : Circuit) (h : Parse t = .ok c) :
    ∃ gs, parseGateList 0 (gateLines t) = .ok gs ∧ c.Gates = gatesFrom 0 gs := by
  rw [Parse_eq] at h
  obtain ⟨a0, a1, b0, b1, b2, gls, n1, n2, n3, gs, hls, _, _, _, _, _, _, _, _, hgs, hg⟩ :=
    parseLines_ok _ c h
  refine ⟨gs, ?_, hg⟩
  unfold gateLines
  rw [hls]
  exact hgs

/-- C8: blank lines inserted at the start of lines of an accepted text (before
line 1, between the header lines, between gate lines, after the last line)
leave the circuit that `Parse` returns unchanged. -/
theorem parse_insertBlankLines (t : List Char) (ns : List Nat) (c : Circuit)
    (h : Parse t = .ok c) : Parse (insertBlankLines ns t) = .ok c := by
  rw [Parse_eq, textLines_insertBlankLines, ← Parse_eq, h]

theorem parse_insertBlankLines_witness :
    insertBlankLines [0, 5, 12, 28, 28] "1 3\n1 1 1\n2 1 0 1 2 AND\n".toList
        = "\n1 3\n\n1 1 1\n\n2 1 0 1 2 AND\n\n\n".toList ∧
      Parse (insertBlankLines [0, 5, 12, 28, 28] "1 3\n1 1 1\n2 1 0 1 2 AND\n".toList) =
        .ok { NumGates := 1, NumWires := 3,
              N1 := [{ Name := "", Typ := "", Size := 1 }],
              N2 := [{ Name := "", Typ := "", Size := 1 }],
              N3 := [{ Name := "", Typ := "", Size := 1 }],
              Gates := [(0, { ID := 0, Inputs := [0, 1], Outputs := [2], Op := AND })] } :=
  ⟨by decide, parse_insertBlankLines _ _ _ (by decide)⟩

/-- C4: a gate line with three fields whose counts are both `-2^63` passes the
arity check of `Parse`, because `2+n1+n2+1` wraps around to 3: the line is
accepted as a gate without wires although 3 differs from `nIn + nOut + 3`. -/
theorem parse_accepts_wrapped_arity :
    Parse "1 1\n0 0 0\n-9223372036854775808 -9223372036854775808 XOR\n".toList =
      .ok { NumGates := 1, NumWires := 1,
            N1 := [{ Name := "", Typ := "", Size := 0 }],
            N2 := [{ Name := "", Typ := "", Size := 0 }],
            N3 := [{ Name := "", Typ := "", Size := 0 }],
            Gates := [(0, { ID := 0, Inputs := [], Outputs := [], Op := XOR })] } ∧
      (3 : Int) ≠ -9223372036854775808 + -9223372036854775808 + 3 := by
  decide

/-- C6: a gate line whose wire fields are not decimal integers is accepted
when its two counts are negative and `2+n1+n2+1` wraps around to the number of
fields: neither wire loop runs, so the wire fields are never converted. -/
theorem parse_accepts_non_integer_wire :
    Parse "1 1\n0 0 0\n-9223372036854775806 -9223372036854775808 x y XOR\n".toList =
      .ok { NumGates := 1, NumWires := 1,
            N1 := [{ Name := "", Typ := "", Size := 0 }],
            N2 := [{ Name := "", Typ := "", Size := 0 }],
            N3 := [{ Name := "", Typ := "", Size := 0 }],
            Gates := [(0, { ID := 0, Inputs := [], Outputs := [], Op := XOR })] } ∧
      IsDecimal "x".toList = false := by
  decide

/-- C7: a last gate line without its newline is dropped silently: `Parse`
returns a circuit without that gate, and with the newline it returns the gate. -/
theorem parse_drops_unterminated_gate_line :
    Parse "1 3\n1 1 1\n2 1 0 1 2 AND".toList =
      .ok { NumGates := 1, NumWires := 3,
            N1 := [{ Name := "", Typ := "", Size := 1 }],
            N2 := [{ Name := "", Typ := "", Size := 1 }],
            N3 := [{ Name := "", Typ := "", Size := 1 }],
            Gates := [] } ∧
    Parse "1 3\n1 1 1\n2 1 0 1 2 AND\n".toList =
      .ok { NumGates := 1, NumWires := 3,
            N1 := [{ Name := "", Typ := "", Size := 1 }],
            N2 := [{ Name := "", Typ := "", Size := 1 }],
            N3 := [{ Name := "", Typ := "", Size := 1 }],
            Gates := [(0, { ID := 0, Inputs := [0, 1], Outputs := [2], Op := AND })] } := by
  decide

/-! ## Canonical text of `Marshal` -/

theorem sortSlice_perm (l : List (Nat × Gate)) : (sortSlice l).Perm l :=
  List.perm_insertionSort _ l

theorem sortSlice_sorted (l : List (Nat × Gate)) :
    List.Sorted (fun a b => a.1 ≤ b.1) (sortSlice l) :=
  List.sorted_insertionSort _ l

theorem sortSlice_strict (l : List (Nat × Gate)) (hnd : (l.map Prod.fst).Nodup) :
    List.Sorted (fun a b => a.1 < b.1) (sortSlice l) := by
  have hs := sortSlice_sorted l
  have hp := sortSlice_perm l
  have hnd2 : ((sortSlice l).map Prod.fst).Nodup := (hp.map Prod.fst).nodup_iff.mpr hnd
  have h1 : List.Sorted (· ≤ ·) ((sortSlice l).map Prod.fst) := by
    unfold List.Sorted at hs ⊢
    rw [List.pairwise_map]
    exact hs
  have h2 := h1.lt_of_le hnd2
  unfold List.Sorted at h2 ⊢
  rw [List.pairwise_map] at h2
  exact h2

theorem sortSlice_congr (l l' : List (Nat × Gate)) (hp : l'.Perm l)
    (hnd : (l.map Prod.fst).Nodup) : sortSlice l' = sortSlice l := by
  have hnd' : (l'.map Prod.fst).Nodup := (hp.map Prod.fst).nodup_iff.mpr hnd
  apply List.eq_of_perm_of_sorted _ (sortSlice_strict l' hnd') (sortSlice_strict l hnd)
  exact ((sortSlice_perm l').trans hp).trans (sortSlice_perm l).symm

theorem sortedGates_key (c : Circuit) : ∀ kv ∈ c.sortedGates, kv.1 = kv.2.ID := by
  intro kv hkv
  have := (sortSlice_perm _).subset hkv
  simp only [List.mem_map] at this
  obtain ⟨p, _, rfl⟩ := this
  rfl

/-- C9 (as amended): for every circuit whose gates have pairwise distinct IDs,
the gates that `Marshal` writes are in strictly increasing ID order, and the
text is the same for every iteration order of the `Gates` map. -/
theorem marshal_canonical (c : Circuit) (gates : GateMap)
    (hnd : (c.Gates.map fun p => p.2.ID).Nodup) (hp : gates.Perm c.Gates) :
    List.Sorted (· < ·) (c.sortedGates.map fun kv => kv.2.ID) ∧
      Marshal { c with Gates := gates } = Marshal c := by
  have hnd1 : ((c.Gates.map fun p => (p.2.ID, p.2)).map Prod.fst).Nodup := by
    simpa [List.map_map, Function.comp_def] using hnd
  constructor
  · have hs := sortSlice_strict _ hnd1
    unfold List.Sorted at hs ⊢
    rw [List.pairwise_map]
    refine hs.imp_of_mem ?_
    intro a b ha hb hab
    rw [← sortedGates_key c a ha, ← sortedGates_key c b hb]
    exact hab
  · have : ({ c with Gates := gates } : Circuit).sortedGates = c.sortedGates := by
      unfold Circuit.sortedGates
      exact sortSlice_congr _ _ (hp.map _) hnd1
    unfold Marshal
    rw [this]

theorem marshal_canonical_witness :
    List.Sorted (· < ·)
        ((Circuit.sortedGates
          { NumGates := 2, NumWires := 4, N1 := [], N2 := [], N3 := [],
            Gates := [(1, { ID := 1, Inputs := [2], Outputs := [3], Op := INV }),
                       (0, { ID := 0, Inputs := [0, 1], Outputs := [2], Op := AND })] }).map
          fun kv => kv.2.ID) ∧
      Marshal { NumGates := 2, NumWires := 4, N1 := [], N2 := [], N3 := [],
                Gates := [(0, { ID := 0, Inputs := [0, 1], Outputs := [2], Op := AND }),
                           (1, { ID := 1, Inputs := [2], Outputs := [3], Op := INV })] } =
        Marshal { NumGates := 2, NumWires := 4, N1 := [], N2 := [], N3 := [],
                  Gates := [(1, { ID := 1, Inputs := [2], Outputs := [3], Op := INV }),
                             (0, { ID := 0, Inputs := [0, 1], Outputs := [2], Op := AND })] } :=
  marshal_canonical
    { NumGates := 2, NumWires := 4, N1 := [], N2 := [], N3 := [],
      Gates := [(1, { ID := 1, Inputs := [2], Outputs := [3], Op := INV }),
                 (0, { ID := 0, Inputs := [0, 1], Outputs := [2], Op := AND })] }
    [(0, { ID := 0, Inputs := [0, 1], Outputs := [2], Op := AND }),
     (1, { ID := 1, Inputs := [2], Outputs := [3], Op := INV })]
    (by decide) (by decide)

/-- C9 (counterexample): two gates stored under different keys with the same
ID 5 are written in iteration order: the IDs of the written gates are not
strictly increasing and the two iteration orders give different texts. -/
theorem marshal_not_canonical :
    ¬ List.Sorted (· < ·)
        ((Circuit.sortedGates
          { NumGates := 2, NumWires := 3, N1 := [], N2 := [], N3 := [],
            Gates := [(0, { ID := 5, Inputs := [0, 1], Outputs := [2], Op := XOR }),
                       (1, { ID := 5, Inputs := [0, 1], Outputs := [2], Op := AND })] }).map
          fun kv => kv.2.ID) ∧
      Marshal { NumGates := 2, NumWires := 3, N1 := [], N2 := [], N3 := [],
                Gates := [(0, { ID := 5, Inputs := [0, 1], Outputs := [2], Op := XOR }),
                           (1, { ID := 5, Inputs := [0, 1], Outputs := [2], Op := AND })] } ≠
        Marshal { NumGates := 2, NumWires := 3, N1 := [], N2 := [], N3 := [],
                  Gates := [(1, { ID := 5, Inputs := [0, 1], Outputs := [2], Op := AND }),
                             (0, { ID := 5, Inputs := [0, 1], Outputs := [2], Op := XOR })] } := by
  decide

/-! ## Gates of an accepted text -/

theorem splitLines_no_nl (l : List Char) (h : '\n' ∉ l) : splitLines l = ([], l) := by
  induction l with
  | nil => rfl
  | cons c cs ih =>
    have hc : c ≠ '\n' := fun e => h (by simp [e])
    have hcs : '\n' ∉ cs := fun e => h (by simp [e])
    rw [splitLines_ne c cs hc, ih hcs]

theorem textLines_line (l rest : List Char) (h : '\n' ∉ l) (hne : l ≠ []) :
    textLines (l ++ '\n' :: rest) = reSplit l :: textLines rest := by
  unfold textLines
  rw [splitLines_append_nl, splitLines_no_nl l h]
  simp [List.filter_cons, hne]

theorem textLines_blank (rest : List Char) : textLines ('\n' :: rest) = textLines rest := by
  unfold textLines
  rw [splitLines_nl]
  simp [List.filter_cons]

theorem textLines_replicate (l : List Char) (h : '\n' ∉ l) (hne : l ≠ []) (n : Nat) :
    textLines (List.replicate n (l ++ ['\n'])).flatten = List.replicate n (reSplit l) := by
  induction n with
  | zero => rfl
  | succ n ih =>
    rw [List.replicate_succ, List.flatten_cons, List.append_assoc, List.singleton_append,
      textLines_line l _ h hne, ih, List.replicate_succ]

theorem parseGate_id (k : Int) (line : List (List Char)) :
    parseGate k line = (parseGate 0 line).bind fun g => .ok { g with ID := toUint32 k } := by
  unfold parseGate
  split
  · rfl
  · simp only [Outcome.bind_assoc]
    congr 1; funext f0; congr 1; funext n1; congr 1; funext f1; congr 1; funext n2
    split
    · rfl
    · simp only [Outcome.bind_assoc]
      congr 1

theorem parseGateList_replicate (line : List (List Char)) (g : Gate)
    (h : parseGate 0 line = .ok g) (m n : Nat) :
    parseGateList n (List.replicate m line) =
      .ok ((List.range' n m).map fun (i : Nat) => { g with ID := toUint32 (i : Int) }) := by
  induction m generalizing n with
  | zero => rfl
  | succ m ih =>
    rw [List.replicate_succ, parseGateList, parseGate_id, h, ih (n + 1), List.range'_succ]
    rfl

theorem toUint32_nat (i : Nat) : toUint32 (i : Int) = i % 2 ^ 32 := by
  unfold toUint32
  omega

/-- The gate that the loop body of `Parse` makes of a line. -/
theorem parseGate_spec (k : Nat) (line : List (List Char)) (g : Gate)
    (hp : parseGate (k : Int) line = .ok g) :
    g.ID = k % 2 ^ 32 ∧ line.getLast? = some g.Op.String ∧ g.Op ≤ 3 ∧
      ∀ ins outs, lineWires line = some (ins, outs) →
        List.Forall₂ FieldIsWire ins g.Inputs ∧ List.Forall₂ FieldIsWire outs g.Outputs := by
  obtain ⟨_, hid, f0, f1, last, n1, n2, hf0, hf1, hlast, hn1, hn2, _, hin, hout, hop⟩ :=
    parseGate_ok _ _ _ hp
  obtain ⟨e, hle, _⟩ := parseOp_ok _ _ hop
  refine ⟨by rw [hid, toUint32_nat], by rw [hlast, e], hle, ?_⟩
  intro ins outs hw
  match line, hf0, hf1, hw, hin, hout with
  | a :: b :: rest, hf0, hf1, hw, hin, hout =>
    simp only [List.get?_cons_zero, List.get?_cons_succ, Option.some.injEq] at hf0 hf1
    subst hf0 hf1
    simp only [lineWires, hn1, hn2] at hw
    split at hw
    · next hpos =>
      injection hw with hw
      injection hw with h1 h2
      subst h1 h2
      have i1 := readWires_forall2 _ _ _ _ _ hin (by omega)
      have i2 := readWires_forall2 _ _ _ _ _ hout (by omega)
      have e1 : ((2 : Int) + 0).toNat = 2 := by omega
      have e2 : ((2 : Int) + n1 + 0).toNat = n1.toNat + 2 := by omega
      rw [e1] at i1
      rw [e2] at i2
      refine ⟨by simpa using i1, ?_⟩
      rw [← List.drop_drop] at i2
      simpa using i2
    · simp at hw

theorem parseLines_header (a0 a1 b0 b1 b2 : List Char) (gls : List (List (List Char))) :
    parseLines ([a0, a1] :: [b0, b1, b2] :: gls) =
      (Atoi a0).bind fun numGates => (Atoi a1).bind fun numWires =>
      (Atoi b0).bind fun n1 => (Atoi b1).bind fun n2 => (Atoi b2).bind fun n3 =>
      (parseGateList 0 gls).bind fun gs =>
      .ok { NumGates := numGates, NumWires := numWires,
            N1 := [{ Name := "", Typ := "", Size := n1 }],
            N2 := [{ Name := "", Typ := "", Size := n2 }],
            N3 := [{ Name := "", Typ := "", Size := n3 }],
            Gates := gatesFrom 0 gs } := by
  simp [parseLines, index]

theorem textLines_manyGates (n : Nat) :
    textLines (manyGatesText n) =
      ["0".toList, "2".toList] :: ["1".toList, "0".toList, "1".toList] ::
        List.replicate n ["1".toList, "1".toList, "0".toList, "1".toList, "INV".toList] := by
  unfold manyGatesText
  generalize hb : (List.replicate n ("1 1 0 1 INV".toList ++ ['\n'])).flatten = body
  show textLines ("0 2".toList ++ '\n' :: ("1 0 1".toList ++ '\n' :: body)) = _
  rw [textLines_line _ _ (by decide) (by decide), textLines_line _ _ (by decide) (by decide),
    ← hb, textLines_replicate _ (by decide) (by decide)]
  rfl

theorem parse_manyGates (n i : Nat) (hi : i < n) :
    ∃ c g, Parse (manyGatesText n) = .ok c ∧ (gateLines (manyGatesText n)).length = n ∧
      c.Gates.lookup (i : Int) = some g ∧ g.ID = toUint32 (i : Int) := by
  have hg : parseGate 0 ["1".toList, "1".toList, "0".toList, "1".toList, "INV".toList] =
      .ok { ID := 0, Inputs := [0], Outputs := [1], Op := INV } := by decide
  have h0 : Atoi "0".toList = .ok 0 := by decide
  have h1 : Atoi "1".toList = .ok 1 := by decide
  have h2 : Atoi "2".toList = .ok 2 := by decide
  refine ⟨{ NumGates := 0, NumWires := 2,
             N1 := [{ Name := "", Typ := "", Size := 1 }],
             N2 := [{ Name := "", Typ := "", Size := 0 }],
             N3 := [{ Name := "", Typ := "", Size := 1 }],
             Gates := gatesFrom 0 ((List.range' 0 n).map fun (j : Nat) =>
               ({ ID := toUint32 (j : Int), Inputs := [0], Outputs := [1], Op := INV } : Gate)) },
    { ID := toUint32 (i : Int), Inputs := [0], Outputs := [1], Op := INV }, ?_, ?_, ?_, rfl⟩
  · rw [Parse_eq, textLines_manyGates, parseLines_header, h0, h1, h2,
      parseGateList_replicate _ _ hg]
    rfl
  · unfold gateLines
    rw [textLines_manyGates]
    simp
  · have := gatesFrom_lookup 0
      ((List.range' 0 n).map fun (j : Nat) =>
        ({ ID := toUint32 (j : Int), Inputs := [0], Outputs := [1], Op := INV } : Gate)) i
    rw [Nat.zero_add] at this
    simp only
    rw [this, List.get?_eq_getElem?, List.getElem?_map, List.getElem?_range' _ _ hi]
    simp

/-- C10 (as amended): for every accepted text with `k` gate lines (terminated
non-empty lines after the two header lines) the returned circuit has exactly
`k` gates, stored under the keys `0..k-1` in file order; the gate under key `i`
has ID `i mod 2^32`, the op named by the last field of the `i`-th gate line and,
when the counts of that line are non-negative, the wires of its input and
output fields. -/
theorem parse_gates_dense (t : List Char) (c : Circuit) (h : Parse t = .ok c) :
    c.Gates.map Prod.fst = (List.range (gateLines t).length).map (fun i : Nat => (i : Int)) ∧
    ∀ (i : Nat) line, (gateLines t).get? i = some line →
      ∃ g, c.Gates.lookup (i : Int) = some g ∧ g.ID = i % 2 ^ 32 ∧
        line.getLast? = some g.Op.String ∧ g.Op ≤ 3 ∧
        ∀ ins outs, lineWires line = some (ins, outs) →
          List.Forall₂ FieldIsWire ins g.Inputs ∧ List.Forall₂ FieldIsWire outs g.Outputs := by
  obtain ⟨gs, hgs, hg⟩ := parse_ok_lines t c h
  obtain ⟨hlen, hall⟩ := parseGateList_get 0 _ gs hgs
  constructor
  · rw [hg, gatesFrom_keys, hlen, List.range_eq_range']
  · intro i line hl
    obtain ⟨g, hgi, hp⟩ := hall i line hl
    rw [Nat.zero_add] at hp
    refine ⟨g, ?_, parseGate_spec i line g hp⟩
    rw [hg]
    have := gatesFrom_lookup 0 gs i
    rw [Nat.zero_add] at this
    exact this.trans hgi

theorem parse_gates_dense_witness :
    ([(0, { ID := 0, Inputs := [0, 1], Outputs := [2], Op := AND }),
      (1, { ID := 1, Inputs := [2], Outputs := [3], Op := INV })] : GateMap).map Prod.fst =
      (List.range (gateLines "2 4\n1 1 1\n2 1 0 1 2 AND\n\n1 1 2 3 INV\n".toList).length).map
        (fun i : Nat => (i : Int)) ∧
    ∀ (i : Nat) line,
      (gateLines "2 4\n1 1 1\n2 1 0 1 2 AND\n\n1 1 2 3 INV\n".toList).get? i = some line →
      ∃ g, GateMap.lookup [(0, { ID := 0, Inputs := [0, 1], Outputs := [2], Op := AND }),
          (1, { ID := 1, Inputs := [2], Outputs := [3], Op := INV })] (i : Int) = some g ∧
        g.ID = i % 2 ^ 32 ∧ line.getLast? = some g.Op.String ∧ g.Op ≤ 3 ∧
        ∀ ins outs, lineWires line = some (ins, outs) →
          List.Forall₂ FieldIsWire ins g.Inputs ∧ List.Forall₂ FieldIsWire outs g.Outputs :=
  parse_gates_dense "2 4\n1 1 1\n2 1 0 1 2 AND\n\n1 1 2 3 INV\n".toList
    { NumGates := 2, NumWires := 4,
      N1 := [{ Name := "", Typ := "", Size := 1 }],
      N2 := [{ Name := "", Typ := "", Size := 1 }],
      N3 := [{ Name := "", Typ := "", Size := 1 }],
      Gates := [(0, { ID := 0, Inputs := [0, 1], Outputs := [2], Op := AND }),
                 (1, { ID := 1, Inputs := [2], Outputs := [3], Op := INV })] }
    (by decide)

/-- C10 (counterexample): in the accepted text with `2^32 + 1` gate lines the
gate stored under key `2^32` has ID 0, not `2^32`, because the ID is a
`uint32`; and for the same reason the gate of a line whose input field is
`4294967296` carries the input wire 0. -/
theorem parse_gate_uint32_wraps :
    (∃ c g, Parse (manyGatesText 4294967297) = .ok c ∧
      (gateLines (manyGatesText 4294967297)).length = 4294967297 ∧
      c.Gates.lookup 4294967296 = some g ∧ g.ID = 0) ∧
    Parse "1 2\n1 0 1\n1 1 4294967296 1 INV\n".toList =
      .ok { NumGates := 1, NumWires := 2,
            N1 := [{ Name := "", Typ := "", Size := 1 }],
            N2 := [{ Name := "", Typ := "", Size := 0 }],
            N3 := [{ Name := "", Typ := "", Size := 1 }],
            Gates := [(0, { ID := 0, Inputs := [0], Outputs := [1], Op := INV })] } := by
  refine ⟨?_, by decide⟩
  obtain ⟨c, g, h1, h2, h3, h4⟩ := parse_manyGates 4294967297 4294967296 (by decide)
  refine ⟨c, g, h1, h2, h3, ?_⟩
  rw [h4]
  decide

/-! ## Round trip of numbers -/

theorem digitChar_spec : ∀ d < 10, isDigit (digitChar d) = true ∧ (digitChar d).toNat - 48 = d := by
  decide

theorem isDigit_not_space (c : Char) (h : isDigit c = true) :
    isSpace c = false ∧ c ≠ '\n' ∧ c ≠ '-' ∧ c ≠ '+' := by
  unfold isDigit at h
  simp only [Bool.and_eq_true, decide_eq_true_eq] at h
  refine ⟨?_, ?_, ?_, ?_⟩
  · unfold isSpace
    simp only [Bool.or_eq_false_iff, Bool.and_eq_false_iff, decide_eq_false_iff_not]
    omega
  · rintro rfl; revert h; decide
  · rintro rfl; revert h; decide
  · rintro rfl; revert h; decide

theorem natDigits_acc (fuel n : Nat) (acc : List Char) :
    natDigits fuel n acc = natDigits fuel n [] ++ acc := by
  induction fuel generalizing n acc with
  | zero => simp [natDigits]
  | succ f ih =>
    unfold natDigits
    split
    · simp
    · rw [ih (n / 10) (digitChar (n % 10) :: acc), ih (n / 10) [digitChar (n % 10)]]
      simp

theorem digitsValue_append (xs ys : List Char) (a : Nat) :
    digitsValue (xs ++ ys) a = (digitsValue xs a).bind (digitsValue ys) := by
  induction xs generalizing a with
  | nil => simp [digitsValue]
  | cons c cs ih =>
    simp only [List.cons_append, digitsValue]
    split
    · exact ih _
    · rfl

theorem natDigits_value (n : Nat) : ∀ fuel, n < fuel →
    digitsValue (natDigits fuel n []) 0 = some n ∧
    (∀ c ∈ natDigits fuel n [], isDigit c = true) ∧ natDigits fuel n [] ≠ [] := by
  induction n using Nat.strong_induction_on with
  | _ n ih =>
    intro fuel hf
    cases fuel with
    | zero => omega
    | succ f =>
      unfold natDigits
      by_cases h10 : n < 10
      · simp only [h10, if_true]
        obtain ⟨h1, h2⟩ := digitChar_spec n h10
        refine ⟨?_, ?_, by simp⟩
        · simp [digitsValue, h1, h2]
        · intro c hc
          simp only [List.mem_singleton] at hc
          subst hc
          exact h1
      · simp only [h10, if_false]
        rw [natDigits_acc]
        obtain ⟨i1, i2, i3⟩ := ih (n / 10) (by omega) f (by omega)
        obtain ⟨h1, h2⟩ := digitChar_spec (n % 10) (by omega)
        refine ⟨?_, ?_, by simp⟩
        · rw [digitsValue_append, i1]
          simp only [Option.some_bind, digitsValue, h1, if_true, h2]
          congr 1
          omega
        · intro c hc
          rcases List.mem_append.mp hc with h | h
          · exact i2 c h
          · simp only [List.mem_singleton] at h
            subst h
            exact h1

theorem fmtNat_value (n : Nat) : digitsValue (fmtNat n) 0 = some n :=
  (natDigits_value n (n + 1) (Nat.lt_succ_self n)).1

theorem fmtNat_digits (n : Nat) : ∀ c ∈ fmtNat n, isDigit c = true :=
  (natDigits_value n (n + 1) (Nat.lt_succ_self n)).2.1

theorem fmtNat_ne_nil (n : Nat) : fmtNat n ≠ [] :=
  (natDigits_value n (n + 1) (Nat.lt_succ_self n)).2.2

theorem splitSign_digits (s : List Char) (hs : s ≠ []) (hd : ∀ c ∈ s, isDigit c = true) :
    splitSign s = (false, s) := by
  cases s with
  | nil => exact absurd rfl hs
  | cons c cs =>
    have := isDigit_not_space c (hd c (by simp))
    simp [splitSign, this.2.2.1, this.2.2.2]

theorem atoi_fmtNat (n : Nat) (h : n < 2 ^ 63) : Atoi (fmtNat n) = .ok (n : Int) := by
  unfold Atoi
  rw [splitSign_digits _ (fmtNat_ne_nil n) (fmtNat_digits n)]
  cases hf : fmtNat n with
  | nil => exact absurd hf (fmtNat_ne_nil n)
  | cons d ds =>
    simp only
    rw [← hf, fmtNat_value]
    simp only [Bool.false_eq_true, if_false, h, if_true]

theorem atoi_fmtInt (i : Int) (h : IsInt64 i) : Atoi (fmtInt i) = .ok i := by
  unfold IsInt64 at h
  unfold fmtInt
  split
  · next hneg =>
    unfold Atoi
    simp only [splitSign, if_true]
    cases hf : fmtNat i.natAbs with
    | nil => exact absurd hf (fmtNat_ne_nil _)
    | cons d ds =>
      simp only
      rw [← hf, fmtNat_value]
      have : i.natAbs ≤ 2 ^ 63 := by omega
      simp only [if_true, this]
      congr 1
      omega
  · next hpos =>
    rw [atoi_fmtNat _ (by omega)]
    congr 1
    omega

theorem fmtNat_field (n : Nat) : IsField (fmtNat n) :=
  ⟨fmtNat_ne_nil n, fun c hc =>
    ⟨(isDigit_not_space c (fmtNat_digits n c hc)).1, (isDigit_not_space c (fmtNat_digits n c hc)).2.1⟩⟩

theorem fmtInt_field (i : Int) : IsField (fmtInt i) := by
  unfold fmtInt
  split
  · refine ⟨by simp, ?_⟩
    intro c hc
    rcases List.mem_cons.mp hc with h | h
    · subst h; decide
    · exact (fmtNat_field _).2 c h
  · exact fmtNat_field _

theorem opString_field (op : Operation) (h : op ≤ 3) :
    IsField op.String ∧ parseOp op.String = .ok op := by
  have aux : ∀ n : Nat, n ≤ 3 → n = 0 ∨ n = 1 ∨ n = 2 ∨ n = 3 := by omega
  rcases aux op h with h | h | h | h <;> subst h <;>
    exact ⟨⟨by decide, by decide⟩, by decide⟩

/-! ## Fields of the lines that `Marshal` writes -/

theorem reSplit_field (f : List Char) (h : ∀ c ∈ f, isSpace c = false) : reSplit f = [f] := by
  induction f with
  | nil => rfl
  | cons c cs ih =>
    have hc : isSpace c = false := h c (by simp)
    have := ih (fun d hd => h d (by simp [hd]))
    simp [reSplit, hc, this]

theorem reSplit_field_space (f : List Char) (d : Char) (tl : List Char)
    (h : ∀ c ∈ f, isSpace c = false) (hd : isSpace d = false) :
    reSplit (f ++ ' ' :: d :: tl) = f :: reSplit (d :: tl) := by
  induction f with
  | nil =>
    have hs : isSpace ' ' = true := by decide
    simp only [List.nil_append]
    rw [reSplit.eq_def]
    simp [hs, hd]
  | cons c cs ih =>
    have hc : isSpace c = false := h c (by simp)
    have := ih (fun d hd => h d (by simp [hd]))
    simp only [List.cons_append]
    rw [reSplit.eq_def]
    simp [hc, this]

theorem joinFields_cons (f : List Char) (fs : List (List Char)) :
    joinFields (f :: fs) = f ++ (fs.map fun g => ' ' :: g).flatten := by
  induction fs generalizing f with
  | nil => simp [joinFields]
  | cons g gs ih => simp [joinFields, ih]

theorem joinFields_head (f : List Char) (fs : List (List Char)) (hf : IsField f) :
    ∃ d tl, joinFields (f :: fs) = d :: tl ∧ isSpace d = false := by
  obtain ⟨hne, hall⟩ := hf
  cases f with
  | nil => exact absurd rfl hne
  | cons d tl =>
    refine ⟨d, tl ++ (fs.map fun g => ' ' :: g).flatten, ?_, (hall d (by simp)).1⟩
    rw [joinFields_cons]
    rfl

theorem reSplit_joinFields (fs : List (List Char)) (hne : fs ≠ [])
    (h : ∀ f ∈ fs, IsField f) : reSplit (joinFields fs) = fs := by
  induction fs with
  | nil => exact absurd rfl hne
  | cons f fs ih =>
    cases fs with
    | nil =>
      simp only [joinFields]
      exact reSplit_field f (fun c hc => ((h f (by simp)).2 c hc).1)
    | cons g gs =>
      obtain ⟨d, tl, he, hd⟩ := joinFields_head g gs (h g (by simp))
      simp only [joinFields] at he ⊢
      rw [he, reSplit_field_space f d tl (fun c hc => ((h f (by simp)).2 c hc).1) hd, ← he]
      congr 1
      have := ih (by simp) (fun x hx => h x (by simp [hx]))
      simpa [joinFields] using this

theorem joinFields_field (fs : List (List Char)) (hne : fs ≠ []) (h : ∀ f ∈ fs, IsField f) :
    joinFields fs ≠ [] ∧ '\n' ∉ joinFields fs := by
  cases fs with
  | nil => exact absurd rfl hne
  | cons f fs =>
    rw [joinFields_cons]
    refine ⟨?_, ?_⟩
    · have := (h f (by simp)).1
      simp [this]
    · intro hmem
      rcases List.mem_append.mp hmem with hm | hm
      · exact ((h f (by simp)).2 _ hm).2 rfl
      · simp only [List.mem_flatten, List.mem_map] at hm
        obtain ⟨l, ⟨g, hg, rfl⟩, hl⟩ := hm
        rcases List.mem_cons.mp hl with hh | hh
        · revert hh; decide
        · exact ((h g (by simp [hg])).2 _ hh).2 rfl

theorem marshalGate_eq (g : Gate) : marshalGate g = joinFields (gateFields g) ++ ['\n'] := by
  unfold marshalGate gateFields marshalWires
  simp [joinFields_cons, List.map_append, List.flatten_append, List.map_map, Function.comp_def]

theorem gateFields_fields (g : Gate) (hop : g.Op ≤ 3) : ∀ f ∈ gateFields g, IsField f := by
  intro f hf
  unfold gateFields at hf
  simp only [List.mem_cons, List.mem_append, List.mem_map, List.mem_singleton,
    List.not_mem_nil, or_false] at hf
  rcases hf with h | h | ⟨⟨w, _, rfl⟩ | ⟨w, _, rfl⟩⟩ | h
  · subst h; exact fmtInt_field _
  · subst h; exact fmtInt_field _
  · exact fmtNat_field _
  · exact fmtNat_field _
  · subst h; exact (opString_field _ hop).1

theorem textLines_flatten (ls : List (List Char)) (rest : List Char)
    (h : ∀ l ∈ ls, l ≠ [] ∧ '\n' ∉ l) :
    textLines ((ls.map fun l => l ++ ['\n']).flatten ++ rest) = ls.map reSplit ++ textLines rest := by
  induction ls with
  | nil => rfl
  | cons l ls ih =>
    obtain ⟨h1, h2⟩ := h l (by simp)
    simp only [List.map_cons, List.flatten_cons, List.append_assoc, List.singleton_append,
      List.cons_append]
    rw [textLines_line l _ h2 h1, List.nil_append, ih (fun x hx => h x (by simp [hx]))]

/-! ## Round trip of a gate line -/

theorem toUint32_id (w : Nat) (h : w < 2 ^ 32) : toUint32 (w : Int) = w := by
  unfold toUint32
  omega

theorem readWires_fmt (pre : List (List Char)) (ws : List Nat) (post : List (List Char))
    (hb : ∀ w ∈ ws, w < 2 ^ 32) (i : Nat) (base : Int) (hbase : base + i = pre.length) :
    readWires (pre ++ ws.map fmtNat ++ post) base ws.length i = .ok ws := by
  induction ws generalizing pre i with
  | nil => rfl
  | cons w ws ih =>
    simp only [List.length_cons, readWires]
    have hidx : index (pre ++ (w :: ws).map fmtNat ++ post) (base + i) = .ok (fmtNat w) := by
      rw [hbase, index_nat]
      simp [List.getElem_append_right]
    have hw := hb w (by simp)
    rw [hidx, Outcome.bind_ok, atoi_fmtNat w (by omega), Outcome.bind_ok]
    have e : pre ++ (w :: ws).map fmtNat ++ post = (pre ++ [fmtNat w]) ++ ws.map fmtNat ++ post := by
      simp
    have := ih (pre ++ [fmtNat w]) (fun x hx => hb x (by simp [hx])) (i + 1)
      (by push_cast; simp; omega)
    rw [e]
    push_cast at this
    rw [this, Outcome.bind_ok, toUint32_id w hw]

theorem parseGate_gateFields (k : Int) (g : Gate) (hop : g.Op ≤ 3)
    (hi : ∀ w ∈ g.Inputs, w < 2 ^ 32) (ho : ∀ w ∈ g.Outputs, w < 2 ^ 32)
    (hlen : g.Inputs.length + g.Outputs.length + 3 < 2 ^ 63) :
    parseGate k (gateFields g) = .ok { g with ID := toUint32 k } := by
  have hl : (gateFields g).length = g.Inputs.length + g.Outputs.length + 3 := by
    simp [gateFields]; omega
  have h0 : index (gateFields g) 0 = .ok (fmtInt g.Inputs.length) := by
    simp [gateFields, index]
  have h1 : index (gateFields g) 1 = .ok (fmtInt g.Outputs.length) := by
    simp [gateFields, index]
  have hlast : index (gateFields g) (((gateFields g).length : Int) - 1) = .ok g.Op.String := by
    have e : ((gateFields g).length : Int) - 1 =
        ((g.Inputs.length + g.Outputs.length + 2 : Nat) : Int) := by
      rw [hl]; push_cast; ring
    rw [e, index_nat]
    have : gateFields g = ([fmtInt g.Inputs.length, fmtInt g.Outputs.length] ++
        g.Inputs.map fmtNat ++ g.Outputs.map fmtNat) ++ [g.Op.String] := by
      simp [gateFields]
    rw [this, List.get?_eq_getElem?, List.getElem?_append_right (by simp)]
    simp
  have hin : readWires (gateFields g) 2 g.Inputs.length 0 = .ok g.Inputs := by
    have := readWires_fmt [fmtInt g.Inputs.length, fmtInt g.Outputs.length] g.Inputs
      (g.Outputs.map fmtNat ++ [g.Op.String]) hi 0 2 (by simp)
    simpa [gateFields] using this
  have hout : readWires (gateFields g) (2 + (g.Inputs.length : Int)) g.Outputs.length 0
      = .ok g.Outputs := by
    have := readWires_fmt ([fmtInt g.Inputs.length, fmtInt g.Outputs.length] ++
      g.Inputs.map fmtNat) g.Outputs [g.Op.String] ho 0 (2 + (g.Inputs.length : Int))
      (by simp; omega)
    simpa [gateFields] using this
  unfold parseGate
  rw [if_neg (by omega), h0, Outcome.bind_ok,
    atoi_fmtInt _ (by unfold IsInt64; omega), Outcome.bind_ok, h1, Outcome.bind_ok,
    atoi_fmtInt _ (by unfold IsInt64; omega), Outcome.bind_ok]
  have hw : wrapInt (2 + (g.Inputs.length : Int) + (g.Outputs.length : Int) + 1) =
      ((gateFields g).length : Int) := by
    rw [wrapInt_id _ (by unfold IsInt64; omega), hl]
    push_cast; ring
  rw [if_neg (by simpa using hw)]
  simp only [Int.toNat_ofNat]
  rw [hin, Outcome.bind_ok, hout, Outcome.bind_ok, hlast, Outcome.bind_ok,
    (opString_field _ hop).2, Outcome.bind_ok]

theorem parseGateList_gateFields (gs : List Gate) (n : Nat)
    (hid : gs.map Gate.ID = List.range' n gs.length)
    (hg : ∀ g ∈ gs, g.ID < 2 ^ 32 ∧ g.Op ≤ 3 ∧ (∀ w ∈ g.Inputs, w < 2 ^ 32) ∧
      (∀ w ∈ g.Outputs, w < 2 ^ 32) ∧ g.Inputs.length + g.Outputs.length + 3 < 2 ^ 63) :
    parseGateList n (gs.map gateFields) = .ok gs := by
  induction gs generalizing n with
  | nil => rfl
  | cons g gs ih =>
    obtain ⟨h1, h2, h3, h4, h5⟩ := hg g (by simp)
    simp only [List.map_cons, List.length_cons, List.range'_succ, List.cons.injEq] at hid
    simp only [List.map_cons, parseGateList]
    rw [parseGate_gateFields _ g h2 h3 h4 h5, Outcome.bind_ok,
      ih (n + 1) hid.2 (fun x hx => hg x (by simp [hx])), Outcome.bind_ok]
    congr 2
    rw [← hid.1, toUint32_id _ h1]

theorem gatesFrom_eq_map (gs : List Gate) (n : Nat)
    (hid : gs.map Gate.ID = List.range' n gs.length) :
    gatesFrom n gs = gs.map fun g => ((g.ID : Int), g) := by
  induction gs generalizing n with
  | nil => rfl
  | cons g gs ih =>
    simp only [List.map_cons, List.length_cons, List.range'_succ, List.cons.injEq] at hid
    simp only [gatesFrom, List.map_cons, ih (n + 1) hid.2, hid.1]

/-! ## Round trip of a circuit -/

theorem lookup_eq_some_iff (l : GateMap) (hnd : (l.map Prod.fst).Nodup) (k : Int) (g : Gate) :
    l.lookup k = some g ↔ (k, g) ∈ l := by
  induction l with
  | nil => simp [GateMap.lookup]
  | cons p ps ih =>
    simp only [List.map_cons, List.nodup_cons] at hnd
    have ih := ih hnd.2
    unfold GateMap.lookup at ih ⊢
    by_cases hp : p.1 = k
    · rw [List.find?_cons_of_pos _ (by simpa using hp)]
      simp only [Option.map_some', Option.some.injEq, List.mem_cons]
      constructor
      · intro h
        left
        rw [← h, ← hp]
      · rintro (h | h)
        · rw [← h]
        · exfalso
          apply hnd.1
          rw [hp]
          exact List.mem_map.mpr ⟨(k, g), h, rfl⟩
    · rw [List.find?_cons_of_neg _ (by simpa using hp), ih]
      simp only [List.mem_cons]
      constructor
      · exact Or.inr
      · rintro (h | h)
        · exfalso; apply hp; rw [← h]
        · exact h

theorem lookup_perm (l l' : GateMap) (hp : l.Perm l') (hnd : (l.map Prod.fst).Nodup) (k : Int) :
    l.lookup k = l'.lookup k := by
  have hnd' : (l'.map Prod.fst).Nodup := (hp.map Prod.fst).nodup_iff.mp hnd
  apply Option.ext
  intro g
  simp only [Option.mem_def]
  rw [lookup_eq_some_iff l hnd, lookup_eq_some_iff l' hnd']
  exact hp.mem_iff

theorem foldl_size_int64 (io : List IOArg) (init : Int) (h : IsInt64 init) :
    IsInt64 (io.foldl (fun sum a => wrapInt (sum + a.Size)) init) := by
  induction io generalizing init with
  | nil => exact h
  | cons a as ih => exact ih _ (wrapInt_range _)

theorem size_int64 (io : IOArgs) : IsInt64 io.Size :=
  foldl_size_int64 io 0 (by decide)

theorem size_single (s : Int) (h : IsInt64 s) :
    IOArgs.Size [{ Name := "", Typ := "", Size := s }] = s := by
  simp [IOArgs.Size, wrapInt_id _ h]

theorem valid_ids (c : Circuit) (hv : ValidCircuit c) :
    (c.Gates.map fun p => p.2.ID).Perm (List.range c.NumGates.toNat) := by
  obtain ⟨_, hk, hid⟩ := hv
  have e : c.Gates.map Prod.fst = (c.Gates.map fun p => p.2.ID).map fun (i : Nat) => (i : Int) := by
    rw [List.map_map]
    apply List.map_congr_left
    intro p hp
    exact (hid p hp).1.symm
  rw [e] at hk
  have := hk.map Int.toNat
  simpa [List.map_map, Function.comp_def] using this

theorem sortedGates_keys (c : Circuit) (hv : ValidCircuit c) :
    c.sortedGates.map Prod.fst = List.range c.NumGates.toNat := by
  have hids := valid_ids c hv
  have e : (c.Gates.map fun p => (p.2.ID, p.2)).map Prod.fst = c.Gates.map fun p => p.2.ID := by
    simp [List.map_map, Function.comp_def]
  have hnd : ((c.Gates.map fun p => (p.2.ID, p.2)).map Prod.fst).Nodup := by
    rw [e]
    exact hids.nodup_iff.mpr (List.nodup_range _)
  have hs := sortSlice_strict _ hnd
  have hp : (c.sortedGates.map Prod.fst).Perm (List.range c.NumGates.toNat) := by
    refine ((sortSlice_perm _).map Prod.fst).trans ?_
    rw [e]
    exact hids
  refine List.eq_of_perm_of_sorted hp ?_ (List.sorted_lt_range _)
  unfold List.Sorted at hs ⊢
  rw [List.pairwise_map]
  exact hs

theorem textLines_marshal (c : Circuit) (hop : ∀ p ∈ c.Gates, p.2.Op ≤ 3) :
    textLines (Marshal c) =
      [fmtInt c.NumGates, fmtInt c.NumWires] ::
      [fmtInt c.N1.Size, fmtInt c.N2.Size, fmtInt c.N3.Size] ::
      c.sortedGates.map fun kv => gateFields kv.2 := by
  have hm : Marshal c = joinFields [fmtInt c.NumGates, fmtInt c.NumWires] ++ '\n' ::
      (joinFields [fmtInt c.N1.Size, fmtInt c.N2.Size, fmtInt c.N3.Size] ++ '\n' ::
        ('\n' :: (((c.sortedGates.map fun kv => joinFields (gateFields kv.2)).map
          fun l => l ++ ['\n']).flatten ++ []))) := by
    simp [Marshal, joinFields, marshalGate_eq, List.map_map, Function.comp_def]
  have hsorted : ∀ kv ∈ c.sortedGates, kv.2.Op ≤ 3 := by
    intro kv hkv
    have := (sortSlice_perm _).subset hkv
    simp only [List.mem_map] at this
    obtain ⟨p, hp, rfl⟩ := this
    exact hop p hp
  have hf1 : ∀ f ∈ [fmtInt c.NumGates, fmtInt c.NumWires], IsField f := by
    intro f hf
    simp only [List.mem_cons, List.mem_singleton, List.not_mem_nil, or_false] at hf
    rcases hf with h | h <;> subst h <;> exact fmtInt_field _
  have hf2 : ∀ f ∈ [fmtInt c.N1.Size, fmtInt c.N2.Size, fmtInt c.N3.Size], IsField f := by
    intro f hf
    simp only [List.mem_cons, List.mem_singleton, List.not_mem_nil, or_false] at hf
    rcases hf with h | h | h <;> subst h <;> exact fmtInt_field _
  rw [hm, textLines_line _ _ (joinFields_field _ (by simp) hf1).2 (joinFields_field _ (by simp) hf1).1,
    textLines_line _ _ (joinFields_field _ (by simp) hf2).2 (joinFields_field _ (by simp) hf2).1,
    textLines_blank, textLines_flatten, reSplit_joinFields _ (by simp) hf1,
    reSplit_joinFields _ (by simp) hf2]
  · congr 2
    have : textLines [] = [] := rfl
    rw [this, List.append_nil, List.map_map]
    apply List.map_congr_left
    intro kv hkv
    exact reSplit_joinFields _ (by simp [gateFields]) (gateFields_fields _ (hsorted kv hkv))
  · intro l hl
    simp only [List.mem_map] at hl
    obtain ⟨kv, hkv, rfl⟩ := hl
    exact joinFields_field _ (by simp [gateFields]) (gateFields_fields _ (hsorted kv hkv))

/-- C1 (as amended): for every valid circuit (gates stored under the keys
`0..NumGates-1`, each with ID equal to its key and with one of the four named
operations), `Parse` accepts the text written by `Marshal` and returns a
circuit with the same `NumGates` and `NumWires`, the same bit widths
`N1.Size()`, `N2.Size()`, `N3.Size()` and the same gate under every key. -/
theorem parse_marshal (c : Circuit) (hv : ValidCircuit c) (ht : WellTyped c) :
    ∃ c', Parse (Marshal c) = .ok c' ∧
      c'.NumGates = c.NumGates ∧ c'.NumWires = c.NumWires ∧
      c'.N1.Size = c.N1.Size ∧ c'.N2.Size = c.N2.Size ∧ c'.N3.Size = c.N3.Size ∧
      c'.Gates.Perm c.Gates ∧ ∀ k, c'.Gates.lookup k = c.Gates.lookup k := by
  obtain ⟨hng, hnw, hty⟩ := ht
  have hop : ∀ p ∈ c.Gates, p.2.Op ≤ 3 := by
    intro p hp
    have := (hv.2.2 p hp).2
    simp only [XOR, AND, OR, INV, List.mem_cons, List.mem_singleton, List.not_mem_nil,
      or_false] at this
    rcases this with h | h | h | h <;> rw [h] <;> decide
  have hmem : ∀ kv ∈ c.sortedGates, ∃ p ∈ c.Gates, kv = (p.2.ID, p.2) := by
    intro kv hkv
    have := (sortSlice_perm _).subset hkv
    simp only [List.mem_map] at this
    obtain ⟨p, hp, rfl⟩ := this
    exact ⟨p, hp, rfl⟩
  have hkeys := sortedGates_keys c hv
  have hids : (c.sortedGates.map Prod.snd).map Gate.ID =
      List.range' 0 (c.sortedGates.map Prod.snd).length := by
    rw [List.length_map, ← List.range_eq_range']
    have : c.sortedGates.length = c.NumGates.toNat := by
      rw [← List.length_map c.sortedGates Prod.fst, hkeys, List.length_range]
    rw [this, ← hkeys, List.map_map]
    apply List.map_congr_left
    intro kv hkv
    exact (sortedGates_key c kv hkv).symm
  have hgl : parseGateList 0 ((c.sortedGates.map Prod.snd).map gateFields) =
      .ok (c.sortedGates.map Prod.snd) := by
    apply parseGateList_gateFields _ 0 hids
    intro g hg
    simp only [List.mem_map] at hg
    obtain ⟨kv, hkv, rfl⟩ := hg
    obtain ⟨p, hp, rfl⟩ := hmem kv hkv
    obtain ⟨t1, t2, t3, t4⟩ := hty p hp
    exact ⟨t1, hop p hp, t2, t3, t4⟩
  have hperm : (gatesFrom 0 (c.sortedGates.map Prod.snd)).Perm c.Gates := by
    rw [gatesFrom_eq_map _ 0 hids, List.map_map]
    have h1 : (c.sortedGates.map ((fun g => ((g.ID : Int), g)) ∘ Prod.snd)).Perm
        ((c.Gates.map fun p => (p.2.ID, p.2)).map ((fun g => ((g.ID : Int), g)) ∘ Prod.snd)) :=
      (sortSlice_perm _).map _
    refine h1.trans ?_
    rw [List.map_map]
    have : c.Gates.map (((fun g => ((g.ID : Int), g)) ∘ Prod.snd) ∘ fun p => (p.2.ID, p.2))
        = c.Gates := by
      conv_rhs => rw [← List.map_id c.Gates]
      apply List.map_congr_left
      intro p hp
      simp only [Function.comp_apply, id_eq]
      rw [(hv.2.2 p hp).1]
    rw [this]
  have hnd : ((gatesFrom 0 (c.sortedGates.map Prod.snd)).map Prod.fst).Nodup := by
    rw [gatesFrom_keys]
    exact (List.nodup_range' _ _).map (fun a b h => by exact_mod_cast h)
  refine ⟨{ NumGates := c.NumGates, NumWires := c.NumWires,
            N1 := [{ Name := "", Typ := "", Size := c.N1.Size }],
            N2 := [{ Name := "", Typ := "", Size := c.N2.Size }],
            N3 := [{ Name := "", Typ := "", Size := c.N3.Size }],
            Gates := gatesFrom 0 (c.sortedGates.map Prod.snd) }, ?_, rfl, rfl,
    size_single _ (size_int64 _), size_single _ (size_int64 _), size_single _ (size_int64 _),
    hperm, fun k => lookup_perm _ _ hperm hnd k⟩
  rw [Parse_eq, textLines_marshal c hop, parseLines_header,
    atoi_fmtInt _ hng, atoi_fmtInt _ hnw, atoi_fmtInt _ (size_int64 _),
    atoi_fmtInt _ (size_int64 _), atoi_fmtInt _ (size_int64 _)]
  simp only [Outcome.bind_ok]
  have e : (c.sortedGates.map fun kv => gateFields kv.2) =
      (c.sortedGates.map Prod.snd).map gateFields := by
    rw [List.map_map]
    rfl
  rw [e, hgl]
  rfl

theorem parse_marshal_witness :
    ∃ c', Parse (Marshal
        { NumGates := 2, NumWires := 4,
          N1 := [{ Name := "a", Typ := "int1", Size := 1 }, { Name := "0", Typ := "", Size := 1 }],
          N2 := [{ Name := "b", Typ := "int1", Size := 1 }],
          N3 := [{ Name := "", Typ := "int1", Size := 1 }],
          Gates := [(1, { ID := 1, Inputs := [3], Outputs := [4], Op := INV }),
                     (0, { ID := 0, Inputs := [0, 2], Outputs := [3], Op := AND })] }) = .ok c' ∧
      c'.NumGates = 2 ∧ c'.NumWires = 4 ∧
      c'.N1.Size = 2 ∧ c'.N2.Size = 1 ∧ c'.N3.Size = 1 ∧
      c'.Gates.Perm [(1, { ID := 1, Inputs := [3], Outputs := [4], Op := INV }),
                     (0, { ID := 0, Inputs := [0, 2], Outputs := [3], Op := AND })] ∧
      ∀ k, c'.Gates.lookup k =
        GateMap.lookup [(1, { ID := 1, Inputs := [3], Outputs := [4], Op := INV }),
                        (0, { ID := 0, Inputs := [0, 2], Outputs := [3], Op := AND })] k :=
  parse_marshal
    { NumGates := 2, NumWires := 4,
      N1 := [{ Name := "a", Typ := "int1", Size := 1 }, { Name := "0", Typ := "", Size := 1 }],
      N2 := [{ Name := "b", Typ := "int1", Size := 1 }],
      N3 := [{ Name := "", Typ := "int1", Size := 1 }],
      Gates := [(1, { ID := 1, Inputs := [3], Outputs := [4], Op := INV }),
                 (0, { ID := 0, Inputs := [0, 2], Outputs := [3], Op := AND })] }
    (by decide) (by decide)

/-- C1 (counterexample): a circuit with its one gate under key 0 and ID 0 whose
`Op` is the byte 4 is written with the op `\x7bOperation 4\x7d`, which `Parse`
rejects; and for a circuit whose `N1` has two named arguments (as after
`ZeroWire`) `Parse` returns a single unnamed argument of the total size, which is
not the `N1` of the circuit. -/
theorem parse_marshal_not_identity :
    Parse (Marshal
        { NumGates := 1, NumWires := 3, N1 := [{ Name := "", Typ := "", Size := 1 }],
          N2 := [{ Name := "", Typ := "", Size := 1 }],
          N3 := [{ Name := "", Typ := "", Size := 1 }],
          Gates := [(0, { ID := 0, Inputs := [0, 1], Outputs := [2], Op := 4 })] }) =
      .err .invalidGate ∧
    ∃ c', Parse (Marshal
        { NumGates := 1, NumWires := 4,
          N1 := [{ Name := "a", Typ := "int1", Size := 1 }, { Name := "0", Typ := "", Size := 1 }],
          N2 := [{ Name := "b", Typ := "int1", Size := 1 }],
          N3 := [{ Name := "", Typ := "int1", Size := 1 }],
          Gates := [(0, { ID := 0, Inputs := [0, 2], Outputs := [3], Op := AND })] }) = .ok c' ∧
      c'.N1 = [{ Name := "", Typ := "", Size := 2 }] ∧
      c'.N1 ≠ [{ Name := "a", Typ := "int1", Size := 1 }, { Name := "0", Typ := "", Size := 1 }] := by
  refine ⟨by decide,
    { NumGates := 1, NumWires := 4, N1 := [{ Name := "", Typ := "", Size := 2 }],
      N2 := [{ Name := "", Typ := "", Size := 1 }],
      N3 := [{ Name := "", Typ := "", Size := 1 }],
      Gates := [(0, { ID := 0, Inputs := [0, 2], Outputs := [3], Op := AND })] },
    by decide, rfl, by decide⟩

/-! ## Gates of a returned circuit and the data model -/

theorem gatesFrom_mem (n : Nat) (gs : List Gate) (p : Int × Gate) (h : p ∈ gatesFrom n gs) :
    ∃ i : Nat, p.1 = ((n + i : Nat) : Int) ∧ gs.get? i = some p.2 := by
  induction gs generalizing n with
  | nil => simp [gatesFrom] at h
  | cons g gs ih =>
    simp only [gatesFrom, List.mem_cons] at h
    rcases h with h | h
    · subst h
      exact ⟨0, rfl, rfl⟩
    · obtain ⟨i, h1, h2⟩ := ih (n + 1) h
      refine ⟨i + 1, ?_, by simpa using h2⟩
      rw [h1]
      congr 1
      omega

theorem gatesFrom_length (n : Nat) (gs : List Gate) : (gatesFrom n gs).length = gs.length := by
  induction gs generalizing n with
  | nil => rfl
  | cons g gs ih => simp [gatesFrom, ih]

/-- Every gate of a returned circuit is the gate of a gate line. -/
theorem parse_gate_mem (t : List Char) (c : Circuit) (h : Parse t = .ok c) :
    ∀ p ∈ c.Gates, ∃ (i : Nat) (line : List (List Char)), p.1 = (i : Int) ∧
      (gateLines t).get? i = some line ∧ parseGate (i : Int) line = .ok p.2 := by
  obtain ⟨gs, hgs, hg⟩ := parse_ok_lines t c h
  obtain ⟨hlen, hall⟩ := parseGateList_get 0 _ gs hgs
  intro p hp
  rw [hg] at hp
  obtain ⟨i, h1, h2⟩ := gatesFrom_mem 0 gs p hp
  rw [Nat.zero_add] at h1
  have hi : i < (gateLines t).length := by
    rw [← hlen]
    rw [List.get?_eq_getElem?] at h2
    by_contra hc
    rw [List.getElem?_eq_none (by omega)] at h2
    simp at h2
  refine ⟨i, (gateLines t)[i], h1, by simp [List.getElem?_eq_getElem hi], ?_⟩
  obtain ⟨g, hg1, hg2⟩ := hall i (gateLines t)[i] (by simp [List.getElem?_eq_getElem hi])
  rw [h2] at hg1
  injection hg1 with e
  rw [Nat.zero_add] at hg2
  rw [e]
  exact hg2

/-- The numbers of wires of the gate of a line with non-negative counts. -/
theorem parseGate_counts (k : Int) (line : List (List Char)) (g : Gate)
    (h : parseGate k line = .ok g) :
    ∃ f0 f1 n1 n2, line.get? 0 = some f0 ∧ line.get? 1 = some f1 ∧
      Atoi f0 = .ok n1 ∧ Atoi f1 = .ok n2 ∧
      g.Inputs.length = n1.toNat ∧ g.Outputs.length = n2.toNat := by
  obtain ⟨_, _, f0, f1, last, n1, n2, hf0, hf1, _, hn1, hn2, _, hin, hout, _⟩ :=
    parseGate_ok k line g h
  exact ⟨f0, f1, n1, n2, hf0, hf1, hn1, hn2, (readWires_ok _ _ _ _ _ hin).1,
    (readWires_ok _ _ _ _ _ hout).1⟩

/-- C11 (as amended): every gate of every circuit returned by `Parse` comes
from a gate line, has one of the four operations and, when the two counts of
its line are non-negative, has `nIn` input wires and `nOut` output wires;
`Parse` does not relate the counts to the operation. -/
theorem parse_gate_shape (t : List Char) (c : Circuit) (h : Parse t = .ok c) :
    ∀ p ∈ c.Gates, p.2.Op ∈ [XOR, AND, OR, INV] ∧
      ∃ (i : Nat) (line : List (List Char)) (f0 f1 : List Char) (n1 n2 : Int),
        p.1 = (i : Int) ∧ (gateLines t).get? i = some line ∧
        line.get? 0 = some f0 ∧ line.get? 1 = some f1 ∧
        Atoi f0 = .ok n1 ∧ Atoi f1 = .ok n2 ∧
        (0 ≤ n1 → 0 ≤ n2 → (p.2.Inputs.length : Int) = n1 ∧ (p.2.Outputs.length : Int) = n2) := by
  intro p hp
  obtain ⟨i, line, h1, h2, h3⟩ := parse_gate_mem t c h p hp
  obtain ⟨f0, f1, n1, n2, hf0, hf1, hn1, hn2, hi, ho⟩ := parseGate_counts _ _ _ h3
  obtain ⟨_, _, hle, _⟩ := parseGate_spec i line p.2 h3
  refine ⟨?_, i, line, f0, f1, n1, n2, h1, h2, hf0, hf1, hn1, hn2, ?_⟩
  · have aux : ∀ n : Nat, n ≤ 3 → n = 0 ∨ n = 1 ∨ n = 2 ∨ n = 3 := by omega
    simpa [XOR, AND, OR, INV] using aux p.2.Op hle
  · intro p1 p2
    rw [hi, ho]
    constructor <;> omega

theorem parse_gate_shape_witness :
    ((0, { ID := 0, Inputs := [0, 1], Outputs := [2], Op := AND }) : Int × Gate).2.Op ∈
        [XOR, AND, OR, INV] ∧
      ∃ (i : Nat) (line : List (List Char)) (f0 f1 : List Char) (n1 n2 : Int),
        ((0, { ID := 0, Inputs := [0, 1], Outputs := [2], Op := AND }) : Int × Gate).1 = (i : Int) ∧
        (gateLines "1 3\n1 1 1\n2 1 0 1 2 AND\n".toList).get? i = some line ∧
        line.get? 0 = some f0 ∧ line.get? 1 = some f1 ∧
        Atoi f0 = .ok n1 ∧ Atoi f1 = .ok n2 ∧
        (0 ≤ n1 → 0 ≤ n2 →
          ((((0, { ID := 0, Inputs := [0, 1], Outputs := [2], Op := AND }) :
            Int × Gate).2.Inputs.length : Nat) : Int) = n1 ∧
          ((((0, { ID := 0, Inputs := [0, 1], Outputs := [2], Op := AND }) :
            Int × Gate).2.Outputs.length : Nat) : Int) = n2) :=
  parse_gate_shape "1 3\n1 1 1\n2 1 0 1 2 AND\n".toList
    { NumGates := 1, NumWires := 3,
      N1 := [{ Name := "", Typ := "", Size := 1 }],
      N2 := [{ Name := "", Typ := "", Size := 1 }],
      N3 := [{ Name := "", Typ := "", Size := 1 }],
      Gates := [(0, { ID := 0, Inputs := [0, 1], Outputs := [2], Op := AND })] }
    (by decide) (0, { ID := 0, Inputs := [0, 1], Outputs := [2], Op := AND })
    (List.mem_singleton.mpr rfl)

/-- C11 (counterexample): `Parse` accepts an `XOR` gate with three input wires
and two output wires and an `INV` gate with two input wires; neither satisfies
the gate data model. -/
theorem parse_accepts_gates_outside_model :
    Parse "2 6\n1 1 1\n3 2 0 1 2 3 4 XOR\n2 1 0 1 5 INV\n".toList =
      .ok { NumGates := 2, NumWires := 6,
            N1 := [{ Name := "", Typ := "", Size := 1 }],
            N2 := [{ Name := "", Typ := "", Size := 1 }],
            N3 := [{ Name := "", Typ := "", Size := 1 }],
            Gates := [(0, { ID := 0, Inputs := [0, 1, 2], Outputs := [3, 4], Op := XOR }),
                       (1, { ID := 1, Inputs := [0, 1], Outputs := [5], Op := INV })] } ∧
    GateModel { ID := 0, Inputs := [0, 1, 2], Outputs := [3, 4], Op := XOR } = false ∧
    GateModel { ID := 1, Inputs := [0, 1], Outputs := [5], Op := INV } = false := by
  decide

/-- C12: `Parse` does not validate topological consistency: in this text, whose
lines are all well formed, the one gate reads the wires 7 and 9, which are not
circuit inputs (the inputs are the wires 0 and 1), not produced by an earlier
gate and not below `numWires = 3`; `Parse` accepts the text and returns the
gate as written. -/
theorem parse_accepts_inconsistent_topology :
    Parse "1 3\n1 1 1\n2 1 7 9 2 AND\n".toList =
      .ok { NumGates := 1, NumWires := 3,
            N1 := [{ Name := "", Typ := "", Size := 1 }],
            N2 := [{ Name := "", Typ := "", Size := 1 }],
            N3 := [{ Name := "", Typ := "", Size := 1 }],
            Gates := [(0, { ID := 0, Inputs := [7, 9], Outputs := [2], Op := AND })] } ∧
    (∀ c, Parse "1 3\n1 1 1\n2 1 7 9 2 AND\n".toList = .ok c →
      isCircuitInput c 7 = false ∧ producedBefore c 0 7 = false ∧
      ¬ ((7 : Int) < c.NumWires) ∧ TopologicallyConsistent c = false) := by
  have h : Parse "1 3\n1 1 1\n2 1 7 9 2 AND\n".toList =
      .ok { NumGates := 1, NumWires := 3,
            N1 := [{ Name := "", Typ := "", Size := 1 }],
            N2 := [{ Name := "", Typ := "", Size := 1 }],
            N3 := [{ Name := "", Typ := "", Size := 1 }],
            Gates := [(0, { ID := 0, Inputs := [7, 9], Outputs := [2], Op := AND })] } := by
    decide
  refine ⟨h, ?_⟩
  intro c hc
  rw [h] at hc
  injection hc with hc
  subst hc
  decide

/-- C19: the gate line `-3 3 XOR` passes the arity check and makes `Parse`
read `line[-1]`, a run-time panic instead of an error; the gate line `-1 1 XOR`
is not rejected either: it is accepted, with the count field `1` read as the
output wire. -/
theorem parse_negative_count_panics :
    Parse "1 1\n0 0 0\n-3 3 XOR\n".toList = .panic ∧
    Parse "1 2\n0 0 0\n-1 1 XOR\n".toList =
      .ok { NumGates := 1, NumWires := 2,
            N1 := [{ Name := "", Typ := "", Size := 0 }],
            N2 := [{ Name := "", Typ := "", Size := 0 }],
            N3 := [{ Name := "", Typ := "", Size := 0 }],
            Gates := [(0, { ID := 0, Inputs := [], Outputs := [1], Op := XOR })] } := by
  decide

/-- C20 (as amended): for every circuit returned by `Parse`, `NumGates` is the
value of the first field of line 1 and `Gates` holds exactly one gate per gate
line of the text; `Parse` does not compare the two numbers. -/
theorem parse_numGates (t : List Char) (c : Circuit) (h : Parse t = .ok c) :
    (∃ a0 a1 rest, textLines t = [a0, a1] :: rest ∧ Atoi a0 = .ok c.NumGates) ∧
      c.Gates.length = (gateLines t).length := by
  have h2 := h
  rw [Parse_eq] at h2
  obtain ⟨a0, a1, b0, b1, b2, gls, n1, n2, n3, gs, hls, hng, _, _, _, _, _, _, _, hgs, hg⟩ :=
    parseLines_ok _ c h2
  refine ⟨⟨a0, a1, _, hls, hng⟩, ?_⟩
  rw [hg, gatesFrom_length, (parseGateList_get 0 _ gs hgs).1]
  unfold gateLines
  rw [hls]
  rfl

theorem parse_numGates_witness :
    (∃ a0 a1 rest, textLines "1 3\n1 1 1\n2 1 0 1 2 AND\n".toList = [a0, a1] :: rest ∧
        Atoi a0 = .ok 1) ∧
      ([(0, { ID := 0, Inputs := [0, 1], Outputs := [2], Op := AND })] : GateMap).length =
        (gateLines "1 3\n1 1 1\n2 1 0 1 2 AND\n".toList).length :=
  parse_numGates "1 3\n1 1 1\n2 1 0 1 2 AND\n".toList
    { NumGates := 1, NumWires := 3,
      N1 := [{ Name := "", Typ := "", Size := 1 }],
      N2 := [{ Name := "", Typ := "", Size := 1 }],
      N3 := [{ Name := "", Typ := "", Size := 1 }],
      Gates := [(0, { ID := 0, Inputs := [0, 1], Outputs := [2], Op := AND })] }
    (by decide)

/-- C20 (counterexample): a text that declares 5 gates and has one gate line
is accepted: the returned circuit has `NumGates = 5` and one gate. -/
theorem parse_accepts_wrong_numGates :
    Parse "5 3\n1 1 1\n2 1 0 1 2 AND\n".toList =
      .ok { NumGates := 5, NumWires := 3,
            N1 := [{ Name := "", Typ := "", Size := 1 }],
            N2 := [{ Name := "", Typ := "", Size := 1 }],
            N3 := [{ Name := "", Typ := "", Size := 1 }],
            Gates := [(0, { ID := 0, Inputs := [0, 1], Outputs := [2], Op := AND })] } ∧
    (gateLines "5 3\n1 1 1\n2 1 0 1 2 AND\n".toList).length = 1 := by
  decide

/-! ## Marshalling again -/

theorem renumber_length (n : Nat) (gs : List Gate) : (renumber n gs).length = gs.length := by
  induction gs generalizing n with
  | nil => rfl
  | cons g gs ih => simp [renumber, ih]

theorem renumber_append (n : Nat) (xs ys : List Gate) :
    renumber n (xs ++ ys) = renumber n xs ++ renumber (n + xs.length) ys := by
  induction xs generalizing n with
  | nil => rfl
  | cons g gs ih =>
    rw [List.cons_append, renumber, renumber, ih, List.length_cons, List.cons_append,
      show n + 1 + gs.length = n + (gs.length + 1) by omega]

theorem renumber_renumber (n k : Nat) (gs : List Gate) :
    renumber n (renumber k gs) = renumber n gs := by
  induction gs generalizing n k with
  | nil => rfl
  | cons g gs ih => simp only [renumber, ih]

theorem renumber_self (n : Nat) (gs : List Gate)
    (hid : gs.map Gate.ID = List.range' n gs.length) (hn : n + gs.length ≤ 2 ^ 32) :
    renumber n gs = gs := by
  induction gs generalizing n with
  | nil => rfl
  | cons g gs ih =>
    simp only [List.map_cons, List.length_cons, List.range'_succ, List.cons.injEq] at hid
    simp only [List.length_cons] at hn
    simp only [renumber]
    rw [ih (n + 1) hid.2 (by omega), toUint32_id n (by omega), ← hid.1]

theorem parseGateList_forall2 (ls : List (List (List Char))) (gs : List Gate) (n : Nat)
    (h : List.Forall₂ (fun l g => parseGate 0 l = .ok g) ls gs) :
    parseGateList n ls = .ok (renumber n gs) := by
  induction h generalizing n with
  | nil => rfl
  | cons hl _ ih =>
    rw [parseGateList, parseGate_id, hl, ih (n + 1)]
    rfl

theorem parseGateList_renumber (gs : List Gate) (n : Nat)
    (hg : ∀ g ∈ gs, g.Op ≤ 3 ∧ (∀ w ∈ g.Inputs, w < 2 ^ 32) ∧
      (∀ w ∈ g.Outputs, w < 2 ^ 32) ∧ g.Inputs.length + g.Outputs.length + 3 < 2 ^ 63) :
    parseGateList n (gs.map gateFields) = .ok (renumber n gs) := by
  induction gs generalizing n with
  | nil => rfl
  | cons g gs ih =>
    obtain ⟨h2, h3, h4, h5⟩ := hg g (by simp)
    simp only [List.map_cons, parseGateList]
    rw [parseGate_gateFields _ g h2 h3 h4 h5, Outcome.bind_ok,
      ih (n + 1) (fun x hx => hg x (by simp [hx])), Outcome.bind_ok]
    rfl

theorem readWires_lt (line : List (List Char)) (base : Int) (k : Nat) (i : Int) (ws : List Nat)
    (h : readWires line base k i = .ok ws) : ∀ w ∈ ws, w < 2 ^ 32 := by
  induction k generalizing i ws with
  | zero =>
    simp only [readWires] at h
    injection h with h
    subst h
    simp
  | succ k ih =>
    simp only [readWires] at h
    obtain ⟨f, _, h⟩ := Outcome.bind_eq_ok h
    obtain ⟨v, _, h⟩ := Outcome.bind_eq_ok h
    obtain ⟨rest, hrest, h⟩ := Outcome.bind_eq_ok h
    injection h with h
    subst h
    intro w hw
    simp only [List.mem_cons] at hw
    rcases hw with hw | hw
    · subst hw
      unfold toUint32
      omega
    · exact ih (i + 1) rest hrest w hw

/-- The gates that the gate loop of `Parse` makes of a list of lines: their IDs
are the loop counters converted to `uint32`, their operations are the four
named ones and their wires are `uint32` values. -/
theorem parseGateList_gates (n : Nat) (ls : List (List (List Char))) (gs : List Gate)
    (h : parseGateList n ls = .ok gs) :
    renumber n gs = gs ∧ ∀ g ∈ gs, g.Op ≤ 3 ∧ (∀ w ∈ g.Inputs, w < 2 ^ 32) ∧
      (∀ w ∈ g.Outputs, w < 2 ^ 32) := by
  induction ls generalizing n gs with
  | nil =>
    simp only [parseGateList] at h
    injection h with h
    subst h
    exact ⟨rfl, by simp⟩
  | cons l ls ih =>
    simp only [parseGateList] at h
    obtain ⟨g, hg, h⟩ := Outcome.bind_eq_ok h
    obtain ⟨rest, hrest, h⟩ := Outcome.bind_eq_ok h
    injection h with h
    subst h
    obtain ⟨h1, h2⟩ := ih (n + 1) rest hrest
    obtain ⟨_, hid, f0, f1, last, n1, n2, _, _, _, _, _, _, hin, hout, hop⟩ :=
      parseGate_ok _ _ _ hg
    constructor
    · rw [renumber, h1, ← hid]
    · intro x hx
      simp only [List.mem_cons] at hx
      rcases hx with hx | hx
      · subst hx
        exact ⟨(parseOp_ok _ _ hop).2.1, readWires_lt _ _ _ _ _ hin, readWires_lt _ _ _ _ _ hout⟩
      · exact h2 x hx

theorem renumber_ids (n : Nat) (gs : List Gate) (hn : n + gs.length ≤ 2 ^ 32) :
    (renumber n gs).map Gate.ID = List.range' n gs.length := by
  induction gs generalizing n with
  | nil => rfl
  | cons g gs ih =>
    simp only [List.length_cons] at hn
    simp only [renumber, List.map_cons, List.length_cons, List.range'_succ]
    rw [ih (n + 1) (by omega), toUint32_id n (by omega)]

theorem gatesFrom_map {β : Type} (f : Gate → β) (n : Nat) (gs : List Gate) :
    (gatesFrom n gs).map (fun p => f p.2) = gs.map f := by
  induction gs generalizing n with
  | nil => rfl
  | cons g gs ih => simp only [gatesFrom, List.map_cons, ih]

/-- Gates whose IDs count up from `n` are in the order of `sort.Slice`. -/
theorem sortSlice_ids (n : Nat) (gs : List Gate)
    (hid : gs.map Gate.ID = List.range' n gs.length) :
    sortSlice (gs.map fun g => (g.ID, g)) = gs.map fun g => (g.ID, g) := by
  apply List.Sorted.insertionSort_eq
  unfold List.Sorted
  rw [List.pairwise_map]
  have h := List.pairwise_lt_range' n gs.length
  rw [← hid, List.pairwise_map] at h
  exact h.imp (fun hlt => Nat.le_of_lt hlt)

/-- The text that `Marshal` writes is parsed again: for a circuit whose values
fit the types `int` and `uint32`, `Parse` returns the gates of the sorted slice
of `Marshal`, numbered in that order. -/
theorem parse_marshal_again (c : Circuit) (hng : IsInt64 c.NumGates) (hnw : IsInt64 c.NumWires)
    (hg : ∀ p ∈ c.Gates, p.2.Op ≤ 3 ∧ (∀ w ∈ p.2.Inputs, w < 2 ^ 32) ∧
      (∀ w ∈ p.2.Outputs, w < 2 ^ 32) ∧ p.2.Inputs.length + p.2.Outputs.length + 3 < 2 ^ 63) :
    Parse (Marshal c) = .ok
      { NumGates := c.NumGates, NumWires := c.NumWires,
        N1 := [{ Name := "", Typ := "", Size := c.N1.Size }],
        N2 := [{ Name := "", Typ := "", Size := c.N2.Size }],
        N3 := [{ Name := "", Typ := "", Size := c.N3.Size }],
        Gates := gatesFrom 0 (renumber 0 (c.sortedGates.map Prod.snd)) } := by
  have hop : ∀ p ∈ c.Gates, p.2.Op ≤ 3 := fun p hp => (hg p hp).1
  have hmem : ∀ g ∈ c.sortedGates.map Prod.snd, g.Op ≤ 3 ∧ (∀ w ∈ g.Inputs, w < 2 ^ 32) ∧
      (∀ w ∈ g.Outputs, w < 2 ^ 32) ∧ g.Inputs.length + g.Outputs.length + 3 < 2 ^ 63 := by
    intro g hgm
    simp only [List.mem_map] at hgm
    obtain ⟨kv, hkv, rfl⟩ := hgm
    have := (sortSlice_perm _).subset hkv
    simp only [List.mem_map] at this
    obtain ⟨p, hp, rfl⟩ := this
    exact hg p hp
  rw [Parse_eq, textLines_marshal c hop, parseLines_header,
    atoi_fmtInt _ hng, atoi_fmtInt _ hnw, atoi_fmtInt _ (size_int64 _),
    atoi_fmtInt _ (size_int64 _), atoi_fmtInt _ (size_int64 _)]
  simp only [Outcome.bind_ok]
  have e : (c.sortedGates.map fun kv => gateFields kv.2) =
      (c.sortedGates.map Prod.snd).map gateFields := by
    rw [List.map_map]
    rfl
  rw [e, parseGateList_renumber _ 0 hmem]
  rfl

theorem gatesFrom_snd_mem (n : Nat) (gs : List Gate) (p : Int × Gate) (h : p ∈ gatesFrom n gs) :
    p.2 ∈ gs := by
  have := List.mem_map_of_mem (fun p : Int × Gate => p.2) h
  rw [gatesFrom_map (fun g => g) n gs, List.map_id'] at this
  exact this

theorem sortedGates_gatesFrom (c : Circuit) (gs : List Gate) (hg : c.Gates = gatesFrom 0 gs) :
    c.sortedGates = sortSlice (gs.map fun g => (g.ID, g)) := by
  unfold Circuit.sortedGates
  rw [hg, gatesFrom_map (fun g => (g.ID, g)) 0 gs]

/-- C21 (amended): for every text `T` that `Parse` accepts as a circuit with at
most `2^32` gates, each with fewer than `2^63 - 3` wires, `Parse` accepts the
text `T'` that `Marshal` writes for that circuit and returns the same circuit,
so that `Marshal` of `Parse(T')` is `T'`; and `T` with blank lines inserted is
parsed to the same circuit, hence written as the same `T'`. -/
theorem remarshal_normal_form (t : List Char) (c : Circuit) (h : Parse t = .ok c)
    (hk : c.Gates.length ≤ 2 ^ 32)
    (hlen : ∀ p ∈ c.Gates, p.2.Inputs.length + p.2.Outputs.length + 3 < 2 ^ 63) :
    Parse (Marshal c) = .ok c ∧
    (Parse (Marshal c)).bind (fun c2 => .ok (Marshal c2)) = .ok (Marshal c) ∧
    ∀ ns, (Parse (insertBlankLines ns t)).bind (fun c2 => .ok (Marshal c2)) =
      .ok (Marshal c) := by
  have h0 := h
  rw [Parse_eq] at h0
  obtain ⟨a0, a1, b0, b1, b2, gls, n1, n2, n3, gs, _, hng, hnw, hn1, hn2, hn3, e1, e2, e3,
    hgs, hg⟩ := parseLines_ok _ c h0
  obtain ⟨hre, hgates⟩ := parseGateList_gates 0 gls gs hgs
  have hlen2 : gs.length ≤ 2 ^ 32 := by
    rw [hg, gatesFrom_length] at hk
    exact hk
  have hid : gs.map Gate.ID = List.range' 0 gs.length := by
    have := renumber_ids 0 gs (by omega)
    rw [hre] at this
    exact this
  have hall : ∀ p ∈ c.Gates, p.2.Op ≤ 3 ∧ (∀ w ∈ p.2.Inputs, w < 2 ^ 32) ∧
      (∀ w ∈ p.2.Outputs, w < 2 ^ 32) ∧ p.2.Inputs.length + p.2.Outputs.length + 3 < 2 ^ 63 := by
    intro p hp
    have hm : p.2 ∈ gs := gatesFrom_snd_mem 0 gs p (by rw [← hg]; exact hp)
    obtain ⟨i1, i2, i3⟩ := hgates p.2 hm
    exact ⟨i1, i2, i3, hlen p hp⟩
  have hsorted : c.sortedGates.map Prod.snd = gs := by
    rw [sortedGates_gatesFrom c gs hg, sortSlice_ids 0 gs hid, List.map_map]
    exact List.map_id' gs
  have hparse : Parse (Marshal c) = .ok c := by
    rw [parse_marshal_again c (atoi_ok_int64 _ _ hng) (atoi_ok_int64 _ _ hnw) hall, hsorted, hre,
      ← hg]
    have s1 : c.N1.Size = n1 := by rw [e1]; exact size_single _ (atoi_ok_int64 _ _ hn1)
    have s2 : c.N2.Size = n2 := by rw [e2]; exact size_single _ (atoi_ok_int64 _ _ hn2)
    have s3 : c.N3.Size = n3 := by rw [e3]; exact size_single _ (atoi_ok_int64 _ _ hn3)
    rw [s1, s2, s3, ← e1, ← e2, ← e3]
  refine ⟨hparse, by rw [hparse]; rfl, ?_⟩
  intro ns
  rw [Parse_eq, textLines_insertBlankLines, ← Parse_eq, h]
  rfl

theorem remarshal_normal_form_witness :
    Parse (Marshal
        { NumGates := 2, NumWires := 4,
          N1 := [{ Name := "", Typ := "", Size := 1 }],
          N2 := [{ Name := "", Typ := "", Size := 1 }],
          N3 := [{ Name := "", Typ := "", Size := 1 }],
          Gates := [(0, { ID := 0, Inputs := [0, 1], Outputs := [2], Op := AND }),
                     (1, { ID := 1, Inputs := [2], Outputs := [3], Op := INV })] }) =
      .ok { NumGates := 2, NumWires := 4,
            N1 := [{ Name := "", Typ := "", Size := 1 }],
            N2 := [{ Name := "", Typ := "", Size := 1 }],
            N3 := [{ Name := "", Typ := "", Size := 1 }],
            Gates := [(0, { ID := 0, Inputs := [0, 1], Outputs := [2], Op := AND }),
                       (1, { ID := 1, Inputs := [2], Outputs := [3], Op := INV })] } ∧
    (Parse (insertBlankLines [0, 5] "2 4\n1 1 1\n\n+2 1 0 1 2 AND\n\n1  1 2 3 INV\n".toList)).bind
        (fun c2 => .ok (Marshal c2)) =
      .ok "2 4\n1 1 1\n\n2 1 0 1 2 AND\n1 1 2 3 INV\n".toList := by
  obtain ⟨h1, _, h3⟩ := remarshal_normal_form
    "2 4\n1 1 1\n\n+2 1 0 1 2 AND\n\n1  1 2 3 INV\n".toList
    { NumGates := 2, NumWires := 4,
      N1 := [{ Name := "", Typ := "", Size := 1 }],
      N2 := [{ Name := "", Typ := "", Size := 1 }],
      N3 := [{ Name := "", Typ := "", Size := 1 }],
      Gates := [(0, { ID := 0, Inputs := [0, 1], Outputs := [2], Op := AND }),
                 (1, { ID := 1, Inputs := [2], Outputs := [3], Op := INV })] }
    (by decide) (by decide) (by decide)
  exact ⟨h1, (h3 [0, 5]).trans (by decide)⟩

/-! ## More than `2^32` gate lines -/

theorem sortSlice_append_low (l : List (Nat × Gate)) (x : Nat × Gate)
    (hs : List.Sorted (fun a b => a.1 ≤ b.1) l) (hx : ∀ b ∈ l, x.1 < b.1) :
    sortSlice (l ++ [x]) = x :: l := by
  unfold sortSlice
  induction l with
  | nil => rfl
  | cons b l ih =>
    have hb : ¬ b.1 ≤ x.1 := Nat.not_le.mpr (hx b (by simp))
    have hins : List.orderedInsert (fun a b => a.1 ≤ b.1) b l = b :: l := by
      have := hs.insertionSort_eq
      rw [List.insertionSort, hs.of_cons.insertionSort_eq] at this
      exact this
    rw [List.cons_append, List.insertionSort, ih hs.of_cons (fun c hc => hx c (by simp [hc])),
      List.orderedInsert, if_neg hb, hins]

theorem renumber_mem (n : Nat) (gs : List Gate) (g : Gate) (h : g ∈ renumber n gs) :
    ∃ g0 ∈ gs, g.Inputs = g0.Inputs ∧ g.Outputs = g0.Outputs ∧ g.Op = g0.Op := by
  induction gs generalizing n with
  | nil => simp [renumber] at h
  | cons a gs ih =>
    simp only [renumber, List.mem_cons] at h
    rcases h with h | h
    · subst h
      exact ⟨a, by simp, rfl, rfl, rfl⟩
    · obtain ⟨g0, h0, h1⟩ := ih (n + 1) h
      exact ⟨g0, by simp [h0], h1⟩

theorem forall2_replicate_append {α β : Type} (R : α → β → Prop) (a : α) (b : β) (k : Nat)
    (xs : List α) (ys : List β) (hab : R a b) (h : List.Forall₂ R xs ys) :
    List.Forall₂ R (List.replicate k a ++ xs) (List.replicate k b ++ ys) := by
  induction k with
  | zero => exact h
  | succ k ih => exact List.Forall₂.cons hab ih

theorem textLines_wrapGates (k : Nat) :
    textLines (wrapGatesText k) =
      ["4294967297".toList, "4".toList] :: ["2".toList, "0".toList, "2".toList] ::
        ["1".toList, "1".toList, "0".toList, "2".toList, "INV".toList] ::
        (List.replicate k ["2".toList, "1".toList, "0".toList, "1".toList, "3".toList,
            "AND".toList] ++
          [["1".toList, "1".toList, "0".toList, "2".toList, "INV".toList]]) := by
  unfold wrapGatesText
  have e : (List.replicate k ("2 1 0 1 3 AND".toList ++ ['\n'])).flatten =
      ((List.replicate k "2 1 0 1 3 AND".toList).map fun l => l ++ ['\n']).flatten := by
    rw [List.map_replicate]
  rw [e]
  generalize hb : ((List.replicate k "2 1 0 1 3 AND".toList).map fun l => l ++ ['\n']).flatten ++
    ("1 1 0 2 INV".toList ++ ['\n']) = body
  show textLines ("4294967297 4".toList ++ '\n' :: ("2 0 2".toList ++ '\n' ::
    ("1 1 0 2 INV".toList ++ '\n' :: body))) = _
  rw [textLines_line _ _ (by decide) (by decide), textLines_line _ _ (by decide) (by decide),
    textLines_line _ _ (by decide) (by decide), ← hb, textLines_flatten, List.map_replicate]
  · rfl
  · intro l hl
    rw [List.eq_of_mem_replicate hl]
    decide

/-- The circuit that `Parse` returns for `wrapGatesText k`. -/
theorem parse_wrapGates (k : Nat) :
    Parse (wrapGatesText k) = .ok
      { NumGates := 4294967297, NumWires := 4,
        N1 := [{ Name := "", Typ := "", Size := 2 }],
        N2 := [{ Name := "", Typ := "", Size := 0 }],
        N3 := [{ Name := "", Typ := "", Size := 2 }],
        Gates := gatesFrom 0
          (renumber 0 (wrapGateA :: (List.replicate k wrapGateB ++ [wrapGateA]))) } := by
  have hA : parseGate 0 ["1".toList, "1".toList, "0".toList, "2".toList, "INV".toList] =
      .ok wrapGateA := by decide
  have hB : parseGate 0 ["2".toList, "1".toList, "0".toList, "1".toList, "3".toList,
      "AND".toList] = .ok wrapGateB := by decide
  have h0 : Atoi "0".toList = .ok 0 := by decide
  have h2 : Atoi "2".toList = .ok 2 := by decide
  have h4 : Atoi "4".toList = .ok 4 := by decide
  have hn : Atoi "4294967297".toList = .ok 4294967297 := by decide
  rw [Parse_eq, textLines_wrapGates, parseLines_header, h0, h2, h4, hn,
    parseGateList_forall2 _ (wrapGateA :: (List.replicate k wrapGateB ++ [wrapGateA])) 0
      (List.Forall₂.cons hA (forall2_replicate_append _ _ _ k _ _ hB
        (List.Forall₂.cons hA List.Forall₂.nil)))]
  rfl

theorem sorted_ids (n : Nat) (gs : List Gate) (hid : gs.map Gate.ID = List.range' n gs.length) :
    List.Sorted (fun a b => a.1 ≤ b.1) (gs.map fun g => (g.ID, g)) ∧
      ∀ b ∈ gs.map (fun g => (g.ID, g)), n ≤ b.1 := by
  constructor
  · unfold List.Sorted
    rw [List.pairwise_map]
    have h := List.pairwise_lt_range' n gs.length
    rw [← hid, List.pairwise_map] at h
    exact h.imp (fun hlt => Nat.le_of_lt hlt)
  · intro b hb
    simp only [List.mem_map] at hb
    obtain ⟨g, hg, rfl⟩ := hb
    have : g.ID ∈ List.range' n gs.length := by
      rw [← hid]
      exact List.mem_map_of_mem Gate.ID hg
    rw [List.mem_range'_1] at this
    exact this.1

/-- The gates that `Parse` returns for the text that `Marshal` writes fit
their types again. -/
theorem renumber_gates_fit (c : Circuit) (g : Gate)
    (hg : ∀ p ∈ c.Gates, p.2.Op ≤ 3 ∧ (∀ w ∈ p.2.Inputs, w < 2 ^ 32) ∧
      (∀ w ∈ p.2.Outputs, w < 2 ^ 32) ∧ p.2.Inputs.length + p.2.Outputs.length + 3 < 2 ^ 63)
    (h : g ∈ renumber 0 (c.sortedGates.map Prod.snd)) :
    g.Op ≤ 3 ∧ (∀ w ∈ g.Inputs, w < 2 ^ 32) ∧
      (∀ w ∈ g.Outputs, w < 2 ^ 32) ∧ g.Inputs.length + g.Outputs.length + 3 < 2 ^ 63 := by
  obtain ⟨g0, h0, e1, e2, e3⟩ := renumber_mem _ _ _ h
  simp only [List.mem_map] at h0
  obtain ⟨kv, hkv, rfl⟩ := h0
  have := (sortSlice_perm _).subset hkv
  simp only [List.mem_map] at this
  obtain ⟨p, hp, rfl⟩ := this
  rw [e1, e2, e3]
  exact hg p hp

theorem renumber_wrapGates (m : Nat) (hm : m + 2 = 2 ^ 32) :
    renumber 0 (wrapGateA :: (List.replicate (m + 1) wrapGateB ++ [wrapGateA])) =
      wrapGateA :: (renumber 1 (List.replicate (m + 1) wrapGateB) ++ [wrapGateA]) := by
  have e0 : toUint32 ((0 : Nat) : Int) = 0 := by decide
  have e1 : toUint32 ((0 + 1 + (m + 1) : Nat) : Int) = 0 := by
    rw [toUint32_nat]
    omega
  rw [renumber, renumber_append, List.length_replicate, renumber, renumber, e0, e1]
  rfl

theorem renumber_wrapGates_again (m : Nat) (hm : m + 2 = 2 ^ 32) :
    renumber 0 (wrapGateA :: wrapGateA :: renumber 1 (List.replicate (m + 1) wrapGateB)) =
      wrapGateA :: { wrapGateA with ID := 1 } ::
        (renumber 2 (List.replicate m wrapGateB) ++ [wrapGateB]) := by
  have e0 : toUint32 ((0 : Nat) : Int) = 0 := by decide
  have e1 : toUint32 ((0 + 1 : Nat) : Int) = 1 := by decide
  have e2 : toUint32 ((0 + 1 + 1 + m : Nat) : Int) = 0 := by
    rw [toUint32_nat]
    omega
  rw [renumber, renumber, renumber_renumber, List.replicate_succ', renumber_append,
    List.length_replicate, renumber, renumber, e0, e1, e2]
  rfl

/-- The slice of `Marshal` for the circuit of `wrapGatesText`: the two gates
with ID 0 come first. -/
theorem sortedGates_wrapGates (m : Nat) (hm : m + 2 = 2 ^ 32) (c : Circuit)
    (hc : c.Gates = gatesFrom 0
      (renumber 0 (wrapGateA :: (List.replicate (m + 1) wrapGateB ++ [wrapGateA])))) :
    c.sortedGates.map Prod.snd =
      wrapGateA :: wrapGateA :: renumber 1 (List.replicate (m + 1) wrapGateB) := by
  have hid := renumber_ids 1 (List.replicate (m + 1) wrapGateB)
    (by rw [List.length_replicate]; omega)
  rw [← renumber_length 1 (List.replicate (m + 1) wrapGateB)] at hid
  obtain ⟨hs, hlow⟩ := sorted_ids 1 _ hid
  have h1 := sortSlice_append_low _ (wrapGateA.ID, wrapGateA) hs (fun b hb => hlow b hb)
  unfold sortSlice at h1
  rw [sortedGates_gatesFrom c _ hc, renumber_wrapGates m hm]
  unfold sortSlice
  rw [List.map_cons, List.map_append, List.map_cons, List.map_nil, List.insertionSort, h1,
    List.orderedInsert, if_pos (Nat.le_refl _)]
  simp only [List.map_cons, List.map_map]
  congr 2
  exact List.map_id' _

/-- The slice of `Marshal` for the circuit parsed from the text written for
`wrapGatesText`: the gate of the last line, which has ID 0 again, is second. -/
theorem sortedGates_wrapGates_again (m : Nat) (hm : m + 2 = 2 ^ 32) (c : Circuit)
    (hc : c.Gates = gatesFrom 0
      (renumber 0 (wrapGateA :: wrapGateA :: renumber 1 (List.replicate (m + 1) wrapGateB)))) :
    ∃ rest, c.sortedGates = (0, wrapGateA) :: (0, wrapGateB) :: rest := by
  have hid := renumber_ids 2 (List.replicate m wrapGateB)
    (by rw [List.length_replicate]; omega)
  rw [← renumber_length 2 (List.replicate m wrapGateB)] at hid
  obtain ⟨hs, hlow⟩ := sorted_ids 2 _ hid
  have h1 := sortSlice_append_low _ (wrapGateB.ID, wrapGateB) hs
    (fun b hb => Nat.lt_of_lt_of_le (by decide) (hlow b hb))
  unfold sortSlice at h1
  rw [sortedGates_gatesFrom c _ hc, renumber_wrapGates_again m hm]
  unfold sortSlice
  rw [List.map_cons, List.map_cons, List.map_append, List.map_cons, List.map_nil,
    List.insertionSort, List.insertionSort, h1, List.orderedInsert,
    if_neg (by decide), List.orderedInsert, if_pos (by decide)]
  exact ⟨_, rfl⟩

/-- Marshalling the circuit of `wrapGatesText k` for `k + 2 = 2^32 + 1` gate
lines, parsing the text and marshalling again: the second gate line of the
first text is the line of the gate `wrapGateA`, the second gate line of the
second text is the line of the gate `wrapGateB`. -/
theorem remarshal_wrapGates (k : Nat) (hk : k + 1 = 2 ^ 32) (c : Circuit)
    (hng : IsInt64 c.NumGates) (hnw : IsInt64 c.NumWires)
    (hc : c.Gates = gatesFrom 0
      (renumber 0 (wrapGateA :: (List.replicate k wrapGateB ++ [wrapGateA])))) :
    ∃ c2, Parse (Marshal c) = .ok c2 ∧
      (textLines (Marshal c)).get? 3 = some (gateFields wrapGateA) ∧
      (textLines (Marshal c2)).get? 3 = some (gateFields wrapGateB) := by
  obtain ⟨m, rfl⟩ : ∃ m, k = m + 1 := ⟨k - 1, by omega⟩
  have hm : m + 2 = 2 ^ 32 := by omega
  have hfit : ∀ p ∈ c.Gates, p.2.Op ≤ 3 ∧ (∀ w ∈ p.2.Inputs, w < 2 ^ 32) ∧
      (∀ w ∈ p.2.Outputs, w < 2 ^ 32) ∧ p.2.Inputs.length + p.2.Outputs.length + 3 < 2 ^ 63 := by
    intro p hp
    rw [hc] at hp
    obtain ⟨g0, h0, e1, e2, e3⟩ := renumber_mem _ _ _ (gatesFrom_snd_mem _ _ _ hp)
    rw [e1, e2, e3]
    simp only [List.mem_cons, List.mem_append, List.mem_replicate, List.mem_singleton,
      List.not_mem_nil, or_false] at h0
    rcases h0 with h | ⟨_, h⟩ | h <;> subst h <;> decide
  have hfit2 : ∀ g ∈ renumber 0 (c.sortedGates.map Prod.snd), g.Op ≤ 3 :=
    fun g hg => (renumber_gates_fit c g hfit hg).1
  have hs := sortedGates_wrapGates m hm c hc
  have hparse := parse_marshal_again c hng hnw hfit
  rw [hs] at hparse hfit2
  refine ⟨_, hparse, ?_, ?_⟩
  · have e : (c.sortedGates.map fun kv => gateFields kv.2) =
        (c.sortedGates.map Prod.snd).map gateFields := by
      rw [List.map_map]
      rfl
    rw [textLines_marshal c (fun p hp => (hfit p hp).1), e, hs]
    rfl
  · obtain ⟨rest, hr⟩ := sortedGates_wrapGates_again m hm
      { NumGates := c.NumGates, NumWires := c.NumWires,
        N1 := [{ Name := "", Typ := "", Size := c.N1.Size }],
        N2 := [{ Name := "", Typ := "", Size := c.N2.Size }],
        N3 := [{ Name := "", Typ := "", Size := c.N3.Size }],
        Gates := gatesFrom 0 (renumber 0
          (wrapGateA :: wrapGateA :: renumber 1 (List.replicate (m + 1) wrapGateB))) } rfl
    rw [textLines_marshal _ (fun p hp => hfit2 p.2 (gatesFrom_snd_mem _ _ _ hp)), hr]
    rfl

/-- C21 (counterexample): the text `wrapGatesText 4294967295` has `2^32 + 1`
gate lines: `1 1 0 2 INV`, then `2^32 - 1` lines `2 1 0 1 3 AND`, then
`1 1 0 2 INV`.  `Parse` accepts it and gives the last gate the ID 0, like the
first.  `Marshal` writes the text `T'` with the two `INV` lines first; `Parse`
accepts `T'` and gives its last gate, an `AND` gate, the ID 0; so `Marshal`
of `Parse(T')` has an `AND` line as its second gate line, where `T'` has an
`INV` line: the two texts differ. -/
theorem remarshal_not_normal_form :
    ∃ c c2, Parse (wrapGatesText 4294967295) = .ok c ∧ Parse (Marshal c) = .ok c2 ∧
      (textLines (Marshal c)).get? 3 =
        some ["1".toList, "1".toList, "0".toList, "2".toList, "INV".toList] ∧
      (textLines (Marshal c2)).get? 3 =
        some ["2".toList, "1".toList, "0".toList, "1".toList, "3".toList, "AND".toList] ∧
      Marshal c2 ≠ Marshal c := by
  obtain ⟨c2, h1, h2, h3⟩ := remarshal_wrapGates 4294967295 (by norm_num)
    { NumGates := 4294967297, NumWires := 4,
      N1 := [{ Name := "", Typ := "", Size := 2 }],
      N2 := [{ Name := "", Typ := "", Size := 0 }],
      N3 := [{ Name := "", Typ := "", Size := 2 }],
      Gates := gatesFrom 0
        (renumber 0 (wrapGateA :: (List.replicate 4294967295 wrapGateB ++ [wrapGateA]))) }
    (by decide) (by decide) rfl
  refine ⟨_, c2, parse_wrapGates 4294967295, h1, h2.trans (by decide), h3.trans (by decide), ?_⟩
  intro e
  rw [e, h2] at h3
  exact absurd h3 (by decide)

/-! ## Splitting an input value into arguments -/

theorem or_two_pow (r i : Nat) (h : r < 2 ^ i) : r ||| 2 ^ i = r + 2 ^ i := by
  have := Nat.mul_add_lt_is_or h 1
  rw [Nat.mul_one] at this
  rw [Nat.lor_comm, ← this, Nat.add_comm]

/-- The inner loop of `Split` while the bit index stays an `int`: it returns
the bits `[b, b + n)` of `m`, placed from bit `i` on. -/
theorem splitArg_spec (m : Nat) (n i b r : Nat) (hb : b + n < 2 ^ 63) (hr : r < 2 ^ i) :
    splitArg (m : Int) n i (b : Int) r =
      some (r + 2 ^ i * (m / 2 ^ b % 2 ^ n), ((b + n : Nat) : Int)) := by
  induction n generalizing i b r with
  | zero => simp [splitArg, Nat.mod_one]
  | succ n ih =>
    unfold splitArg
    rw [if_neg (by omega)]
    have hw : wrapInt ((b : Int) + 1) = ((b + 1 : Nat) : Int) := by
      rw [wrapInt_id _ (by unfold IsInt64; omega)]
      rfl
    have ht : (m : Int).testBit (b : Int).toNat = m.testBit b := rfl
    rw [hw, ht]
    have hdiv : m / 2 ^ (b + 1) = m / 2 ^ b / 2 := by
      rw [Nat.pow_succ, Nat.div_div_eq_div_mul]
    have hmod : m / 2 ^ b % 2 ^ (n + 1) = m / 2 ^ b % 2 + 2 * (m / 2 ^ b / 2 % 2 ^ n) := by
      rw [Nat.pow_succ, Nat.mul_comm, Nat.mod_mul]
    have hlt : m / 2 ^ b % 2 < 2 := Nat.mod_lt _ (by decide)
    have hp : 2 ^ (i + 1) = 2 * 2 ^ i := by rw [Nat.pow_succ, Nat.mul_comm]
    by_cases hbit : m.testBit b = true
    · have h1 : m / 2 ^ b % 2 = 1 := by
        rw [Nat.testBit_to_div_mod] at hbit
        simpa using hbit
      have hr2 : r + 2 ^ i < 2 ^ (i + 1) := by
        rw [hp]
        exact Nat.lt_of_lt_of_le (Nat.add_lt_add_right hr _) (by rw [Nat.two_mul])
      have hb2 : b + 1 + n < 2 ^ 63 := by
        rw [Nat.add_right_comm]
        exact hb
      have e1 : r + 2 ^ i + 2 ^ (i + 1) * (m / 2 ^ (b + 1) % 2 ^ n) =
          r + 2 ^ i * (m / 2 ^ b % 2 ^ (n + 1)) := by
        rw [hmod, hdiv, h1, hp]
        ring
      have e2 : b + 1 + n = b + (n + 1) := by
        rw [Nat.add_assoc, Nat.add_comm 1 n]
      rw [if_pos hbit, or_two_pow r i hr, ih (i + 1) (b + 1) (r + 2 ^ i) hb2 hr2, e1, e2]
    · have h1 : m / 2 ^ b % 2 = 0 := by
        rw [Nat.testBit_to_div_mod] at hbit
        simp only [decide_eq_true_eq] at hbit
        omega
      have hr2 : r < 2 ^ (i + 1) := by
        rw [hp]
        exact Nat.lt_of_lt_of_le hr (Nat.le_mul_of_pos_left _ (by decide))
      have hb2 : b + 1 + n < 2 ^ 63 := by
        rw [Nat.add_right_comm]
        exact hb
      have e1 : r + 2 ^ (i + 1) * (m / 2 ^ (b + 1) % 2 ^ n) =
          r + 2 ^ i * (m / 2 ^ b % 2 ^ (n + 1)) := by
        rw [hmod, hdiv, h1, hp]
        ring
      have e2 : b + 1 + n = b + (n + 1) := by
        rw [Nat.add_assoc, Nat.add_comm 1 n]
      rw [if_neg hbit, ih (i + 1) (b + 1) r hb2 hr2, e1, e2]

theorem splitLoop_spec (m : Nat) (io : List IOArg) (b : Nat)
    (hs : ∀ a ∈ io, 0 ≤ a.Size) (hb : (b : Int) + (io.map IOArg.Size).sum < 2 ^ 63) :
    splitLoop (m : Int) io (b : Int) = some (splitSpec (m : Int) b io) := by
  induction io generalizing b with
  | nil => rfl
  | cons a io ih =>
    have ha : 0 ≤ a.Size := hs a (by simp)
    have hio : ∀ x ∈ io, 0 ≤ x.Size := fun x hx => hs x (by simp [hx])
    have hsum : 0 ≤ (io.map IOArg.Size).sum :=
      List.sum_nonneg (by
        intro x hx
        simp only [List.mem_map] at hx
        obtain ⟨y, hy, rfl⟩ := hx
        exact hio y hy)
    simp only [List.map_cons, List.sum_cons] at hb
    unfold splitLoop
    rw [splitArg_spec m a.Size.toNat 0 b 0 (by omega) (by simp)]
    simp only
    rw [ih (b + a.Size.toNat) hio (by push_cast; omega)]
    simp only [splitSpec, Nat.zero_add, pow_zero, one_mul]
    congr 2
    push_cast
    rfl

theorem foldl_size_sum (io : List IOArg) (init : Int) (h0 : 0 ≤ init)
    (hs : ∀ a ∈ io, 0 ≤ a.Size) (hb : init + (io.map IOArg.Size).sum < 2 ^ 63) :
    io.foldl (fun sum a => wrapInt (sum + a.Size)) init = init + (io.map IOArg.Size).sum := by
  induction io generalizing init with
  | nil => simp
  | cons a io ih =>
    have ha : 0 ≤ a.Size := hs a (by simp)
    have hio : ∀ x ∈ io, 0 ≤ x.Size := fun x hx => hs x (by simp [hx])
    have hsum : 0 ≤ (io.map IOArg.Size).sum :=
      List.sum_nonneg (by
        intro x hx
        simp only [List.mem_map] at hx
        obtain ⟨y, hy, rfl⟩ := hx
        exact hio y hy)
    simp only [List.map_cons, List.sum_cons] at hb
    simp only [List.foldl_cons, List.map_cons, List.sum_cons]
    rw [wrapInt_id _ (by unfold IsInt64; omega), ih _ (by omega) hio (by omega)]
    ring

theorem splitSpec_length (inp : Int) (o : Nat) (io : List IOArg) :
    (splitSpec inp o io).length = io.length := by
  induction io generalizing o with
  | nil => rfl
  | cons a io ih => simp [splitSpec, ih]

theorem joinArgs_splitSpec (m : Nat) (o : Nat) (io : List IOArg) (hs : ∀ a ∈ io, 0 ≤ a.Size) :
    joinArgs o io (splitSpec (m : Int) o io) =
      ((m / 2 ^ o % 2 ^ ((io.map IOArg.Size).sum).toNat * 2 ^ o : Nat) : Int) := by
  induction io generalizing o with
  | nil => simp [joinArgs, splitSpec, Nat.mod_one]
  | cons a io ih =>
    have ha : 0 ≤ a.Size := hs a (by simp)
    have hio : ∀ x ∈ io, 0 ≤ x.Size := fun x hx => hs x (by simp [hx])
    have hsum : 0 ≤ (io.map IOArg.Size).sum :=
      List.sum_nonneg (by
        intro x hx
        simp only [List.mem_map] at hx
        obtain ⟨y, hy, rfl⟩ := hx
        exact hio y hy)
    simp only [joinArgs, splitSpec, List.map_cons, List.sum_cons]
    rw [ih (o + a.Size.toNat) hio]
    have e1 : (a.Size + (io.map IOArg.Size).sum).toNat =
        a.Size.toNat + ((io.map IOArg.Size).sum).toNat := by omega
    have e2 : m / 2 ^ (o + a.Size.toNat) = m / 2 ^ o / 2 ^ a.Size.toNat := by
      rw [Nat.pow_add, Nat.div_div_eq_div_mul]
    rw [e1, e2, Nat.pow_add 2 a.Size.toNat, Nat.mod_mul, Nat.pow_add 2 o]
    push_cast
    ring

theorem splitSpec_bounds (m : Nat) (o : Nat) (io : List IOArg) :
    List.Forall₂ (fun v (a : IOArg) => 0 ≤ v ∧ v < 2 ^ a.Size.toNat)
      (splitSpec (m : Int) o io) io := by
  induction io generalizing o with
  | nil => exact List.Forall₂.nil
  | cons a io ih =>
    refine List.Forall₂.cons ⟨?_, ?_⟩ (ih _)
    · exact Int.emod_nonneg _ (by positivity)
    · exact Int.emod_lt_of_pos _ (by positivity)

theorem splitArg_some (m : Nat) (n b : Nat) (hb : b + n < 2 ^ 63) :
    ∃ r, splitArg (m : Int) n 0 (b : Int) 0 = some (r, ((b + n : Nat) : Int)) :=
  ⟨_, splitArg_spec m n 0 b 0 hb (by simp)⟩

/-- C23 (amended): for every argument list with non-negative sizes whose sum is
below `2^63` and every non-negative `in`, `Split` returns one value per
argument, the `j`-th being the bits `[o_j, o_j + Size_j)` of `in`, where `o_j`
is the sum of the sizes of the arguments before it; each value is below
`2^Size_j`, `Size()` is the sum of the sizes, and the values, each shifted to
its offset, add up to `in mod 2^Size()`. -/
theorem split_spec (io : IOArgs) (inp : Int) (hs : ∀ a ∈ io, 0 ≤ a.Size) (hin : 0 ≤ inp)
    (hsum : (io.map IOArg.Size).sum < 2 ^ 63) :
    io.Split inp = some (splitSpec inp 0 io) ∧
    (splitSpec inp 0 io).length = io.length ∧
    List.Forall₂ (fun v (a : IOArg) => 0 ≤ v ∧ v < 2 ^ a.Size.toNat) (splitSpec inp 0 io) io ∧
    io.Size = (io.map IOArg.Size).sum ∧
    joinArgs 0 io (splitSpec inp 0 io) = inp % 2 ^ io.Size.toNat := by
  obtain ⟨m, rfl⟩ := Int.eq_ofNat_of_zero_le hin
  have hsize : io.Size = (io.map IOArg.Size).sum := by
    have := foldl_size_sum io 0 (Int.le_refl _) hs (by simpa using hsum)
    simpa [IOArgs.Size] using this
  refine ⟨?_, splitSpec_length _ _ _, splitSpec_bounds m 0 io, hsize, ?_⟩
  · have := splitLoop_spec m io 0 hs (by simpa using hsum)
    exact this
  · rw [joinArgs_splitSpec m 0 io hs, hsize]
    simp

theorem split_spec_witness :
    IOArgs.Split [{ Name := "a", Typ := "", Size := 3 }, { Name := "b", Typ := "", Size := 2 }] 27 =
      some [3, 3] ∧
    joinArgs 0 [{ Name := "a", Typ := "", Size := 3 }, { Name := "b", Typ := "", Size := 2 }]
      [3, 3] = 27 := by
  obtain ⟨h1, _, _, _, h2⟩ :=
    split_spec [{ Name := "a", Typ := "", Size := 3 }, { Name := "b", Typ := "", Size := 2 }] 27
      (by decide) (by decide) (by decide)
  exact ⟨h1.trans (by decide), Eq.trans (by decide) (h2.trans (by decide))⟩

/-- Two more rounds of the inner loop of `Split` at the bit index `2^63 - 1`:
the index wraps around and `in.Bit` panics. -/
theorem splitArg_wraps (inp : Int) (i r : Nat) (b : Int) (hb : b = 2 ^ 63 - 1) :
    splitArg inp 2 i b r = none := by
  have h1 : ¬ b < 0 := by omega
  have h2 : wrapInt (b + 1) < 0 := by
    unfold wrapInt
    omega
  rw [splitArg, if_neg h1, splitArg, if_pos h2]

/-- An argument of `n = 2^63 - 1` bits followed by one of 2 bits makes `Split`
panic. -/
theorem splitLoop_wraps (m : Nat) (a c : IOArg) (n : Nat) (ha : a.Size.toNat = n)
    (hn : n + 1 = 2 ^ 63) (hc : c.Size.toNat = 2) :
    splitLoop (m : Int) [a, c] 0 = none := by
  have h0 : splitArg (m : Int) n 0 ((0 : Nat) : Int) 0 =
      some (0 + 2 ^ 0 * (m / 2 ^ 0 % 2 ^ n), ((0 + n : Nat) : Int)) :=
    splitArg_spec m n 0 0 0 (by omega) (by simp)
  have h1 : splitArg (m : Int) 2 0 ((0 + n : Nat) : Int) 0 = none :=
    splitArg_wraps _ _ _ _ (by push_cast; omega)
  have e0 : ((0 : Nat) : Int) = 0 := rfl
  rw [e0] at h0
  rw [splitLoop, ha, h0]
  simp only
  rw [splitLoop, hc, h1]

/-- C23 (counterexample): the sizes `2^63 - 1` and `2` are non-negative, but
after `2^63` rounds the bit index of `Split`, an `int`, has wrapped around to
`-2^63`, and the next `in.Bit(bit)` panics: `Split` returns no values. -/
theorem split_bit_index_wraps :
    IOArgs.Split
        [{ Name := "", Typ := "", Size := 9223372036854775807 },
         { Name := "", Typ := "", Size := 2 }] 1 = none :=
  splitLoop_wraps 1 _ _ 9223372036854775807 rfl (by norm_num) rfl

/-! ## Gate lines with an unknown operation -/

theorem atoi_not_panic (s : List Char) : Atoi s ≠ .panic := by
  unfold Atoi
  split
  · simp
  · split
    · simp
    · split <;> split <;> simp

theorem parseOp_not_panic (f : List Char) : parseOp f ≠ .panic := by
  unfold parseOp
  split
  · simp
  · split
    · simp
    · split
      · simp
      · split <;> simp

theorem index_in_range (line : List (List Char)) (i : Int) (h0 : 0 ≤ i)
    (h1 : i < line.length) : ∃ f, index line i = .ok f := by
  unfold index
  rw [if_neg (by omega)]
  have hlt : i.toNat < line.length := by omega
  rw [List.get?_eq_getElem?, List.getElem?_eq_getElem hlt]
  exact ⟨_, rfl⟩

theorem readWires_not_panic (line : List (List Char)) (base : Int) (k : Nat) (i : Int)
    (h0 : 0 ≤ base + i) (h1 : base + i + k ≤ line.length) :
    readWires line base k i ≠ .panic := by
  induction k generalizing i with
  | zero => simp [readWires]
  | succ k ih =>
    obtain ⟨f, hf⟩ := index_in_range line (base + i) h0 (by push_cast at h1; omega)
    have hrec := ih (i + 1) (by omega) (by push_cast at h1 ⊢; omega)
    rw [readWires, hf, Outcome.bind_ok]
    cases ha : Atoi f with
    | panic => exact absurd ha (atoi_not_panic f)
    | err e => simp
    | ok v =>
      rw [Outcome.bind_ok]
      cases hr : readWires line base k (i + 1) with
      | panic => exact absurd hr hrec
      | err e => simp
      | ok rest => simp

/-- A gate line whose counts are not negative does not make the loop body of
`Parse` panic: every field it reads is inside the line. -/
theorem parseGate_not_panic (k : Int) (line : List (List Char))
    (h : countsNonNeg line = true) : parseGate k line ≠ .panic := by
  unfold parseGate
  split
  · simp
  · next hlen =>
    match line, hlen, h with
    | f0 :: f1 :: f2 :: rest, hlen, h =>
      have i0 : index (f0 :: f1 :: f2 :: rest) 0 = .ok f0 := by simp [index]
      have i1 : index (f0 :: f1 :: f2 :: rest) 1 = .ok f1 := by simp [index]
      rw [i0, Outcome.bind_ok]
      cases h1 : Atoi f0 with
      | panic => exact absurd h1 (atoi_not_panic f0)
      | err e => simp
      | ok n1 =>
        rw [Outcome.bind_ok, i1, Outcome.bind_ok]
        cases h2 : Atoi f1 with
        | panic => exact absurd h2 (atoi_not_panic f1)
        | err e => simp
        | ok n2 =>
          rw [Outcome.bind_ok]
          have hn : 0 ≤ n1 ∧ 0 ≤ n2 := by
            simpa [countsNonNeg, h1, h2] using h
          have b1 := atoi_ok_int64 _ _ h1
          have b2 := atoi_ok_int64 _ _ h2
          unfold IsInt64 at b1 b2
          split
          · simp
          · next hw =>
            have hw2 : wrapInt (2 + n1 + n2 + 1) = ((f0 :: f1 :: f2 :: rest).length : Int) := by
              simpa using hw
            have hsum : 2 + n1 + n2 + 1 = ((f0 :: f1 :: f2 :: rest).length : Int) := by
              unfold wrapInt at hw2
              omega
            cases hr1 : readWires (f0 :: f1 :: f2 :: rest) 2 n1.toNat 0 with
            | panic => exact absurd hr1 (readWires_not_panic _ _ _ _ (by omega) (by omega))
            | err e => simp
            | ok ins =>
              rw [Outcome.bind_ok]
              cases hr2 : readWires (f0 :: f1 :: f2 :: rest) (2 + n1) n2.toNat 0 with
              | panic => exact absurd hr2 (readWires_not_panic _ _ _ _ (by omega) (by omega))
              | err e => simp
              | ok outs =>
                rw [Outcome.bind_ok]
                obtain ⟨last, hlast⟩ := index_in_range (f0 :: f1 :: f2 :: rest)
                  (((f0 :: f1 :: f2 :: rest).length : Int) - 1) (by omega) (by omega)
                rw [hlast, Outcome.bind_ok]
                cases hop : parseOp last with
                | panic => exact absurd hop (parseOp_not_panic last)
                | err e => simp
                | ok op => simp
    | [], hlen, _ => simp at hlen
    | [_], hlen, _ => simp at hlen
    | [_, _], hlen, _ => simp at hlen

/-- The gate loop returns an error when it comes to a line that it does not
accept and no line up to that one makes it panic. -/
theorem parseGateList_err (n : Nat) (ls : List (List (List Char))) (i : Nat)
    (line : List (List Char)) (hl : ls.get? i = some line)
    (hno : ∀ g, parseGate ((n + i : Nat) : Int) line ≠ .ok g)
    (hp : ∀ j l, j ≤ i → ls.get? j = some l → parseGate ((n + j : Nat) : Int) l ≠ .panic) :
    ∃ e, parseGateList n ls = .err e := by
  induction ls generalizing n i with
  | nil => simp at hl
  | cons l ls ih =>
    have h0 := hp 0 l (Nat.zero_le _) rfl
    rw [Nat.add_zero] at h0
    rw [parseGateList]
    cases hg : parseGate (n : Int) l with
    | panic => exact absurd hg h0
    | err e => exact ⟨e, rfl⟩
    | ok g =>
      rw [Outcome.bind_ok]
      cases i with
      | zero =>
        simp only [List.get?_cons_zero, Option.some.injEq] at hl
        subst hl
        exact absurd hg (hno g)
      | succ i =>
        simp only [List.get?_cons_succ] at hl
        obtain ⟨e, he⟩ := ih (n + 1) i hl
          (by rw [show n + 1 + i = n + (i + 1) by omega]; exact hno)
          (fun j l2 hj hl2 => by
            rw [show n + 1 + j = n + (j + 1) by omega]
            exact hp (j + 1) l2 (by omega) (by simpa using hl2))
        exact ⟨e, by rw [he]; rfl⟩

theorem parseLines_cases_header (a0 a1 b0 b1 b2 : List Char) (gls : List (List (List Char))) :
    (∃ e, parseLines ([a0, a1] :: [b0, b1, b2] :: gls) = .err e) ∨
      ∃ f : List Gate → Circuit, parseLines ([a0, a1] :: [b0, b1, b2] :: gls) =
        (parseGateList 0 gls).bind fun gs => .ok (f gs) := by
  rw [parseLines_header]
  cases h1 : Atoi a0 with
  | panic => exact absurd h1 (atoi_not_panic a0)
  | err e => exact Or.inl ⟨e, rfl⟩
  | ok numGates =>
    cases h2 : Atoi a1 with
    | panic => exact absurd h2 (atoi_not_panic a1)
    | err e => exact Or.inl ⟨e, rfl⟩
    | ok numWires =>
      cases h3 : Atoi b0 with
      | panic => exact absurd h3 (atoi_not_panic b0)
      | err e => exact Or.inl ⟨e, rfl⟩
      | ok n1 =>
        cases h4 : Atoi b1 with
        | panic => exact absurd h4 (atoi_not_panic b1)
        | err e => exact Or.inl ⟨e, rfl⟩
        | ok n2 =>
          cases h5 : Atoi b2 with
          | panic => exact absurd h5 (atoi_not_panic b2)
          | err e => exact Or.inl ⟨e, rfl⟩
          | ok n3 =>
            exact Or.inr ⟨fun gs =>
              { NumGates := numGates, NumWires := numWires,
                N1 := [{ Name := "", Typ := "", Size := n1 }],
                N2 := [{ Name := "", Typ := "", Size := n2 }],
                N3 := [{ Name := "", Typ := "", Size := n3 }],
                Gates := gatesFrom 0 gs }, rfl⟩

theorem parseLines_cases_first (a0 a1 : List Char) (rest1 : List (List (List Char))) :
    (∃ e, parseLines ([a0, a1] :: rest1) = .err e) ∨
      ∃ f : List Gate → Circuit, parseLines ([a0, a1] :: rest1) =
        (parseGateList 0 (rest1.drop 1)).bind fun gs => .ok (f gs) := by
  cases h1 : Atoi a0 with
  | panic => exact absurd h1 (atoi_not_panic a0)
  | err e => exact Or.inl ⟨e, by simp [parseLines, index, h1]⟩
  | ok numGates =>
    cases h2 : Atoi a1 with
    | panic => exact absurd h2 (atoi_not_panic a1)
    | err e => exact Or.inl ⟨e, by simp [parseLines, index, h1, h2]⟩
    | ok numWires =>
      cases rest1 with
      | nil => exact Or.inl ⟨.eof, by simp [parseLines, index, h1, h2]⟩
      | cons line2 gls =>
        by_cases hl2 : line2.length = 3
        · match line2, hl2 with
          | [b0, b1, b2], _ => exact parseLines_cases_header a0 a1 b0 b1 b2 gls
        · exact Or.inl ⟨.invalid2ndLine, by simp [parseLines, index, h1, h2, hl2]⟩

/-- The header part of `Parse` returns an error or goes on to the gate
lines. -/
theorem parseLines_cases (ls : List (List (List Char))) :
    (∃ e, parseLines ls = .err e) ∨
      ∃ f : List Gate → Circuit,
        parseLines ls = (parseGateList 0 (ls.drop 2)).bind fun gs => .ok (f gs) := by
  cases ls with
  | nil => exact Or.inl ⟨_, rfl⟩
  | cons line1 rest1 =>
    by_cases hl1 : line1.length = 2
    · match line1, hl1 with
      | [a0, a1], _ => exact parseLines_cases_first a0 a1 rest1
    · exact Or.inl ⟨.invalid1stLine, by simp [parseLines, hl1]⟩

/-- C5 (amended): a newline-terminated gate line whose last field is not one of
`XOR`, `AND`, `OR`, `INV` makes `Parse` return no circuit; it makes `Parse`
return an error when no gate line up to and including that one has a negative
count.  In every circuit that `Parse` returns the gate of the `i`-th gate line
has the operation named by the last field of that line. -/
theorem parse_gate_line_op (t : List Char) (i : Nat) (line : List (List Char))
    (hl : (gateLines t).get? i = some line) :
    ((∀ name ∈ opNames, line.getLast? ≠ some name) →
      (Parse t).isOk = false ∧
      ((∀ j l, j ≤ i → (gateLines t).get? j = some l → countsNonNeg l = true) →
        ∃ e, Parse t = .err e)) ∧
    (∀ c, Parse t = .ok c → ∃ g, c.Gates.lookup (i : Int) = some g ∧
      line.getLast? = some g.Op.String ∧ g.Op ∈ [XOR, AND, OR, INV]) := by
  have key : ∀ c, Parse t = .ok c → ∃ g, c.Gates.lookup (i : Int) = some g ∧
      line.getLast? = some g.Op.String ∧ g.Op ∈ [XOR, AND, OR, INV] ∧
      g.Op.String ∈ opNames := by
    intro c hc
    obtain ⟨gs, hgs, hg⟩ := parse_ok_lines t c hc
    obtain ⟨_, hall⟩ := parseGateList_get 0 _ gs hgs
    obtain ⟨g, hgi, hp⟩ := hall i line hl
    obtain ⟨_, _, f0, f1, last, n1, n2, _, _, hlast, _, _, _, _, _, hop⟩ :=
      parseGate_ok _ _ _ hp
    obtain ⟨e, hle, hmem⟩ := parseOp_ok _ _ hop
    refine ⟨g, ?_, ?_, ?_, ?_⟩
    · rw [hg]
      have := gatesFrom_lookup 0 gs i
      simpa using this.trans hgi
    · rw [hlast, e]
    · have aux : ∀ n : Nat, n ≤ 3 → n = 0 ∨ n = 1 ∨ n = 2 ∨ n = 3 := by omega
      simpa [XOR, AND, OR, INV] using aux g.Op hle
    · rw [← e]; exact hmem
  refine ⟨?_, ?_⟩
  · intro hno
    constructor
    · cases hp : Parse t with
      | ok c =>
        obtain ⟨g, _, h2, _, h4⟩ := key c hp
        exact absurd h2 (hno _ h4)
      | err e => rfl
      | panic => rfl
    · intro hcounts
      have hbad : ∀ g, parseGate ((0 + i : Nat) : Int) line ≠ .ok g := by
        intro g hg
        obtain ⟨_, _, f0, f1, last, n1, n2, _, _, hlast, _, _, _, _, _, hop⟩ :=
          parseGate_ok _ _ _ hg
        obtain ⟨e, _, hmem⟩ := parseOp_ok _ _ hop
        exact hno last hmem hlast
      obtain ⟨e, he⟩ := parseGateList_err 0 (gateLines t) i line hl hbad
        (fun j l hj hjl => parseGate_not_panic _ l (hcounts j l hj hjl))
      rw [Parse_eq]
      rcases parseLines_cases (textLines t) with h | ⟨f, h⟩
      · exact h
      · refine ⟨e, ?_⟩
        unfold gateLines at he
        rw [h, he]
        rfl
  · intro c hc
    obtain ⟨g, h1, h2, h3, _⟩ := key c hc
    exact ⟨g, h1, h2, h3⟩

theorem parse_gate_line_op_witness :
    (Parse "1 3\n1 1 1\n2 1 0 1 2 FOO\n".toList).isOk = false ∧
    (∃ e, Parse "1 3\n1 1 1\n2 1 0 1 2 FOO\n".toList = .err e) ∧
    ∃ g, GateMap.lookup [(0, { ID := 0, Inputs := [0, 1], Outputs := [2], Op := AND })]
        ((0 : Nat) : Int) = some g ∧
      ["2".toList, "1".toList, "0".toList, "1".toList, "2".toList,
        "AND".toList].getLast? = some g.Op.String ∧ g.Op ∈ [XOR, AND, OR, INV] :=
  have h := parse_gate_line_op "1 3\n1 1 1\n2 1 0 1 2 FOO\n".toList 0
    ["2".toList, "1".toList, "0".toList, "1".toList, "2".toList, "FOO".toList] (by decide)
  ⟨(h.1 (by decide)).1,
    (h.1 (by decide)).2 (fun j l hj hjl => by
      have hj0 : j = 0 := Nat.le_zero.mp hj
      subst hj0
      have e : (gateLines "1 3\n1 1 1\n2 1 0 1 2 FOO\n".toList).get? 0 =
          some ["2".toList, "1".toList, "0".toList, "1".toList, "2".toList, "FOO".toList] := by
        decide
      rw [e] at hjl
      injection hjl with hjl
      subst hjl
      decide),
    (parse_gate_line_op "1 3\n1 1 1\n2 1 0 1 2 AND\n".toList 0
      ["2".toList, "1".toList, "0".toList, "1".toList, "2".toList, "AND".toList]
      (by decide)).2
      { NumGates := 1, NumWires := 3,
        N1 := [{ Name := "", Typ := "", Size := 1 }],
        N2 := [{ Name := "", Typ := "", Size := 1 }],
        N3 := [{ Name := "", Typ := "", Size := 1 }],
        Gates := [(0, { ID := 0, Inputs := [0, 1], Outputs := [2], Op := AND })] }
      (by decide)⟩

/-- C5 (counterexample): a gate line whose last field is `FOO` does not always
make `Parse` fail with an error.  The line `-3 3 FOO` passes the arity check
and the output loop reads `line[-1]`: a run-time panic, before the last field
is looked at.  And the line `2 1 0 1 2 FOO` without its newline is dropped:
`Parse` returns a circuit without gates and a nil error. -/
theorem parse_bad_op_not_error :
    Parse "1 1\n0 0 0\n-3 3 FOO\n".toList = .panic ∧
    (Parse "1 1\n0 0 0\n-3 3 FOO\n".toList).isErr = false ∧
    Parse "1 3\n1 1 1\n2 1 0 1 2 FOO".toList =
      .ok { NumGates := 1, NumWires := 3,
            N1 := [{ Name := "", Typ := "", Size := 1 }],
            N2 := [{ Name := "", Typ := "", Size := 1 }],
            N3 := [{ Name := "", Typ := "", Size := 1 }],
            Gates := [] } := by
  decide

/-! ## Oblivious transfer -/

namespace OT

theorem decode_append (bs : List Nat) (b : Nat) : decode (bs ++ [b]) = decode bs * 256 + b := by
  simp [decode, List.foldl_append]

theorem decode_encode (k n : Nat) (h : n < 256 ^ k) : decode (encode k n) = n := by
  induction k generalizing n with
  | zero =>
    simp at h
    subst h
    rfl
  | succ k ih =>
    rw [encode, decode_append, ih (n / 256) (by
      rw [Nat.div_lt_iff_lt_mul (by norm_num)]
      rw [pow_succ] at h
      exact h)]
    omega

theorem encode_length (k n : Nat) : (encode k n).length = k := by
  induction k generalizing n with
  | zero => rfl
  | succ k ih => simp [encode, ih]

theorem xorBytes_cancel (m mask : List Nat) (h : m.length ≤ mask.length) :
    xorBytes (xorBytes m mask) mask = m := by
  induction m generalizing mask with
  | nil => simp [xorBytes]
  | cons a as ih =>
    cases mask with
    | nil => simp at h
    | cons b bs =>
      simp only [xorBytes, List.zipWith_cons_cons, List.cons.injEq]
      refine ⟨?_, ih bs (by simpa using h)⟩
      show (a ^^^ b) ^^^ b = a
      rw [Nat.xor_assoc, Nat.xor_self, Nat.xor_zero]

theorem subMod_add (x a N : Nat) (hx : x < N) (ha : a < N) : subMod ((x + a) % N) x N = a := by
  unfold subMod
  by_cases h : x + a < N
  · rw [Nat.mod_eq_of_lt h]
    simp
  · have e : (x + a) % N = x + a - N := by
      rw [Nat.mod_eq_sub_mod (by omega), Nat.mod_eq_of_lt (by omega)]
    rw [e]
    split <;> omega

theorem pow_mod_prime (p a t : Nat) (hp : p.Prime) :
    a ^ (1 + t * (p - 1)) ≡ a [MOD p] := by
  haveI := Fact.mk hp
  rw [← ZMod.eq_iff_modEq_nat]
  push_cast
  by_cases h0 : (a : ZMod p) = 0
  · rw [h0]
    simp
  · rw [pow_add, pow_one, mul_comm t, pow_mul, ZMod.pow_card_sub_one_eq_one h0]
    simp

theorem rsa_inverse (p q e d a : Nat) (hp : p.Prime) (hq : q.Prime) (hne : p ≠ q)
    (hed : e * d % ((p - 1) * (q - 1)) = 1) (ha : a < p * q) :
    (a ^ e % (p * q)) ^ d % (p * q) = a := by
  have hed2 : e * d = 1 + (e * d / ((p - 1) * (q - 1))) * ((p - 1) * (q - 1)) := by
    have := Nat.div_add_mod (e * d) ((p - 1) * (q - 1))
    rw [hed] at this
    rw [mul_comm] at this
    omega
  have h1 : a ^ (e * d) ≡ a [MOD p] := by
    rw [hed2, ← mul_assoc, mul_right_comm]
    exact pow_mod_prime p a _ hp
  have h2 : a ^ (e * d) ≡ a [MOD q] := by
    rw [hed2, ← mul_assoc]
    exact pow_mod_prime q a _ hq
  have hc : Nat.Coprime p q := (Nat.coprime_primes hp hq).mpr hne
  have h3 : a ^ (e * d) ≡ a [MOD p * q] :=
    (Nat.modEq_and_modEq_iff_modEq_mul hc).mp ⟨h1, h2⟩
  rw [← Nat.pow_mod, ← pow_mul]
  unfold Nat.ModEq at h3
  rw [h3, Nat.mod_eq_of_lt ha]

/-- C3: with a valid RSA key, random messages and blinding scalar below `N`,
and payloads of equal length of at most `k` bytes, one complete transfer gives
the receiver exactly the message `m_c` of its choice bit `c`, and the bit it
reports is `c`. -/
theorem transfer_correct (s : Sender) (p q : Nat) (hkey : s.ValidKey p q)
    (x0 x1 kr : Nat) (hx0 : x0 < s.N) (hx1 : x1 < s.N) (hkr : kr < s.N)
    (m0 m1 : List Nat) (hlen : m0.length = m1.length) (hk : m0.length ≤ s.k) (c : Bool) :
    transfer s x0 x1 kr m0 m1 c = .ok (if c then m1 else m0, c) := by
  obtain ⟨hp, hq, hne, hN, hed, hNk⟩ := hkey
  have hN0 : 0 < s.N := by omega
  have d0 : decode (encode s.k x0) = x0 := decode_encode _ _ (by omega)
  have d1 : decode (encode s.k x1) = x1 := decode_encode _ _ (by omega)
  have hinv : (kr ^ s.e % s.N) ^ s.d % s.N = kr := by
    rw [hN]
    exact rsa_inverse p q s.e s.d kr hp hq hne hed (by rw [← hN]; exact hkr)
  have hsub : ∀ x, x < s.N → (subMod ((x + kr ^ s.e) % s.N) x s.N) ^ s.d % s.N = kr := by
    intro x hx
    rw [Nat.add_mod, Nat.mod_eq_of_lt hx, subMod_add x _ s.N hx (Nat.mod_lt _ hN0), hinv]
  have hH : ∀ m : List Nat, m.length ≤ s.k →
      xorBytes (xorBytes m (H s.k kr m.length)) (H s.k kr (xorBytes m (H s.k kr m.length)).length)
        = m := by
    intro m hm
    have hl : (H s.k kr m.length).length = m.length := by
      simp [H, encode_length, hm]
    have hl2 : (xorBytes m (H s.k kr m.length)).length = m.length := by
      simp [xorBytes, hl]
    rw [hl2]
    exact xorBytes_cancel m _ (by omega)
  unfold transfer
  simp only [Sender.NewTransfer, hlen, if_true, SenderTransfer.RandomMessages,
    ReceiverTransfer.ReceiveRandomMessages, Receiver.NewTransfer, Sender.NewReceiver,
    ReceiverTransfer.V, d0, d1, SenderTransfer.ReceiveV, SenderTransfer.Messages,
    ReceiverTransfer.ReceiveMessages, ReceiverTransfer.Message]
  cases c with
  | true =>
    simp only [if_true]
    rw [decode_encode _ _ (lt_of_lt_of_le (Nat.mod_lt _ hN0) hNk), hsub x1 hx1,
      hH m1 (by omega)]
  | false =>
    simp only [Bool.false_eq_true, if_false]
    rw [decode_encode _ _ (lt_of_lt_of_le (Nat.mod_lt _ hN0) hNk), hsub x0 hx0,
      ← hlen, hH m0 hk]

theorem transfer_correct_witness :
    transfer { N := 33, e := 3, d := 7, k := 1 } 5 7 4 [0] [255] true = .ok ([255], true) :=
  transfer_correct { N := 33, e := 3, d := 7, k := 1 } 3 11
    (by unfold Sender.ValidKey; norm_num) 5 7 4 (by decide) (by decide) (by decide)
    [0] [255] rfl (by decide) true

end OT

/-! ## The circuit compiler -/

namespace Circuits

theorem size_append (io : IOArgs) (a : IOArg) :
    IOArgs.Size (io ++ [a]) = wrapInt (io.Size + a.Size) := by
  simp [IOArgs.Size, List.foldl_append]

theorem newInputs_spec (n : Nat) (ws : List Nat) (h : Heap) :
    newInputs n ws h =
      (ws ++ List.range' h.length n,
        h ++ List.replicate n { Output := false, Assigned := false, ID := 0 }) := by
  induction n generalizing ws h with
  | zero => simp [newInputs]
  | succ n ih =>
    rw [newInputs, ih]
    simp [NewWire, List.range'_succ, List.replicate_succ]

theorem newOutputs_spec (n : Nat) (ws : List Nat) (h : Heap) :
    newOutputs n ws h =
      (ws ++ List.range' h.length n,
        h ++ List.replicate n { Output := true, Assigned := false, ID := 0 }) := by
  induction n generalizing ws h with
  | zero => simp [newOutputs]
  | succ n ih =>
    rw [newOutputs, ih]
    simp [NewOutputWire, List.range'_succ, List.replicate_succ]

/-- The compiler and the heap that `NewCompiler` returns. -/
theorem newCompiler_spec (n1 n2 n3 : IOArgs) (h : Heap) :
    NewCompiler n1 n2 n3 h =
      ({ N1 := n1, N2 := n2, N3 := n3,
         Inputs := List.range' h.length (wrapInt (n1.Size + n2.Size)).toNat,
         Outputs := List.range' (h.length + (wrapInt (n1.Size + n2.Size)).toNat) n3.Size.toNat,
         Gates := [], zeroWire := none },
        h ++ List.replicate (wrapInt (n1.Size + n2.Size)).toNat
            { Output := false, Assigned := false, ID := 0 } ++
          List.replicate n3.Size.toNat { Output := true, Assigned := false, ID := 0 }) := by
  simp [NewCompiler, newInputs_spec, newOutputs_spec]

/-- The result of `ZeroWire` on a compiler that has no zero wire yet and whose
`N1.Size()` is a valid index of `Inputs`. -/
theorem zeroWire_none (c : Compiler) (h : Heap) (hz : c.zeroWire = none)
    (hlo : 0 ≤ c.N1.Size) (hhi : c.N1.Size ≤ c.Inputs.length) :
    ZeroWire c h = some (h.length,
      { c with
        zeroWire := some h.length
        Inputs := c.Inputs.take c.N1.Size.toNat ++ [h.length] ++ c.Inputs.drop c.N1.Size.toNat
        N1 := c.N1 ++ [{ Name := "0", Typ := "", Size := 1 }] },
      h ++ [{ Output := false, Assigned := false, ID := 0 }]) := by
  simp [ZeroWire, hz, NewWire, hlo, hhi]

/-- Once the zero wire exists `ZeroWire` returns it and changes nothing. -/
theorem zeroWire_some (c : Compiler) (h : Heap) (z : Nat) (hz : c.zeroWire = some z) :
    ZeroWire c h = some (z, c, h) := by
  simp [ZeroWire, hz]

theorem zeroWireCalls_some (k : Nat) (c : Compiler) (h : Heap) (z : Nat)
    (hz : c.zeroWire = some z) : zeroWireCalls k c h = some (c, h) := by
  induction k with
  | zero => rfl
  | succ k ih => rw [zeroWireCalls, zeroWire_some c h z hz]; exact ih

theorem erase_insert (xs : List Nat) (n z : Nat) (hz : z ∉ xs) :
    (xs.take n ++ [z] ++ xs.drop n).erase z = xs := by
  have h1 : z ∉ xs.take n := fun hm => hz (List.mem_of_mem_take hm)
  rw [List.append_assoc, List.erase_append_right _ h1]
  simp

/-- C16 (amended): the first call of `ZeroWire` on a compiler whose `N1.Size()`
is a valid index of `Inputs` allocates a new wire, returns it, makes `N1.Size()`
grow by one by appending the argument `0` of size 1 to `N1`, leaves `N2`, `N3`
and `Outputs` unchanged, and puts the new wire at position `N1.Size()` of
`Inputs` (the old size: after the party-1 wires, before the party-2 wires);
removing it gives back the previous `Inputs`. -/
theorem zeroWire_first (c : Compiler) (h : Heap) (hz : c.zeroWire = none)
    (hlo : 0 ≤ c.N1.Size) (hhi : c.N1.Size ≤ c.Inputs.length)
    (hlen : (c.Inputs.length : Int) + 1 < 2 ^ 63)
    (hheap : ∀ w ∈ c.Inputs, w < h.length) :
    ∃ c1 h1, ZeroWire c h = some (h.length, c1, h1) ∧
      h1 = h ++ [{ Output := false, Assigned := false, ID := 0 }] ∧
      h.length ∉ c.Inputs ∧
      c1.zeroWire = some h.length ∧
      c1.N1 = c.N1 ++ [{ Name := "0", Typ := "", Size := 1 }] ∧
      c1.N1.Size = c.N1.Size + 1 ∧ c1.N2 = c.N2 ∧ c1.N3 = c.N3 ∧
      c1.Outputs = c.Outputs ∧
      c1.Inputs = c.Inputs.take c.N1.Size.toNat ++ h.length :: c.Inputs.drop c.N1.Size.toNat ∧
      c1.Inputs[c.N1.Size.toNat]? = some h.length ∧
      c1.Inputs.erase h.length = c.Inputs := by
  have hfresh : h.length ∉ c.Inputs := fun hm => Nat.lt_irrefl _ (hheap _ hm)
  have hk : c.N1.Size.toNat ≤ c.Inputs.length := by omega
  refine ⟨_, _, zeroWire_none c h hz hlo hhi, rfl, hfresh, rfl, rfl, ?_, rfl, rfl, rfl, ?_, ?_, ?_⟩
  · rw [size_append]
    apply wrapInt_id
    unfold IsInt64
    constructor <;> simp only <;> omega
  · simp
  · simp only [List.append_assoc, List.singleton_append]
    rw [List.getElem?_append_right (by simp [List.length_take, hk])]
    simp [List.length_take, hk]
  · exact erase_insert _ _ _ hfresh

theorem zeroWire_first_witness :
    ∃ c1 h1, ZeroWire (NewCompiler ( NewIO 2) ( NewIO 1) ( NewIO 1) []).1
        (NewCompiler ( NewIO 2) ( NewIO 1) ( NewIO 1) []).2 = some (4, c1, h1) ∧
      c1.N1.Size = 3 ∧ c1.Inputs = [0, 1, 4, 2] := by
  obtain ⟨c1, h1, e, _, _, _, _, e1, _, _, _, e2, _, _⟩ :=
    zeroWire_first (NewCompiler ( NewIO 2) ( NewIO 1) ( NewIO 1) []).1
      (NewCompiler ( NewIO 2) ( NewIO 1) ( NewIO 1) []).2 (by decide) (by decide) (by decide)
      (by decide) (by decide)
  exact ⟨c1, h1, e, e1, e2⟩

/-- C16 (counterexample): on the compiler made for two party-1 bits, one
party-2 bit and one output bit, `ZeroWire` returns the new wire `4` and
`Inputs` becomes `[0, 1, 4, 2]`: position 0 still holds party 1's first wire
and the zero wire is at position 2. -/
theorem zeroWire_not_at_start :
    (ZeroWire (NewCompiler ( NewIO 2) ( NewIO 1) ( NewIO 1) []).1
        (NewCompiler ( NewIO 2) ( NewIO 1) ( NewIO 1) []).2).map
      (fun r => (r.1, r.2.1.Inputs, r.2.1.Inputs[0]?)) = some (4, [0, 1, 4, 2], some 0) := by
  decide

/-- C17 (amended): for argument lists of non-negative sizes whose sum, with one
more bit for the zero wire, stays below `2^63`, every run of `ZeroWire` calls
on the compiler made by `NewCompiler` returns, and afterwards `len(Inputs)` is
`N1.Size() + N2.Size()`, `len(Outputs)` is `N3.Size()`, `N2` and `N3` are the
ones given, the first `N1.Size()` entries of `Inputs` are party 1's original
wires followed by the zero wire if there is one, and the remaining `N2.Size()`
entries are the original party-2 wires in their original order. -/
theorem compiler_io_invariant (n1 n2 n3 : IOArgs) (h : Heap) (k : Nat)
    (h1 : 0 ≤ n1.Size) (h2 : 0 ≤ n2.Size) (h3 : 0 ≤ n3.Size)
    (hsum : n1.Size + n2.Size + 1 < 2 ^ 63) :
    ∃ c hp, zeroWireCalls k (NewCompiler n1 n2 n3 h).1 (NewCompiler n1 n2 n3 h).2 = some (c, hp) ∧
      (c.Inputs.length : Int) = c.N1.Size + c.N2.Size ∧
      (c.Outputs.length : Int) = c.N3.Size ∧
      c.N2 = n2 ∧ c.N3 = n3 ∧
      (c.zeroWire = none ↔ k = 0) ∧
      (∀ z, c.zeroWire = some z → z ∉ (NewCompiler n1 n2 n3 h).1.Inputs) ∧
      c.Inputs.take c.N1.Size.toNat =
        (NewCompiler n1 n2 n3 h).1.Inputs.take n1.Size.toNat ++ c.zeroWire.toList ∧
      c.Inputs.drop c.N1.Size.toNat = (NewCompiler n1 n2 n3 h).1.Inputs.drop n1.Size.toNat ∧
      (((NewCompiler n1 n2 n3 h).1.Inputs.drop n1.Size.toNat).length : Int) = n2.Size := by
  have hw : wrapInt (n1.Size + n2.Size) = n1.Size + n2.Size := by
    apply wrapInt_id
    unfold IsInt64
    omega
  rw [newCompiler_spec, hw]
  have hlen2 : (((List.range' h.length (n1.Size + n2.Size).toNat).drop n1.Size.toNat).length : Int)
      = n2.Size := by
    simp only [List.length_drop, List.length_range']
    omega
  cases k with
  | zero =>
    refine ⟨_, _, rfl, ?_, ?_, rfl, rfl, by simp, by simp, by simp, rfl, hlen2⟩
    · simp only [List.length_range']
      omega
    · simp only [List.length_range']
      omega
  | succ k =>
    rw [zeroWireCalls, zeroWire_none _ _ rfl h1 (by simp only [List.length_range']; omega)]
    simp only
    rw [zeroWireCalls_some k _ _ _ rfl]
    have hs : IOArgs.Size (n1 ++ [{ Name := "0", Typ := "", Size := 1 }]) = n1.Size + 1 := by
      rw [size_append]
      apply wrapInt_id
      unfold IsInt64
      simp only
      omega
    have hk : n1.Size.toNat ≤ (List.range' h.length (n1.Size + n2.Size).toNat).length := by
      simp only [List.length_range']
      omega
    have ht : (n1.Size + 1).toNat = n1.Size.toNat + 1 := by omega
    refine ⟨_, _, rfl, ?_, ?_, rfl, rfl, by simp, ?_, ?_, ?_, hlen2⟩
    · simp only [hs, List.length_append, List.length_take, List.length_drop, List.length_range',
        List.length_singleton]
      omega
    · simp only [List.length_range']
      omega
    · intro z hz
      simp only [Option.some.injEq] at hz
      subst hz
      simp only [List.mem_range'_1, List.length_append, List.length_replicate]
      omega
    · have hl : (List.take n1.Size.toNat
          (List.range' h.length (n1.Size + n2.Size).toNat) ++ [h.length +
            (n1.Size + n2.Size).toNat + n3.Size.toNat]).length = n1.Size.toNat + 1 := by
        simp only [List.length_append, List.length_take, List.length_range',
          List.length_singleton]
        omega
      simp only [hs, ht, Option.toList, List.length_append, List.length_replicate]
      rw [← hl, List.take_left]
    · have hl : (List.take n1.Size.toNat
          (List.range' h.length (n1.Size + n2.Size).toNat) ++ [h.length +
            (n1.Size + n2.Size).toNat + n3.Size.toNat]).length = n1.Size.toNat + 1 := by
        simp only [List.length_append, List.length_take, List.length_range',
          List.length_singleton]
        omega
      simp only [hs, ht, List.length_append, List.length_replicate]
      rw [← hl, List.drop_left]

theorem compiler_io_invariant_witness :
    ∃ c hp, zeroWireCalls 2 (NewCompiler ( NewIO 2) ( NewIO 1) ( NewIO 1) []).1
        (NewCompiler ( NewIO 2) ( NewIO 1) ( NewIO 1) []).2 = some (c, hp) ∧
      (c.Inputs.length : Int) = c.N1.Size + c.N2.Size ∧
      (c.Outputs.length : Int) = c.N3.Size := by
  obtain ⟨c, hp, e, e1, e2, _⟩ :=
    compiler_io_invariant ( NewIO 2) ( NewIO 1) ( NewIO 1) [] 2 (by decide) (by decide) (by decide)
      (by decide)
  exact ⟨c, hp, e, e1, e2⟩

/-- C17 (counterexample): two party inputs of `2^62` bits each have
non-negative sizes, but their `int` sum wraps to `-2^63`: `NewCompiler` makes
no input wire at all, so `len(Inputs)` is `0` and not `N1.Size() + N2.Size()`,
and a call of `ZeroWire` on this compiler panics. -/
theorem newCompiler_size_overflow :
    0 ≤ ( NewIO (2 ^ 62)).Size ∧ 0 ≤ ( NewIO 0).Size ∧
    (NewCompiler ( NewIO (2 ^ 62)) ( NewIO (2 ^ 62)) ( NewIO 0) []).1.Inputs = [] ∧
    (NewCompiler ( NewIO (2 ^ 62)) ( NewIO (2 ^ 62)) ( NewIO 0) []).1.N1.Size = 2 ^ 62 ∧
    (NewCompiler ( NewIO (2 ^ 62)) ( NewIO (2 ^ 62)) ( NewIO 0) []).1.N2.Size = 2 ^ 62 ∧
    wrapInt ((NewCompiler ( NewIO (2 ^ 62)) ( NewIO (2 ^ 62)) ( NewIO 0) []).1.N1.Size +
      (NewCompiler ( NewIO (2 ^ 62)) ( NewIO (2 ^ 62)) ( NewIO 0) []).1.N2.Size) = -2 ^ 63 ∧
    ZeroWire (NewCompiler ( NewIO (2 ^ 62)) ( NewIO (2 ^ 62)) ( NewIO 0) []).1
      (NewCompiler ( NewIO (2 ^ 62)) ( NewIO (2 ^ 62)) ( NewIO 0) []).2 = none := by
  decide

end Circuits

/-! ## Peer sessions -/

namespace P2P

theorem call_trace (e : Event) (w : World) : (call e w).2.trace = w.trace ++ [e] := by
  unfold call
  split <;> rfl

theorem grows_pure {α : Type} (r : Res α) : Grows (fun w => (r, w)) :=
  fun _ => List.prefix_refl _

theorem grows_step {α : Type} (e : Event) (k : Reply → M α) (hk : ∀ r, Grows (k r)) :
    Grows (step e k) := by
  intro w
  have h1 : w.trace <+: (call e w).2.trace := by
    rw [call_trace]
    exact List.prefix_append _ _
  unfold step
  split
  · exact h1
  · exact h1.trans (hk _ _)

theorem grows_ask {α : Type} (e : Event) (k : Reply → M α) (hk : ∀ r, Grows (k r)) :
    Grows (ask e k) := by
  intro w
  have h1 : w.trace <+: (call e w).2.trace := by
    rw [call_trace]
    exact List.prefix_append _ _
  exact h1.trans (hk _ _)

theorem grows_tell {α : Type} (e : Event) (k : M α) (hk : Grows k) : Grows (tell e k) := by
  intro w
  have h1 : w.trace <+: (emit e w).trace := List.prefix_append _ _
  exact h1.trans (hk _)

theorem grows_bind {α β : Type} (m : M α) (f : α → M β) (hm : Grows m) (hf : ∀ a, Grows (f a)) :
    Grows (m.bind f) := by
  intro w
  unfold M.bind
  split
  · exact (hm w).trans (hf _ _)
  · exact hm w
  · exact hm w

theorem grows_otLambdaQueryLoop (peer : Peer) (choices : Int) (n i result : Nat) :
    Grows (otLambdaQueryLoop peer choices n i result) := by
  induction n generalizing i result with
  | zero => exact grows_pure _
  | succ n ih =>
    unfold otLambdaQueryLoop
    apply grows_step
    intro r
    split
    · exact grows_pure _
    · split
      · exact ih _ _
      · exact ih _ _

theorem grows_OTLambdaQuery (peer : Peer) (count choices : Int) :
    Grows (OTLambdaQuery peer count choices) :=
  grows_step _ _ fun _ => grows_step _ _ fun _ => grows_otLambdaQueryLoop _ _ _ _ _

theorem grows_serveTransfer (peer : Peer) (m0 m1 : List Nat) :
    Grows (serveTransfer peer m0 m1) :=
  grows_step _ _ fun _ => grows_ask _ _ fun _ => grows_step _ _ fun _ => grows_step _ _ fun _ =>
    grows_step _ _ fun _ => grows_step _ _ fun _ => grows_tell _ _ <| grows_step _ _ fun _ =>
    grows_step _ _ fun _ => grows_step _ _ fun _ => grows_step _ _ fun _ => grows_pure _

theorem grows_otLambdaRespondLoop (peer : Peer) (x1 x2 : Int) (n : Nat) :
    Grows (otLambdaRespondLoop peer x1 x2 n) := by
  induction n with
  | zero => exact grows_pure _
  | succ n ih =>
    unfold otLambdaRespondLoop
    exact grows_step _ _ fun _ => grows_bind _ _ (grows_serveTransfer _ _ _) fun _ => ih

theorem grows_OTLambdaRespond (peer : Peer) (count x1 x2 : Int) :
    Grows (OTLambdaRespond peer count x1 x2) := by
  unfold OTLambdaRespond
  apply grows_step
  intro r
  split
  · exact grows_pure _
  · exact grows_otLambdaRespondLoop _ _ _ _

theorem grows_otrQueryLoop (peer : Peer) (choices : Int) (n i : Nat) (result : List Label) :
    Grows (otrQueryLoop peer choices n i result) := by
  induction n generalizing i result with
  | zero => exact grows_pure _
  | succ n ih =>
    unfold otrQueryLoop
    exact grows_step _ _ fun _ => ih _ _

theorem grows_OTRQuery (peer : Peer) (count choices : Int) :
    Grows (OTRQuery peer count choices) := by
  unfold OTRQuery
  apply grows_step
  intro _
  apply grows_step
  intro _
  split
  · exact grows_pure _
  · exact grows_otrQueryLoop _ _ _ _ _

theorem grows_OTRQueries (peer : Peer) (count chA chB chC : Int) :
    Grows (OTRQueries peer count chA chB chC) :=
  grows_bind _ _ (grows_OTRQuery _ _ _) fun _ => grows_bind _ _ (grows_OTRQuery _ _ _) fun _ =>
    grows_bind _ _ (grows_OTRQuery _ _ _) fun _ => grows_pure _

theorem grows_otrRespondLoop (peer : Peer) (x1 x2 : List Label) (n : Nat) :
    Grows (otrRespondLoop peer x1 x2 n) := by
  induction n with
  | zero => exact grows_pure _
  | succ n ih =>
    unfold otrRespondLoop
    apply grows_step
    intro r
    split
    · exact grows_bind _ _ (grows_serveTransfer _ _ _) fun _ => ih
    · exact grows_pure _

theorem grows_OTRRespond (peer : Peer) (x1 x2 : List Label) :
    Grows (OTRRespond peer x1 x2) := by
  unfold OTRRespond
  apply grows_step
  intro r
  split
  · exact grows_pure _
  · exact grows_otrRespondLoop _ _ _ _

theorem grows_OTRResponses (peer : Peer) (x1Ag x2Ag x1Bg x2Bg x1Cg x2Cg : List Label) :
    Grows (OTRResponses peer x1Ag x2Ag x1Bg x2Bg x1Cg x2Cg) :=
  grows_bind _ _ (grows_OTRRespond _ _ _) fun _ => grows_bind _ _ (grows_OTRRespond _ _ _) fun _ =>
    grows_OTRRespond _ _ _

/-- A body written as in `OTLambda` and `OTR`: after the first phase returns a
nil error the second phase runs, and its result decides the result. -/
theorem runsInOrder_of {α β γ : Type} (first : M α) (second : M β) (whole : M γ) (w : World)
    (g1 : Grows first) (g2 : Grows second) (pick : α → β → γ)
    (hw : whole w =
      match (first w).1 with
      | .err e => (.err e, (first w).2)
      | .panic => (.panic, (first w).2)
      | .ok a =>
        match (second (first w).2).1 with
        | .err e => (.err e, (second (first w).2).2)
        | .panic => (.panic, (second (first w).2).2)
        | .ok b => (.ok (pick a b), (second (first w).2).2)) :
    RunsInOrder first second whole w := by
  refine ⟨g1 w, ?_, ?_, ?_⟩
  · intro e he
    rw [hw, he]
  · intro he
    rw [hw, he]
  · intro a ha
    rw [hw, ha]
    simp only
    refine ⟨?_, ?_, ?_, ?_, ?_⟩
    · split <;> rfl
    · have := g2 (first w).2
      split <;> exact this
    · intro e he
      rw [he]
    · intro he
      rw [he]
    · intro b hb
      rw [hb]
      exact ⟨_, rfl⟩

/-- C13: in `OTLambda` and in `OTR` the role fixes the order of the two phases.
A client peer runs its query phase to the end and then, only when that phase
returned a nil error, its respond phase, in the world the query phase left; a
server peer runs its respond phase to the end and then, under the same
condition, its query phase.  In either role an error of the first phase is the
error returned, and the world is then the one the first phase left: no call of
the second phase is made. -/
theorem ot_phase_order (peer : Peer) (w : World) :
    (∀ count choices x1 x2 : Int,
      (peer.client = true →
        RunsInOrder (OTLambdaQuery peer count choices) (OTLambdaRespond peer count x1 x2)
          (OTLambda peer count choices x1 x2) w) ∧
      (peer.client = false →
        RunsInOrder (OTLambdaRespond peer count x1 x2) (OTLambdaQuery peer count choices)
          (OTLambda peer count choices x1 x2) w)) ∧
    (∀ (chA chB chC : Int) (x1Ag x2Ag x1Bg x2Bg x1Cg x2Cg : List Label),
      (peer.client = true →
        RunsInOrder (OTRQueries peer x1Ag.length chA chB chC)
          (OTRResponses peer x1Ag x2Ag x1Bg x2Bg x1Cg x2Cg)
          (OTR peer chA chB chC x1Ag x2Ag x1Bg x2Bg x1Cg x2Cg) w) ∧
      (peer.client = false →
        RunsInOrder (OTRResponses peer x1Ag x2Ag x1Bg x2Bg x1Cg x2Cg)
          (OTRQueries peer x1Ag.length chA chB chC)
          (OTR peer chA chB chC x1Ag x2Ag x1Bg x2Bg x1Cg x2Cg) w)) := by
  refine ⟨fun count choices x1 x2 => ⟨fun hc => ?_, fun hc => ?_⟩,
    fun chA chB chC x1Ag x2Ag x1Bg x2Bg x1Cg x2Cg => ⟨fun hc => ?_, fun hc => ?_⟩⟩
  · apply runsInOrder_of _ _ _ _ (grows_OTLambdaQuery _ _ _) (grows_OTLambdaRespond _ _ _ _)
      (fun a _ => a)
    simp only [OTLambda, hc, if_true]
    cases (OTLambdaQuery peer count choices w).1 <;>
      first
      | rfl
      | (cases (OTLambdaRespond peer count x1 x2 (OTLambdaQuery peer count choices w).2).1 <;> rfl)
  · apply runsInOrder_of _ _ _ _ (grows_OTLambdaRespond _ _ _ _) (grows_OTLambdaQuery _ _ _)
      (fun _ b => b)
    simp only [OTLambda, hc, Bool.false_eq_true, if_false]
    cases (OTLambdaRespond peer count x1 x2 w).1 <;>
      first
      | rfl
      | (cases h : (OTLambdaQuery peer count choices (OTLambdaRespond peer count x1 x2 w).2).1 <;>
          simp only [← h])
  · apply runsInOrder_of _ _ _ _ (grows_OTRQueries _ _ _ _ _)
      (grows_OTRResponses _ _ _ _ _ _ _) (fun a _ => a)
    simp only [OTR, hc, if_true]
    cases (OTRQueries peer x1Ag.length chA chB chC w).1 <;>
      first
      | rfl
      | (cases (OTRResponses peer x1Ag x2Ag x1Bg x2Bg x1Cg x2Cg
          (OTRQueries peer x1Ag.length chA chB chC w).2).1 <;> rfl)
  · apply runsInOrder_of _ _ _ _ (grows_OTRResponses _ _ _ _ _ _ _)
      (grows_OTRQueries _ _ _ _ _) (fun _ b => b)
    simp only [OTR, hc, Bool.false_eq_true, if_false]
    cases (OTRResponses peer x1Ag x2Ag x1Bg x2Bg x1Cg x2Cg w).1 <;>
      first
      | rfl
      | (cases h : (OTRQueries peer x1Ag.length chA chB chC
          (OTRResponses peer x1Ag x2Ag x1Bg x2Bg x1Cg x2Cg w).2).1 <;> simp only [← h])

theorem ot_phase_order_witness :
    RunsInOrder (OTLambdaQuery { id := 1, conn := 0, client := true } 1 1)
        (OTLambdaRespond { id := 1, conn := 0, client := true } 1 0 1)
        (OTLambda { id := 1, conn := 0, client := true } 1 1 0 1)
        { script := [], trace := [], conns := 1 } ∧
      OTLambda { id := 1, conn := 0, client := true } 1 1 0 1
        { script := [], trace := [], conns := 1 } =
        (.err (.env 0), { script := [], trace := [.sendUint32 0 1], conns := 1 }) :=
  ⟨((ot_phase_order { id := 1, conn := 0, client := true }
      { script := [], trace := [], conns := 1 }).1 1 1 0 1).1 rfl, by decide⟩

/-! ### The respond phases and the batch size -/

theorem newTransferCalls_append (t u : List Event) :
    newTransferCalls (t ++ u) = newTransferCalls t + newTransferCalls u := by
  simp [newTransferCalls]

theorem serves_pure {α : Type} (a : α) : Serves (fun w => (Res.ok a, w)) 0 :=
  fun _ => ⟨Nat.le_refl _, fun _ _ => rfl⟩

theorem serves_fail {α : Type} (r : Res α) (hr : ∀ a, r ≠ .ok a) (n : Nat) :
    Serves (fun w => (r, w)) n :=
  fun _ => ⟨Nat.le_add_right _ _, fun a h => absurd h (hr a)⟩

theorem serves_step {α : Type} (e : Event) (k : Reply → M α) (n : Nat)
    (hk : ∀ r, Serves (k r) n) : Serves (step e k) (n + newTransferCalls [e]) := by
  intro w
  have h1 : newTransferCalls (call e w).2.trace = newTransferCalls w.trace + newTransferCalls [e] := by
    rw [call_trace, newTransferCalls_append]
  unfold step
  split
  · exact ⟨by simp only; omega, fun a h => by simp at h⟩
  · obtain ⟨h2, h3⟩ := hk (call e w).1 (call e w).2
    exact ⟨by omega, fun a h => by rw [h3 a h]; omega⟩

theorem serves_ask {α : Type} (e : Event) (k : Reply → M α) (n : Nat)
    (hk : ∀ r, Serves (k r) n) : Serves (ask e k) (n + newTransferCalls [e]) := by
  intro w
  have h1 : newTransferCalls (call e w).2.trace = newTransferCalls w.trace + newTransferCalls [e] := by
    rw [call_trace, newTransferCalls_append]
  obtain ⟨h2, h3⟩ := hk (call e w).1 (call e w).2
  unfold ask
  exact ⟨by omega, fun a h => by rw [h3 a h]; omega⟩

theorem serves_tell {α : Type} (e : Event) (k : M α) (n : Nat)
    (hk : Serves k n) : Serves (tell e k) (n + newTransferCalls [e]) := by
  intro w
  have h1 : newTransferCalls (emit e w).trace = newTransferCalls w.trace + newTransferCalls [e] :=
    newTransferCalls_append _ _
  obtain ⟨h2, h3⟩ := hk (emit e w)
  unfold tell
  exact ⟨by omega, fun a h => by rw [h3 a h]; omega⟩

theorem serves_bind {α β : Type} (m : M α) (f : α → M β) (a b : Nat) (hm : Serves m a)
    (hf : ∀ x, Serves (f x) b) : Serves (m.bind f) (a + b) := by
  intro w
  obtain ⟨h1, h2⟩ := hm w
  unfold M.bind
  split
  · rename_i x hx
    obtain ⟨h3, h4⟩ := hf x (m w).2
    have := h2 x hx
    exact ⟨by omega, fun y h => by rw [h4 y h]; omega⟩
  · exact ⟨by simp only; omega, fun y h => by simp at h⟩
  · exact ⟨by simp only; omega, fun y h => by simp at h⟩

theorem serves_serveTransfer (peer : Peer) (m0 m1 : List Nat) :
    Serves (serveTransfer peer m0 m1) 1 :=
  serves_step _ _ 0 fun _ => serves_ask _ _ 0 fun _ => serves_step _ _ 0 fun _ =>
    serves_step _ _ 0 fun _ => serves_step _ _ 0 fun _ => serves_step _ _ 0 fun _ =>
    serves_tell _ _ 0 <| serves_step _ _ 0 fun _ => serves_step _ _ 0 fun _ =>
    serves_step _ _ 0 fun _ => serves_step _ _ 0 fun _ => serves_pure _

theorem serves_otLambdaRespondLoop (peer : Peer) (x1 x2 : Int) (n : Nat) :
    Serves (otLambdaRespondLoop peer x1 x2 n) n := by
  induction n with
  | zero => exact serves_pure _
  | succ n ih =>
    unfold otLambdaRespondLoop
    have h := serves_step (.receiveUint32 peer.conn)
      (fun bit => (serveTransfer peer [bigBit x1 bit.num] [bigBit x2 bit.num]).bind fun _ =>
        otLambdaRespondLoop peer x1 x2 n) (1 + n)
      (fun _ => serves_bind _ _ 1 n (serves_serveTransfer _ _ _) fun _ => ih)
    rw [Nat.add_comm n 1]
    exact h

theorem serves_otrRespondLoop (peer : Peer) (x1 x2 : List Label) (n : Nat) :
    Serves (otrRespondLoop peer x1 x2 n) n := by
  induction n with
  | zero => exact serves_pure _
  | succ n ih =>
    unfold otrRespondLoop
    rw [Nat.add_comm n 1]
    refine serves_step (.receiveUint32 peer.conn) _ (1 + n) fun bit => ?_
    split
    · exact serves_bind _ _ 1 n (serves_serveTransfer _ _ _) fun _ => ih
    · exact serves_fail _ (fun _ h => by simp at h) _

theorem step_ok {α : Type} (e : Event) (k : Reply → M α) (w : World) (r : Reply)
    (rs : List Reply) (hs : w.script = r :: rs) (hr : r.err = none) :
    step e k w = k r { w with script := rs, trace := w.trace ++ [e] } := by
  simp [step, call, hs, hr]

theorem ask_ok {α : Type} (e : Event) (k : Reply → M α) (w : World) (r : Reply)
    (rs : List Reply) (hs : w.script = r :: rs) :
    ask e k w = k r { w with script := rs, trace := w.trace ++ [e] } := by
  simp [ask, call, hs]

/-- With ten replies without error to come, `serveTransfer` returns a nil
error and takes exactly these ten. -/
theorem serveTransfer_ok (peer : Peer) (m0 m1 : List Nat) (w : World)
    (h : ∀ q ∈ w.script, q.err = none) (hl : 10 ≤ w.script.length) :
    (serveTransfer peer m0 m1 w).1 = .ok () ∧
      (serveTransfer peer m0 m1 w).2.script = w.script.drop 10 := by
  obtain ⟨s, t, c⟩ := w
  simp only at h hl
  rcases s with _ | ⟨r1, _ | ⟨r2, _ | ⟨r3, _ | ⟨r4, _ | ⟨r5, _ | ⟨r6, _ | ⟨r7, _ | ⟨r8, _ |
    ⟨r9, _ | ⟨r10, rest⟩⟩⟩⟩⟩⟩⟩⟩⟩⟩ <;> try (simp at hl; done)
  simp only [List.forall_mem_cons] at h
  obtain ⟨h1, h2, h3, h4, h5, h6, h7, h8, h9, h10, _⟩ := h
  simp [serveTransfer, step, ask, tell, call, emit, h1, h2, h3, h4, h5, h6, h7, h8, h9, h10]

theorem otLambdaRespondLoop_ok (peer : Peer) (x1 x2 : Int) (n : Nat) (w : World)
    (h : ∀ q ∈ w.script, q.err = none) (hl : 11 * n ≤ w.script.length) :
    (otLambdaRespondLoop peer x1 x2 n w).1 = .ok () := by
  induction n generalizing w with
  | zero => rfl
  | succ n ih =>
    obtain ⟨s, t, c⟩ := w
    simp only at h hl
    rcases s with _ | ⟨r, rs⟩
    · simp at hl
    · have hr : r.err = none := h r (List.mem_cons_self _ _)
      have hrs : ∀ q ∈ rs, q.err = none := fun q hq => h q (List.mem_cons_of_mem _ hq)
      simp only [List.length_cons] at hl
      unfold otLambdaRespondLoop
      rw [step_ok _ _ _ r rs rfl hr]
      obtain ⟨e1, e2⟩ := serveTransfer_ok peer [bigBit x1 r.num] [bigBit x2 r.num]
        { script := rs, trace := t ++ [.receiveUint32 peer.conn], conns := c } hrs
        (by simp only; omega)
      simp only [M.bind, e1]
      apply ih
      · rw [e2]
        exact fun q hq => hrs q (List.mem_of_mem_drop hq)
      · rw [e2]
        simp only [List.length_drop]
        omega

theorem otrRespondLoop_ok (peer : Peer) (x1 x2 : List Label) (n : Nat) (w : World)
    (h : ∀ q ∈ w.script, q.err = none ∧ q.num < x1.length ∧ q.num < x2.length)
    (hl : 11 * n ≤ w.script.length) :
    (otrRespondLoop peer x1 x2 n w).1 = .ok () := by
  induction n generalizing w with
  | zero => rfl
  | succ n ih =>
    obtain ⟨s, t, c⟩ := w
    simp only at h hl
    rcases s with _ | ⟨r, rs⟩
    · simp at hl
    · obtain ⟨hr, hb1, hb2⟩ := h r (List.mem_cons_self _ _)
      have hrs : ∀ q ∈ rs, q.err = none ∧ q.num < x1.length ∧ q.num < x2.length :=
        fun q hq => h q (List.mem_cons_of_mem _ hq)
      simp only [List.length_cons] at hl
      unfold otrRespondLoop
      rw [step_ok _ _ _ r rs rfl hr]
      simp only [List.getElem?_eq_getElem hb1, List.getElem?_eq_getElem hb2]
      obtain ⟨e1, e2⟩ := serveTransfer_ok peer (x1[r.num]).Bytes (x2[r.num]).Bytes
        { script := rs, trace := t ++ [.receiveUint32 peer.conn], conns := c }
        (fun q hq => (hrs q hq).1) (by simp only; omega)
      simp only [M.bind, e1]
      apply ih
      · rw [e2]
        exact fun q hq => hrs q (List.mem_of_mem_drop hq)
      · rw [e2]
        simp only [List.length_drop]
        omega

/-! ### The peer map -/

theorem find_filter_ne (m : PeerMap) (k id : Int) (h : k ≠ id) :
    (m.filter fun p => decide (p.1 ≠ id)).find? (fun p => decide (p.1 = k)) =
      m.find? (fun p => decide (p.1 = k)) := by
  induction m with
  | nil => rfl
  | cons a m ih =>
    by_cases ha : a.1 = id
    · have hk : ¬ a.1 = k := fun e => h (e.symm.trans ha)
      have e1 : decide (a.1 ≠ id) = false := by simp [ha]
      have e2 : decide (a.1 = k) = false := by simp [hk]
      rw [List.filter_cons, e1, List.find?_cons, e2]
      simp only [Bool.false_eq_true, if_false]
      exact ih
    · have e1 : decide (a.1 ≠ id) = true := by simp [ha]
      rw [List.filter_cons, e1]
      simp only [if_true]
      rw [List.find?_cons, List.find?_cons]
      cases decide (a.1 = k)
      · exact ih
      · rfl

theorem peerMap_lookup_set_ne (m : PeerMap) (k id : Int) (peer : Peer) (h : k ≠ id) :
    (m.set id peer).lookup k = m.lookup k := by
  unfold PeerMap.lookup PeerMap.set
  rw [List.find?_append, find_filter_ne m k id h]
  have hk : ¬ id = k := fun e => h e.symm
  cases m.find? (fun p => decide (p.1 = k)) <;> simp [List.find?_cons, hk]

theorem peerMap_set_absent (m : PeerMap) (id : Int) (peer : Peer) (h : m.lookup id = none) :
    m.set id peer = m ++ [(id, peer)] := by
  unfold PeerMap.set
  congr 1
  rw [List.filter_eq_self]
  intro a ha
  unfold PeerMap.lookup at h
  simp only [Option.map_eq_none', List.find?_eq_none] at h
  simpa using h a ha

theorem peerMap_lookup_append (m : PeerMap) (id : Int) (peer : Peer) (h : m.lookup id = none) :
    PeerMap.lookup (m ++ [(id, peer)]) id = some peer := by
  unfold PeerMap.lookup at h ⊢
  simp only [Option.map_eq_none'] at h
  rw [List.find?_append, h]
  simp [List.find?_cons]

theorem newPeer_present (client : Bool) (conn : Nat) (id : Int) (nw : Network) (w : World)
    (p : Peer) (h : nw.Peers.lookup id = some p) :
    (newPeer client conn id nw w).2.1 = nw ∧
      (newPeer client conn id nw w).2.2.trace = w.trace ++ [.close conn] := by
  unfold newPeer
  simp only [h]
  split <;> exact ⟨rfl, call_trace _ _⟩

theorem newPeer_absent (client : Bool) (conn : Nat) (id : Int) (nw : Network) (w : World)
    (h : nw.Peers.lookup id = none) :
    (newPeer client conn id nw w).2.1 =
      { nw with Peers := nw.Peers ++ [(id, { id := id, conn := conn, client := client })] } := by
  unfold newPeer
  simp only [h, peerMap_set_absent _ _ _ h]

theorem newPeer_keeps (client : Bool) (conn : Nat) (id : Int) (nw : Network) (w : World)
    (k : Int) (p : Peer) (h : nw.Peers.lookup k = some p) :
    (newPeer client conn id nw w).2.1.Peers.lookup k = some p := by
  cases hid : nw.Peers.lookup id with
  | some q => rw [(newPeer_present client conn id nw w q hid).1]; exact h
  | none =>
    have hne : k ≠ id := by
      intro e
      rw [e, hid] at h
      exact Option.noConfusion h
    unfold newPeer
    simp only [hid]
    rw [peerMap_lookup_set_ne _ _ _ _ hne]
    exact h

theorem newPeer_id (client : Bool) (conn : Nat) (id : Int) (nw : Network) (w : World) :
    (newPeer client conn id nw w).2.1.ID = nw.ID := by
  unfold newPeer
  split
  · split <;> rfl
  · rfl

theorem addPeer_keeps (addr : String) (id : Int) (n : Nat) (nw : Network) (w : World)
    (k : Int) (p : Peer) (h : nw.Peers.lookup k = some p) :
    (AddPeer addr id n nw w).2.1.Peers.lookup k = some p := by
  induction n generalizing nw w with
  | zero => exact h
  | succ n ih =>
    unfold AddPeer
    split
    · exact h
    · split
      · exact ih _ _ h
      · simp only
        split
        · exact h
        · split
          · exact h
          · split
            · exact newPeer_keeps _ _ _ _ _ _ _ h
            · exact ih _ _ (newPeer_keeps _ _ _ _ _ _ _ h)

theorem acceptLoop_keeps (n : Nat) (nw : Network) (w : World)
    (k : Int) (p : Peer) (h : nw.Peers.lookup k = some p) :
    (acceptLoop n nw w).2.1.Peers.lookup k = some p := by
  induction n generalizing nw w with
  | zero => exact h
  | succ n ih =>
    unfold acceptLoop
    split
    · exact h
    · simp only
      split
      · exact ih _ _ h
      · exact ih _ _ (newPeer_keeps _ _ _ _ _ _ _ h)

/-- C18: peer-map entries are written once.  `newPeer` called with an id that
is present in `Peers` closes the new connection and leaves the network as it
was; called with an absent id it adds exactly the entry of the new peer, at
that id; and no method of `Network` (`newPeer`, `AddPeer`, `acceptLoop`,
`Ping`, `Close`, `Stats`) replaces or removes an entry that is present. -/
theorem peers_written_once (nw : Network) (w : World) :
    (∀ client conn id p, nw.Peers.lookup id = some p →
      (newPeer client conn id nw w).2.1 = nw ∧
      (newPeer client conn id nw w).2.2.trace = w.trace ++ [.close conn]) ∧
    (∀ client conn id, nw.Peers.lookup id = none →
      (newPeer client conn id nw w).2.1.Peers =
        nw.Peers ++ [(id, { id := id, conn := conn, client := client })] ∧
      (newPeer client conn id nw w).2.1.Peers.lookup id =
        some { id := id, conn := conn, client := client }) ∧
    (∀ k p, nw.Peers.lookup k = some p →
      (∀ client conn id, (newPeer client conn id nw w).2.1.Peers.lookup k = some p) ∧
      (∀ addr id n, (AddPeer addr id n nw w).2.1.Peers.lookup k = some p) ∧
      (∀ n, (acceptLoop n nw w).2.1.Peers.lookup k = some p) ∧
      (Ping nw w).1.Peers.lookup k = some p ∧
      (Close nw w).2.1.Peers.lookup k = some p ∧
      (Stats nw).2.Peers.lookup k = some p) := by
  refine ⟨fun client conn id p h => newPeer_present client conn id nw w p h,
    fun client conn id h => ?_, fun k p h => ⟨fun client conn id => newPeer_keeps _ _ _ _ _ _ _ h,
      fun addr id n => addPeer_keeps _ _ _ _ _ _ _ h, fun n => acceptLoop_keeps _ _ _ _ _ h,
      h, ?_, h⟩⟩
  · rw [newPeer_absent client conn id nw w h]
    exact ⟨rfl, peerMap_lookup_append _ _ _ h⟩
  · unfold Close
    split <;> exact h

theorem peers_written_once_witness :
    (newPeer true 5 2 { ID := 1, Peers := [(2, { id := 2, conn := 0, client := false })] }
        { script := [], trace := [], conns := 6 }).2.1 =
      { ID := 1, Peers := [(2, { id := 2, conn := 0, client := false })] } ∧
    (newPeer true 5 2 { ID := 1, Peers := [(2, { id := 2, conn := 0, client := false })] }
        { script := [], trace := [], conns := 6 }).2.2.trace = [.close 5] :=
  (peers_written_once { ID := 1, Peers := [(2, { id := 2, conn := 0, client := false })] }
    { script := [], trace := [], conns := 6 }).1 true 5 2 { id := 2, conn := 0, client := false }
    (by decide)

/-- C15 (failing run): the network has no peer 2; `Dial`, `SendUint32` and
`Flush` succeed, and in `Peer.init` the read of the peer's public key fails
with error 7.  The call of `newPeer` that `AddPeer` makes returns that error,
and still `AddPeer` returns nil: the error is printed, the loop starts again
and finds peer 2 in `Peers`, where `newPeer` stored it before `init` ran.  The
connection is not closed and the peer stays in the map. -/
theorem addPeer_drops_init_error :
    (newPeer true 0 2 { ID := 1, Peers := [] }
        { script := [{ err := some 7, num := 0, data := [], data2 := [] },
            { err := none, num := 65537, data := [1, 2], data2 := [] },
            { err := none, num := 0, data := [], data2 := [] },
            { err := none, num := 0, data := [], data2 := [] },
            { err := none, num := 0, data := [], data2 := [] }],
          trace := [.dial "peer2", .sendUint32 0 1, .flush 0], conns := 1 }).1 =
      .err (.env 7) ∧
    AddPeer "peer2" 2 2 { ID := 1, Peers := [] }
        { script := [{ err := none, num := 0, data := [], data2 := [] },
            { err := none, num := 0, data := [], data2 := [] },
            { err := none, num := 0, data := [], data2 := [] },
            { err := some 7, num := 0, data := [], data2 := [] },
            { err := none, num := 65537, data := [1, 2], data2 := [] },
            { err := none, num := 0, data := [], data2 := [] },
            { err := none, num := 0, data := [], data2 := [] },
            { err := none, num := 0, data := [], data2 := [] }],
          trace := [], conns := 0 } =
      (some (.ok ()),
        { ID := 1, Peers := [(2, { id := 2, conn := 0, client := true })] },
        { script := [],
          trace := [.dial "peer2", .sendUint32 0 1, .flush 0, .receiveData 0, .newSender 2048,
            .sendData 0 [1, 2], .sendUint32 0 65537, .flush 0],
          conns := 1 }) := by
  decide

end P2P

/-! ### The zero wire is made once -/

namespace Circuits

theorem zeroWire_result (c : Compiler) (h : Heap) (z : Nat) (c1 : Compiler) (h1 : Heap)
    (hf : ZeroWire c h = some (z, c1, h1)) : c1.zeroWire = some z := by
  unfold ZeroWire at hf
  cases hz : c.zeroWire with
  | some z0 =>
    simp only [hz, Option.some.injEq, Prod.mk.injEq] at hf
    rw [← hf.2.1, hz, hf.1]
  | none =>
    simp only [hz] at hf
    split at hf
    · simp only [Option.some.injEq, Prod.mk.injEq] at hf
      rw [← hf.2.1, ← hf.1]
    · exact Option.noConfusion hf

theorem zero_some (c : Compiler) (o : Nat) (h : Heap) (z : Nat) (hz : c.zeroWire = some z) :
    Zero c o h = some (AddGate (AddGate c (NewINV z h.length)) (NewINV h.length o),
      h ++ [{ Output := false, Assigned := false, ID := 0 }]) := by
  unfold Zero
  rw [zeroWire_some c _ z hz]
  rfl

theorem one_some (c : Compiler) (o : Nat) (h : Heap) (z : Nat) (hz : c.zeroWire = some z) :
    One c o h = some (AddGate c (NewINV z o), h) := by
  unfold One
  rw [zeroWire_some c _ z hz]

/-- Requests for constants on a compiler that has its zero wire: all of them
return, and only gates and wires that are not inputs are added. -/
theorem constants_some (ks : List Const) (c : Compiler) (h : Heap) (z : Nat)
    (hz : c.zeroWire = some z) :
    ∃ c2 h2, constants ks c h = some (c2, h2) ∧ c2.zeroWire = some z ∧
      c2.Inputs = c.Inputs ∧ c2.Outputs = c.Outputs ∧
      c2.N1 = c.N1 ∧ c2.N2 = c.N2 ∧ c2.N3 = c.N3 := by
  induction ks generalizing c h with
  | nil => exact ⟨c, h, rfl, hz, rfl, rfl, rfl, rfl, rfl⟩
  | cons k ks ih =>
    cases k with
    | zero o =>
      unfold constants
      rw [zero_some c o h z hz]
      exact ih _ _ hz
    | one o =>
      unfold constants
      rw [one_some c o h z hz]
      exact ih _ _ hz

/-- C25: `ZeroWire` is idempotent.  When the first call has returned the wire
`z`, every later call returns `z` and leaves the compiler (`Inputs`, `N1`,
`N2`, `N3` and all the rest) unchanged, whatever wires were allocated in
between; and every run of `Zero` and `One` requests after it returns, with `z`
still the zero wire and `Inputs`, `N1`, `N2`, `N3` unchanged.  For any
compiler, a run of `Zero` and `One` requests that returns has added at most
one wire to `Inputs` and at most one argument to `N1`. -/
theorem zeroWire_idempotent (c : Compiler) (h : Heap) (z : Nat) (c1 : Compiler) (h1 : Heap)
    (hfirst : ZeroWire c h = some (z, c1, h1)) :
    (∀ h2, ZeroWire c1 h2 = some (z, c1, h2)) ∧
    (∀ k h2, zeroWireCalls k c1 h2 = some (c1, h2)) ∧
    (∀ ks h2, ∃ c2 h3, constants ks c1 h2 = some (c2, h3) ∧ c2.zeroWire = some z ∧
      c2.Inputs = c1.Inputs ∧ c2.N1 = c1.N1 ∧ c2.N2 = c1.N2 ∧ c2.N3 = c1.N3) ∧
    (∀ ks h0 c2 h3, constants ks c h0 = some (c2, h3) →
      c2.Inputs.length ≤ c.Inputs.length + 1 ∧ c2.N1.length ≤ c.N1.length + 1 ∧
      c2.N2 = c.N2 ∧ c2.N3 = c.N3) := by
  have hz := zeroWire_result c h z c1 h1 hfirst
  refine ⟨fun h2 => zeroWire_some c1 h2 z hz, fun k h2 => zeroWireCalls_some k c1 h2 z hz,
    fun ks h2 => ?_, ?_⟩
  · obtain ⟨c2, h3, e, e1, e2, _, e3, e4, e5⟩ := constants_some ks c1 h2 z hz
    exact ⟨c2, h3, e, e1, e2, e3, e4, e5⟩
  · intro ks h0 c2 h3 hk
    have key : ∀ (c0 : Compiler) (g : Heap) (r : Nat × Compiler × Heap),
        ZeroWire c0 g = some r →
        r.2.1.Inputs.length ≤ c0.Inputs.length + 1 ∧ r.2.1.N1.length ≤ c0.N1.length + 1 ∧
          r.2.1.N2 = c0.N2 ∧ r.2.1.N3 = c0.N3 ∧ ∃ z0, r.2.1.zeroWire = some z0 := by
      intro c0 g r hr
      have hzz := zeroWire_result c0 g r.1 r.2.1 r.2.2 hr
      unfold ZeroWire at hr
      cases hz0 : c0.zeroWire with
      | some z0 =>
        simp only [hz0, Option.some.injEq] at hr
        subst hr
        exact ⟨by simp, by simp, rfl, rfl, z0, hz0⟩
      | none =>
        simp only [hz0] at hr
        split at hr
        · rename_i hb
          simp only [Option.some.injEq] at hr
          subst hr
          refine ⟨?_, by simp, rfl, rfl, _, rfl⟩
          simp only [List.length_append, List.length_take, List.length_drop,
            List.length_singleton]
          omega
        · exact Option.noConfusion hr
    cases ks with
    | nil =>
      simp only [constants, Option.some.injEq, Prod.mk.injEq] at hk
      rw [← hk.1]
      exact ⟨by omega, by omega, rfl, rfl⟩
    | cons k ks =>
      cases k with
      | zero o =>
        unfold constants at hk
        unfold Zero at hk
        cases hzw : ZeroWire c (NewWire h0).2 with
        | none => simp [hzw] at hk
        | some r =>
          simp only [hzw] at hk
          obtain ⟨k1, k2, k3, k4, z0, k5⟩ := key _ _ r hzw
          obtain ⟨c3, h4, e, _, e2, _, e3, e4, e5⟩ := constants_some ks
            (AddGate (AddGate r.2.1 (NewINV r.1 (NewWire h0).1)) (NewINV (NewWire h0).1 o))
            r.2.2 z0 k5
          rw [e] at hk
          simp only [Option.some.injEq, Prod.mk.injEq] at hk
          rw [← hk.1, e2, e3, e4, e5]
          exact ⟨k1, k2, k3, k4⟩
      | one o =>
        unfold constants at hk
        unfold One at hk
        cases hzw : ZeroWire c h0 with
        | none => simp [hzw] at hk
        | some r =>
          simp only [hzw] at hk
          obtain ⟨k1, k2, k3, k4, z0, k5⟩ := key _ _ r hzw
          obtain ⟨c3, h4, e, _, e2, _, e3, e4, e5⟩ := constants_some ks
            (AddGate r.2.1 (NewINV r.1 o)) r.2.2 z0 k5
          rw [e] at hk
          simp only [Option.some.injEq, Prod.mk.injEq] at hk
          rw [← hk.1, e2, e3, e4, e5]
          exact ⟨k1, k2, k3, k4⟩

theorem zeroWire_idempotent_witness :
    ∃ c1 h1, ZeroWire (NewCompiler ( NewIO 2) ( NewIO 1) ( NewIO 3) []).1
        (NewCompiler ( NewIO 2) ( NewIO 1) ( NewIO 3) []).2 = some (6, c1, h1) ∧
      ZeroWire c1 (h1 ++ [{ Output := false, Assigned := false, ID := 0 }]) =
        some (6, c1, h1 ++ [{ Output := false, Assigned := false, ID := 0 }]) ∧
      ∃ c2 h3, constants [.zero 3, .one 4, .zero 5] c1 h1 = some (c2, h3) ∧
        c2.zeroWire = some 6 ∧ c2.Inputs = c1.Inputs := by
  have hf : ZeroWire (NewCompiler ( NewIO 2) ( NewIO 1) ( NewIO 3) []).1
      (NewCompiler ( NewIO 2) ( NewIO 1) ( NewIO 3) []).2 =
      some (6, { N1 := [{ Name := "", Typ := "", Size := 2 }, { Name := "0", Typ := "", Size := 1 }],
                 N2 := ( NewIO 1), N3 := ( NewIO 3), Inputs := [0, 1, 6, 2],
                 Outputs := [3, 4, 5], Gates := [], zeroWire := some 6 },
        List.replicate 3 { Output := false, Assigned := false, ID := 0 } ++
          List.replicate 3 { Output := true, Assigned := false, ID := 0 } ++
          [{ Output := false, Assigned := false, ID := 0 }]) := by decide
  obtain ⟨a1, _, a3, _⟩ := zeroWire_idempotent _ _ _ _ _ hf
  obtain ⟨c2, h3, b1, b2, b3, _⟩ := a3 [.zero 3, .one 4, .zero 5] _
  exact ⟨_, _, hf, a1 _, c2, h3, b1, b2, b3⟩

end Circuits

/-! ### Index bounds in `OTRRespond` -/

namespace P2P

/-- C24 (failing runs): `OTRRespond` does not check the index it receives.
With one label on each side and the received index 5 the expression `x1[bit]`
is out of range: the run ends in a panic, not in an error, after the two
`ReceiveUint32` calls.  With two labels in `x1`, one in `x2` and the received
index 1, the index is inside `x1` and `x2[bit]` panics. -/
theorem otrRespond_index_panics :
    OTRRespond { id := 1, conn := 0, client := false } [{ bytes := [1] }] [{ bytes := [2] }]
        { script := [{ err := none, num := 1, data := [], data2 := [] },
            { err := none, num := 5, data := [], data2 := [] }], trace := [], conns := 1 } =
      (.panic, { script := [], trace := [.receiveUint32 0, .receiveUint32 0], conns := 1 }) ∧
    OTRRespond { id := 1, conn := 0, client := false } [{ bytes := [1] }, { bytes := [3] }]
        [{ bytes := [2] }]
        { script := [{ err := none, num := 2, data := [], data2 := [] },
            { err := none, num := 1, data := [], data2 := [] }], trace := [], conns := 1 } =
      (.panic, { script := [], trace := [.receiveUint32 0, .receiveUint32 0], conns := 1 }) := by
  decide

/-! ### The query phase of `OTLambda` -/

theorem step_err {α : Type} (e : Event) (k : Reply → M α) (w : World) (r : Reply)
    (rs : List Reply) (c : Nat) (hs : w.script = r :: rs) (hr : r.err = some c) :
    step e k w = (.err (.env c), { w with script := rs, trace := w.trace ++ [e] }) := by
  simp [step, call, hs, hr]

theorem step_exhausted {α : Type} (e : Event) (k : Reply → M α) (w : World)
    (hs : w.script = []) :
    step e k w = (.err (.env 0), { w with trace := w.trace ++ [e] }) := by
  simp [step, call, hs]

/-- What `step` does, by the next reply. -/
theorem step_cases {α : Type} (e : Event) (k : Reply → M α) (w : World) :
    (∃ c, step e k w = (.err (.env c), (call e w).2)) ∨
      step e k w = k (call e w).1 (call e w).2 := by
  unfold step
  cases (call e w).1.err with
  | some c => exact Or.inl ⟨c, rfl⟩
  | none => exact Or.inr rfl

/-- The calls of the loop of `OTLambdaQuery`: transfers with the indexes from
`i` on, in order, each with the choice bit of its index; all `n` of them when
the loop returns a nil error. -/
theorem otLambdaQueryLoop_calls (peer : Peer) (choices : Int) (n i result : Nat) (w : World) :
    ∃ k, k ≤ n ∧
      (otLambdaQueryLoop peer choices n i result w).2.trace = w.trace ++
        (List.range' i k).map (fun j => Event.receive peer.conn j (bigBit choices j)) ∧
      ∀ v, (otLambdaQueryLoop peer choices n i result w).1 = .ok v → k = n := by
  induction n generalizing i result w with
  | zero => exact ⟨0, Nat.le_refl _, by simp [otLambdaQueryLoop], fun _ _ => rfl⟩
  | succ n ih =>
    unfold otLambdaQueryLoop
    have ht := call_trace (.receive peer.conn i (bigBit choices i)) w
    rcases step_cases (.receive peer.conn i (bigBit choices i))
      (fun r => if r.data.length ≠ 1 then fun w => (.err (.invalidOTResult r.data.length), w)
        else if r.data.headD 0 ≠ 0 then otLambdaQueryLoop peer choices n (i + 1) (result ||| 2 ^ i)
        else otLambdaQueryLoop peer choices n (i + 1) result) w with ⟨c, e⟩ | e
    · rw [e]
      exact ⟨1, by omega, by simp [ht], fun v hv => by simp at hv⟩
    · rw [e]
      split
      · exact ⟨1, by omega, by simp [ht], fun v hv => by simp at hv⟩
      · split
        · obtain ⟨k, hk, h1, h2⟩ := ih (i + 1) (result ||| 2 ^ i)
            (call (.receive peer.conn i (bigBit choices i)) w).2
          refine ⟨k + 1, by omega, ?_, fun v hv => by rw [h2 v hv]⟩
          rw [h1, ht, List.range'_succ]
          simp
        · obtain ⟨k, hk, h1, h2⟩ := ih (i + 1) result
            (call (.receive peer.conn i (bigBit choices i)) w).2
          refine ⟨k + 1, by omega, ?_, fun v hv => by rw [h2 v hv]⟩
          rw [h1, ht, List.range'_succ]
          simp

theorem delivered_cons (r : Reply) (rs : List Reply) (k : Nat) :
    delivered (r :: rs) k =
      if k = 0 then decide (r.data.headD 0 ≠ 0) else delivered rs (k - 1) := by
  cases k with
  | zero => simp [delivered]
  | succ k => simp [delivered]

/-- The loop of `OTLambdaQuery` on replies without error that each deliver one
byte: it returns, having taken `n` replies, and sets bit `i + j` of the result
exactly when the byte of reply `j` is not zero. -/
theorem otLambdaQueryLoop_ok (peer : Peer) (choices : Int) (n i result : Nat) (w : World)
    (hl : n ≤ w.script.length)
    (hg : ∀ r ∈ w.script.take n, r.err = none ∧ r.data.length = 1) :
    ∃ v : Nat, otLambdaQueryLoop peer choices n i result w =
        (.ok (v : Int),
          { w with
            script := w.script.drop n
            trace := w.trace ++
              (List.range' i n).map (fun j => Event.receive peer.conn j (bigBit choices j)) }) ∧
      ∀ k, v.testBit k =
        (result.testBit k || (decide (i ≤ k) && delivered (w.script.take n) (k - i))) := by
  induction n generalizing i result w with
  | zero =>
    refine ⟨result, by simp [otLambdaQueryLoop], fun k => ?_⟩
    simp [delivered]
  | succ n ih =>
    obtain ⟨s, t, c⟩ := w
    simp only at hl hg
    rcases s with _ | ⟨r, rs⟩
    · simp at hl
    · simp only [List.take_succ_cons, List.forall_mem_cons] at hg
      obtain ⟨⟨hr, hd⟩, hrs⟩ := hg
      simp only [List.length_cons] at hl
      unfold otLambdaQueryLoop
      rw [step_ok _ _ _ r rs rfl hr]
      simp only [hd, ne_eq, not_true_eq_false, if_false]
      by_cases hb : r.data.headD 0 = 0
      · simp only [hb, not_true_eq_false, if_false]
        obtain ⟨v, e, hv⟩ := ih (i + 1) result
          { script := rs, trace := t ++ [.receive peer.conn i (bigBit choices i)], conns := c }
          (by simpa using hl) hrs
        refine ⟨v, ?_, fun k => ?_⟩
        · rw [e]
          simp [List.range'_succ]
        · rw [hv k]
          simp only [List.take_succ_cons, delivered_cons, hb]
          by_cases h1 : i + 1 ≤ k
          · have h2 : i ≤ k := by omega
            have h3 : k - i ≠ 0 := by omega
            have h4 : k - i - 1 = k - (i + 1) := by omega
            simp [h1, h2, h3, h4]
          · by_cases h2 : i ≤ k
            · have h3 : k - i = 0 := by omega
              simp [h1, h2, h3]
            · simp [h1, h2]
      · simp only [hb, not_false_eq_true, if_true]
        obtain ⟨v, e, hv⟩ := ih (i + 1) (result ||| 2 ^ i)
          { script := rs, trace := t ++ [.receive peer.conn i (bigBit choices i)], conns := c }
          (by simpa using hl) hrs
        refine ⟨v, ?_, fun k => ?_⟩
        · rw [e]
          simp [List.range'_succ]
        · rw [hv k]
          simp only [List.take_succ_cons, delivered_cons, hb, Nat.testBit_or,
            Nat.testBit_two_pow]
          by_cases h1 : i + 1 ≤ k
          · have h2 : i ≤ k := by omega
            have h3 : k - i ≠ 0 := by omega
            have h4 : k - i - 1 = k - (i + 1) := by omega
            have h5 : i ≠ k := by omega
            simp [h1, h2, h3, h4, h5]
          · by_cases h2 : i ≤ k
            · have h3 : k - i = 0 := by omega
              have h5 : i = k := by omega
              have hb2 : ¬ r.data.head?.getD 0 = 0 := by simpa using hb
              simp [h1, h2, h3, h5, hb2]
            · have h5 : i ≠ k := by omega
              simp [h1, h2, h5]

/-- The loop of `OTLambdaQuery` fails at the first reply whose message does
not have length 1. -/
theorem otLambdaQueryLoop_bad (peer : Peer) (choices : Int) (n i result : Nat) (w : World)
    (j : Nat) (r : Reply) (hj : j < n)
    (hg : ∀ q ∈ w.script.take j, q.err = none ∧ q.data.length = 1)
    (hr : w.script[j]? = some r) (he : r.err = none) (hd : r.data.length ≠ 1) :
    (otLambdaQueryLoop peer choices n i result w).1 = .err (.invalidOTResult r.data.length) := by
  induction n generalizing i result w j with
  | zero => omega
  | succ n ih =>
    obtain ⟨s, t, c⟩ := w
    simp only at hg hr
    rcases s with _ | ⟨q, qs⟩
    · simp at hr
    · unfold otLambdaQueryLoop
      cases j with
      | zero =>
        simp only [List.getElem?_cons_zero, Option.some.injEq] at hr
        subst hr
        rw [step_ok _ _ _ q qs rfl he]
        simp only [hd, ne_eq, not_false_eq_true, if_true]
      | succ j =>
        simp only [List.take_succ_cons, List.forall_mem_cons] at hg
        simp only [List.getElem?_cons_succ] at hr
        obtain ⟨⟨hq, hq1⟩, hqs⟩ := hg
        rw [step_ok _ _ _ q qs rfl hq]
        simp only [hq1, ne_eq, not_true_eq_false, if_false]
        split
        · exact ih _ _ _ j (by omega) hqs hr
        · exact ih _ _ _ j (by omega) hqs hr

/-- C22: `OTLambdaQuery(count, choices)` sends `count` and flushes, and then
performs the transfers in index order, the `i`-th with index `i` and choice
bit `choices.Bit(i)`.  The calls it makes are always an initial part of that
sequence, and all of it, with exactly `count` transfers, when it returns a nil
error.  When the count is sent and every transfer delivers a one-byte message
without error, it returns the integer whose bit `i` is 1 exactly when `i` is
below `count` and the `i`-th delivered byte is not zero.  When a transfer
delivers a message whose length is not 1, it fails with the error that names
that length. -/
theorem otLambdaQuery_spec (peer : Peer) (count choices : Int) (w : World) :
    (∃ es, (OTLambdaQuery peer count choices w).2.trace = w.trace ++ es ∧
      es <+: queryCalls peer.conn count choices ∧
      ∀ v, (OTLambdaQuery peer count choices w).1 = .ok v →
        es = queryCalls peer.conn count choices) ∧
    (∀ r0 r1 rs, w.script = r0 :: r1 :: rs → r0.err = none → r1.err = none →
      (count.toNat ≤ rs.length →
        (∀ r ∈ rs.take count.toNat, r.err = none ∧ r.data.length = 1) →
        ∃ v : Nat, OTLambdaQuery peer count choices w =
            (.ok (v : Int),
              { script := rs.drop count.toNat
                trace := w.trace ++ queryCalls peer.conn count choices
                conns := w.conns }) ∧
          ∀ k, v.testBit k = delivered (rs.take count.toNat) k) ∧
      (∀ j r, j < count.toNat → (∀ q ∈ rs.take j, q.err = none ∧ q.data.length = 1) →
        rs[j]? = some r → r.err = none → r.data.length ≠ 1 →
        (OTLambdaQuery peer count choices w).1 = .err (.invalidOTResult r.data.length))) := by
  constructor
  · unfold OTLambdaQuery queryCalls
    have t1 := call_trace (.sendUint32 peer.conn count) w
    rcases step_cases (.sendUint32 peer.conn count)
      (fun _ => step (.flush peer.conn) fun _ =>
        otLambdaQueryLoop peer choices count.toNat 0 0) w with ⟨c, e⟩ | e
    · rw [e]
      exact ⟨[.sendUint32 peer.conn count], t1, by simp, fun v hv => by simp at hv⟩
    · rw [e]
      have t2 := call_trace (.flush peer.conn) (call (.sendUint32 peer.conn count) w).2
      rcases step_cases (.flush peer.conn)
        (fun _ => otLambdaQueryLoop peer choices count.toNat 0 0)
        (call (.sendUint32 peer.conn count) w).2 with ⟨c, e2⟩ | e2
      · rw [e2]
        refine ⟨[.sendUint32 peer.conn count, .flush peer.conn], by simp [t1, t2], ?_,
          fun v hv => by simp at hv⟩
        exact List.prefix_append _ _
      · rw [e2]
        obtain ⟨k, hk, h1, h2⟩ := otLambdaQueryLoop_calls peer choices count.toNat 0 0
          (call (.flush peer.conn) (call (.sendUint32 peer.conn count) w).2).2
        refine ⟨[.sendUint32 peer.conn count, .flush peer.conn] ++
          (List.range' 0 k).map (fun j => Event.receive peer.conn j (bigBit choices j)),
          by simp [h1, t1, t2], ?_, fun v hv => ?_⟩
        · rw [List.prefix_append_right_inj, List.range_eq_range']
          obtain ⟨d, hd⟩ := Nat.exists_eq_add_of_le hk
          have e3 : List.range' 0 count.toNat = List.range' 0 k ++ List.range' k d := by
            have := List.range'_append_1 0 k d
            rw [Nat.zero_add] at this
            rw [this, hd, Nat.add_comm]
          rw [e3, List.map_append]
          exact List.prefix_append _ _
        · rw [h2 v hv, List.range_eq_range']
  · intro r0 r1 rs hs h0 h1
    have e : OTLambdaQuery peer count choices w = otLambdaQueryLoop peer choices count.toNat 0 0
        { script := rs, trace := w.trace ++ [.sendUint32 peer.conn count, .flush peer.conn],
          conns := w.conns } := by
      unfold OTLambdaQuery
      rw [step_ok _ _ _ r0 (r1 :: rs) hs h0, step_ok _ _ _ r1 rs rfl h1]
      simp
    rw [e]
    constructor
    · intro hl hg
      obtain ⟨v, e1, hv⟩ := otLambdaQueryLoop_ok peer choices count.toNat 0 0
        { script := rs, trace := w.trace ++ [.sendUint32 peer.conn count, .flush peer.conn],
          conns := w.conns } hl hg
      refine ⟨v, ?_, fun k => ?_⟩
      · rw [e1]
        simp [queryCalls, List.range_eq_range']
      · rw [hv k]
        simp
    · intro j r hj hg hr he hd
      exact otLambdaQueryLoop_bad peer choices count.toNat 0 0 _ j r hj hg hr he hd

theorem otLambdaQuery_spec_witness :
    ∃ v : Nat, OTLambdaQuery { id := 1, conn := 0, client := true } 2 2
        { script := [{ err := none, num := 0, data := [], data2 := [] },
            { err := none, num := 0, data := [], data2 := [] },
            { err := none, num := 0, data := [0], data2 := [] },
            { err := none, num := 0, data := [7], data2 := [] }], trace := [], conns := 1 } =
        (.ok (v : Int),
          { script := [], trace := [.sendUint32 0 2, .flush 0, .receive 0 0 0, .receive 0 1 1],
            conns := 1 }) ∧
      ∀ k, v.testBit k = delivered [{ err := none, num := 0, data := [0], data2 := [] },
        { err := none, num := 0, data := [7], data2 := [] }] k :=
  ((otLambdaQuery_spec { id := 1, conn := 0, client := true } 2 2
      { script := [{ err := none, num := 0, data := [], data2 := [] },
          { err := none, num := 0, data := [], data2 := [] },
          { err := none, num := 0, data := [0], data2 := [] },
          { err := none, num := 0, data := [7], data2 := [] }], trace := [], conns := 1 }).2
    _ _ _ rfl rfl rfl).1 (by decide) (by decide)

end P2P

/-! ### The transfers that a respond phase serves -/

namespace P2P

theorem step_inv {α : Type} (e : Event) (k : Reply → M α) (w : World) (a : α)
    (h : (step e k w).1 = .ok a) :
    ∃ r rs, w.script = r :: rs ∧ r.err = none ∧
      step e k w = k r { w with script := rs, trace := w.trace ++ [e] } := by
  obtain ⟨s, t, c⟩ := w
  cases s with
  | nil =>
    rw [step_exhausted _ _ _ rfl] at h
    exact absurd h (by simp)
  | cons r rs =>
    cases hr : r.err with
    | some code =>
      rw [step_err _ _ _ r rs code rfl hr] at h
      exact absurd h (by simp)
    | none => exact ⟨r, rs, rfl, hr, step_ok _ _ _ r rs rfl hr⟩

/-- A run of `serveTransfer` that returns a nil error has taken ten replies
and has made the calls of one transfer. -/
theorem serveTransfer_inv (peer : Peer) (m0 m1 : List Nat) (w : World) (a : Unit)
    (h : (serveTransfer peer m0 m1 w).1 = .ok a) :
    10 ≤ w.script.length ∧
    serveTransfer peer m0 m1 w =
      (.ok (), { script := w.script.drop 10
                 trace := w.trace ++ transferCalls peer.conn m0 m1 (w.script.take 10)
                 conns := w.conns }) := by
  unfold serveTransfer at h ⊢
  obtain ⟨r1, s1, e1, _, q1⟩ := step_inv _ _ _ _ h
  rw [q1] at h ⊢
  cases s1 with
  | nil =>
    rw [ask, call] at h
    simp only at h
    rw [step_exhausted _ _ _ rfl] at h
    exact absurd h (by simp)
  | cons r2 s2 =>
    rw [ask_ok _ _ _ r2 s2 rfl] at h ⊢
    obtain ⟨r3, s3, e3, _, q3⟩ := step_inv _ _ _ _ h
    rw [q3] at h ⊢
    obtain ⟨r4, s4, e4, _, q4⟩ := step_inv _ _ _ _ h
    rw [q4] at h ⊢
    obtain ⟨r5, s5, e5, _, q5⟩ := step_inv _ _ _ _ h
    rw [q5] at h ⊢
    obtain ⟨r6, s6, e6, _, q6⟩ := step_inv _ _ _ _ h
    rw [q6, tell] at h ⊢
    obtain ⟨r7, s7, e7, _, q7⟩ := step_inv _ _ _ _ h
    rw [q7] at h ⊢
    obtain ⟨r8, s8, e8, _, q8⟩ := step_inv _ _ _ _ h
    rw [q8] at h ⊢
    obtain ⟨r9, s9, e9, _, q9⟩ := step_inv _ _ _ _ h
    rw [q9] at h ⊢
    obtain ⟨r10, s10, e10, _, q10⟩ := step_inv _ _ _ _ h
    rw [q10]
    simp only [emit] at e3 e4 e5 e6 e7 e8 e9 e10 ⊢
    subst e3 e4 e5 e6 e7 e8 e9
    rw [e1, e10]
    exact ⟨by simp, by simp [transferCalls]⟩

theorem bind_inv {α β : Type} (m : M α) (f : α → M β) (w : World) (b : β)
    (h : (m.bind f w).1 = .ok b) : ∃ a, (m w).1 = .ok a ∧ m.bind f w = f a (m w).2 := by
  unfold M.bind at h ⊢
  cases hm : (m w).1 with
  | ok a => exact ⟨a, rfl, by simp only [hm]⟩
  | err e =>
    rw [hm] at h
    exact absurd h (by simp)
  | panic =>
    rw [hm] at h
    exact absurd h (by simp)

/-- A run of the loop of `OTLambdaRespond` that returns a nil error has served
`n` transfers, call by call. -/
theorem otLambdaRespondLoop_inv (peer : Peer) (x1 x2 : Int) (n : Nat) (w : World) (a : Unit)
    (h : (otLambdaRespondLoop peer x1 x2 n w).1 = .ok a) :
    11 * n ≤ w.script.length ∧
    otLambdaRespondLoop peer x1 x2 n w =
      (.ok (), { script := w.script.drop (11 * n)
                 trace := w.trace ++
                   servedCalls peer.conn (fun b => ([bigBit x1 b], [bigBit x2 b])) n w.script
                 conns := w.conns }) := by
  induction n generalizing w with
  | zero => exact ⟨Nat.zero_le _, by simp [otLambdaRespondLoop, servedCalls]⟩
  | succ n ih =>
    unfold otLambdaRespondLoop at h ⊢
    obtain ⟨r, rs, e1, _, q⟩ := step_inv _ _ _ _ h
    rw [q] at h ⊢
    obtain ⟨u, hu, qb⟩ := bind_inv _ _ _ _ h
    rw [qb] at h ⊢
    obtain ⟨hl, qs⟩ := serveTransfer_inv _ _ _ _ u hu
    rw [qs] at h ⊢
    obtain ⟨hl2, q2⟩ := ih _ h
    simp only [List.length_drop] at hl hl2
    rw [q2, e1]
    refine ⟨by simp only [List.length_cons]; omega, ?_⟩
    simp only [servedCalls, List.drop_drop, List.append_assoc, List.singleton_append]
    rw [show 11 * (n + 1) = (10 + 11 * n) + 1 by omega, List.drop_succ_cons]
    rfl

/-- A run of the loop of `OTRRespond` that returns a nil error has served `n`
transfers, call by call, and every index it read was inside `x1` and `x2`. -/
theorem otrRespondLoop_inv (peer : Peer) (x1 x2 : List Label) (n : Nat) (w : World) (a : Unit)
    (h : (otrRespondLoop peer x1 x2 n w).1 = .ok a) :
    11 * n ≤ w.script.length ∧
    (∀ b ∈ servedIndexes n w.script, b < x1.length ∧ b < x2.length) ∧
    otrRespondLoop peer x1 x2 n w =
      (.ok (), { script := w.script.drop (11 * n)
                 trace := w.trace ++
                   servedCalls peer.conn (fun b => (labelAt x1 b, labelAt x2 b)) n w.script
                 conns := w.conns }) := by
  induction n generalizing w with
  | zero => exact ⟨Nat.zero_le _, by simp [servedIndexes], by simp [otrRespondLoop, servedCalls]⟩
  | succ n ih =>
    unfold otrRespondLoop at h ⊢
    obtain ⟨r, rs, e1, _, q⟩ := step_inv _ _ _ _ h
    rw [q] at h ⊢
    cases h1 : x1[r.num]? with
    | none =>
      simp only [h1] at h
      exact absurd h (by simp)
    | some l1 =>
      cases h2 : x2[r.num]? with
      | none =>
        simp only [h1, h2] at h
        exact absurd h (by simp)
      | some l2 =>
        simp only [h1, h2] at h ⊢
        obtain ⟨u, hu, qb⟩ := bind_inv _ _ _ _ h
        rw [qb] at h ⊢
        obtain ⟨hl, qs⟩ := serveTransfer_inv _ _ _ _ u hu
        rw [qs] at h ⊢
        obtain ⟨hl2, hi2, q2⟩ := ih _ h
        simp only [List.length_drop] at hl hl2
        have b1 : r.num < x1.length := by
          by_contra hc
          rw [List.getElem?_eq_none (by omega)] at h1
          exact Option.noConfusion h1
        have b2 : r.num < x2.length := by
          by_contra hc
          rw [List.getElem?_eq_none (by omega)] at h2
          exact Option.noConfusion h2
        rw [q2, e1]
        refine ⟨by simp only [List.length_cons]; omega, ?_, ?_⟩
        · intro b hb
          simp only [servedIndexes, List.mem_cons] at hb
          rcases hb with hb | hb
          · subst hb
            exact ⟨b1, b2⟩
          · exact hi2 b hb
        · simp only [servedCalls, labelAt, h1, h2, List.drop_drop, List.append_assoc,
            List.singleton_append]
          rw [show 11 * (n + 1) = (10 + 11 * n) + 1 by omega, List.drop_succ_cons]
          rfl

end P2P

namespace P2P

theorem newTransferCalls_transferCalls (conn : Nat) (m0 m1 : List Nat) (rs : List Reply)
    (h : 10 ≤ rs.length) : newTransferCalls (transferCalls conn m0 m1 rs) = 1 := by
  rcases rs with _ | ⟨r1, _ | ⟨r2, _ | ⟨r3, _ | ⟨r4, _ | ⟨r5, _ | ⟨r6, _ | ⟨r7, rest⟩⟩⟩⟩⟩⟩⟩ <;>
    first
    | (simp at h; done)
    | (simp only [List.length_cons] at h; omega)
    | rfl

/-- With the replies for `n` transfers to come, the calls of `n` served
transfers hold `n` calls of `NewTransfer`. -/
theorem newTransferCalls_servedCalls (conn : Nat) (msgs : Nat → List Nat × List Nat) (n : Nat)
    (rs : List Reply) (h : 11 * n ≤ rs.length) :
    newTransferCalls (servedCalls conn msgs n rs) = n := by
  induction n generalizing rs with
  | zero => rfl
  | succ n ih =>
    cases rs with
    | nil => simp at h
    | cons b rs =>
      simp only [List.length_cons] at h
      have e : servedCalls conn msgs (n + 1) (b :: rs) =
          [.receiveUint32 conn] ++ (transferCalls conn (msgs b.num).1 (msgs b.num).2 (rs.take 10) ++
            servedCalls conn msgs n (rs.drop 10)) := rfl
      rw [e, newTransferCalls_append, newTransferCalls_append,
        newTransferCalls_transferCalls _ _ _ _ (by rw [List.length_take]; omega),
        ih _ (by rw [List.length_drop]; omega)]
      have e0 : newTransferCalls [Event.receiveUint32 conn] = 0 := rfl
      rw [e0]
      omega

/-- C14: let the first reply that `OTLambdaRespond` or `OTRRespond`
receives be a batch size `r.num`, received without error.  When it differs
from the local batch size (`count`, respectively `len(x1)`) the method returns
the protocol error, and the only call it has made is that `ReceiveUint32`: no
transfer is created and nothing is sent.  When it agrees, every run that
returns a nil error has served exactly that many transfers, one after the
other: for each it has read an index `b` with `ReceiveUint32`, called
`NewTransfer` with the messages of that index (the bits `b` of `x1` and `x2`,
respectively the labels `x1[b]` and `x2[b]`, with `b` inside both slices),
sent the two random messages and flushed, received `v` and passed it to
`ReceiveV`, and sent the two messages of `Messages` and flushed; it has made no
other call.  The method calls `NewTransfer` at most that many times in every
run, and it returns a nil error when the replies for that many transfers come
without error (for `OTRRespond`: with indexes inside `x1` and `x2`). -/
theorem respond_batch_size (peer : Peer) (w : World) (r : Reply) (rs : List Reply)
    (hs : w.script = r :: rs) (hr : r.err = none) :
    (∀ count x1 x2 : Int,
      ((r.num : Int) ≠ count →
        OTLambdaRespond peer count x1 x2 w =
          (.err (.protocol r.num count),
            { w with script := rs, trace := w.trace ++ [.receiveUint32 peer.conn] })) ∧
      ((r.num : Int) = count →
        newTransferCalls (OTLambdaRespond peer count x1 x2 w).2.trace ≤
          newTransferCalls w.trace + count.toNat ∧
        (∀ a, (OTLambdaRespond peer count x1 x2 w).1 = .ok a →
          newTransferCalls (OTLambdaRespond peer count x1 x2 w).2.trace =
            newTransferCalls w.trace + count.toNat) ∧
        ((∀ q ∈ rs, q.err = none) → 11 * count.toNat ≤ rs.length →
          (OTLambdaRespond peer count x1 x2 w).1 = .ok ()) ∧
        (∀ a, (OTLambdaRespond peer count x1 x2 w).1 = .ok a →
          11 * count.toNat ≤ rs.length ∧
          newTransferCalls (servedCalls peer.conn (fun b => ([bigBit x1 b], [bigBit x2 b]))
            count.toNat rs) = count.toNat ∧
          OTLambdaRespond peer count x1 x2 w =
            (.ok (), { script := rs.drop (11 * count.toNat)
                       trace := w.trace ++ .receiveUint32 peer.conn ::
                         servedCalls peer.conn (fun b => ([bigBit x1 b], [bigBit x2 b]))
                           count.toNat rs
                       conns := w.conns })))) ∧
    (∀ x1 x2 : List Label,
      (r.num ≠ x1.length →
        OTRRespond peer x1 x2 w =
          (.err (.protocol r.num x1.length),
            { w with script := rs, trace := w.trace ++ [.receiveUint32 peer.conn] })) ∧
      (r.num = x1.length →
        newTransferCalls (OTRRespond peer x1 x2 w).2.trace ≤
          newTransferCalls w.trace + x1.length ∧
        (∀ a, (OTRRespond peer x1 x2 w).1 = .ok a →
          newTransferCalls (OTRRespond peer x1 x2 w).2.trace =
            newTransferCalls w.trace + x1.length) ∧
        ((∀ q ∈ rs, q.err = none ∧ q.num < x1.length ∧ q.num < x2.length) →
          11 * x1.length ≤ rs.length → (OTRRespond peer x1 x2 w).1 = .ok ()) ∧
        (∀ a, (OTRRespond peer x1 x2 w).1 = .ok a →
          11 * x1.length ≤ rs.length ∧
          (∀ b ∈ servedIndexes x1.length rs, b < x1.length ∧ b < x2.length) ∧
          newTransferCalls (servedCalls peer.conn (fun b => (labelAt x1 b, labelAt x2 b))
            x1.length rs) = x1.length ∧
          OTRRespond peer x1 x2 w =
            (.ok (), { script := rs.drop (11 * x1.length)
                       trace := w.trace ++ .receiveUint32 peer.conn ::
                         servedCalls peer.conn (fun b => (labelAt x1 b, labelAt x2 b))
                           x1.length rs
                       conns := w.conns })))) := by
  have ht : newTransferCalls (w.trace ++ [Event.receiveUint32 peer.conn]) =
      newTransferCalls w.trace := by
    rw [newTransferCalls_append]
    rfl
  refine ⟨fun count x1 x2 => ⟨fun hne => ?_, fun he => ?_⟩,
    fun x1 x2 => ⟨fun hne => ?_, fun he => ?_⟩⟩
  · unfold OTLambdaRespond
    rw [step_ok _ _ _ r rs hs hr, if_pos hne]
  · have e : OTLambdaRespond peer count x1 x2 w = otLambdaRespondLoop peer x1 x2 count.toNat
        { w with script := rs, trace := w.trace ++ [.receiveUint32 peer.conn] } := by
      unfold OTLambdaRespond
      rw [step_ok _ _ _ r rs hs hr, if_neg (not_not.mpr he)]
    rw [e]
    obtain ⟨h1, h2⟩ := serves_otLambdaRespondLoop peer x1 x2 count.toNat
      { w with script := rs, trace := w.trace ++ [.receiveUint32 peer.conn] }
    simp only [ht] at h1 h2
    refine ⟨h1, h2, fun hq hl => otLambdaRespondLoop_ok _ _ _ _ _ hq hl, fun a ha => ?_⟩
    obtain ⟨hl, q⟩ := otLambdaRespondLoop_inv _ _ _ _ _ a ha
    refine ⟨hl, newTransferCalls_servedCalls _ _ _ _ hl, ?_⟩
    rw [q]
    simp only [List.append_assoc, List.singleton_append]
  · unfold OTRRespond
    rw [step_ok _ _ _ r rs hs hr, if_pos hne]
  · have e : OTRRespond peer x1 x2 w = otrRespondLoop peer x1 x2 x1.length
        { w with script := rs, trace := w.trace ++ [.receiveUint32 peer.conn] } := by
      unfold OTRRespond
      rw [step_ok _ _ _ r rs hs hr, if_neg (not_not.mpr he)]
    rw [e]
    obtain ⟨h1, h2⟩ := serves_otrRespondLoop peer x1 x2 x1.length
      { w with script := rs, trace := w.trace ++ [.receiveUint32 peer.conn] }
    simp only [ht] at h1 h2
    refine ⟨h1, h2, fun hq hl => otrRespondLoop_ok _ _ _ _ _ hq hl, fun a ha => ?_⟩
    obtain ⟨hl, hi, q⟩ := otrRespondLoop_inv _ _ _ _ _ a ha
    refine ⟨hl, hi, newTransferCalls_servedCalls _ _ _ _ hl, ?_⟩
    rw [q]
    simp only [List.append_assoc, List.singleton_append]

theorem respond_batch_size_witness :
    OTLambdaRespond { id := 1, conn := 0, client := false } 2 1 2
        { script := [{ err := none, num := 3, data := [], data2 := [] }], trace := [],
          conns := 1 } =
      (.err (.protocol 3 2), { script := [], trace := [.receiveUint32 0], conns := 1 }) ∧
    OTLambdaRespond { id := 1, conn := 0, client := false } 1 1 2
        { script := [{ err := none, num := 1, data := [], data2 := [] },
            { err := none, num := 0, data := [], data2 := [] },
            { err := none, num := 0, data := [], data2 := [] },
            { err := none, num := 0, data := [7], data2 := [8] },
            { err := none, num := 0, data := [], data2 := [] },
            { err := none, num := 0, data := [], data2 := [] },
            { err := none, num := 0, data := [], data2 := [] },
            { err := none, num := 0, data := [9], data2 := [] },
            { err := none, num := 0, data := [5], data2 := [6] },
            { err := none, num := 0, data := [], data2 := [] },
            { err := none, num := 0, data := [], data2 := [] },
            { err := none, num := 0, data := [], data2 := [] }],
          trace := [], conns := 1 } =
      (.ok (), { script := [],
                 trace := [.receiveUint32 0, .receiveUint32 0, .newTransfer [1] [0],
                   .randomMessages, .sendData 0 [7], .sendData 0 [8], .flush 0, .receiveData 0,
                   .receiveV [9], .messages, .sendData 0 [5], .sendData 0 [6], .flush 0],
                 conns := 1 }) :=
  have h2 := ((respond_batch_size { id := 1, conn := 0, client := false }
      { script := [{ err := none, num := 1, data := [], data2 := [] },
          { err := none, num := 0, data := [], data2 := [] },
          { err := none, num := 0, data := [], data2 := [] },
          { err := none, num := 0, data := [7], data2 := [8] },
          { err := none, num := 0, data := [], data2 := [] },
          { err := none, num := 0, data := [], data2 := [] },
          { err := none, num := 0, data := [], data2 := [] },
          { err := none, num := 0, data := [9], data2 := [] },
          { err := none, num := 0, data := [5], data2 := [6] },
          { err := none, num := 0, data := [], data2 := [] },
          { err := none, num := 0, data := [], data2 := [] },
          { err := none, num := 0, data := [], data2 := [] }],
        trace := [], conns := 1 } { err := none, num := 1, data := [], data2 := [] }
      [{ err := none, num := 0, data := [], data2 := [] },
        { err := none, num := 0, data := [], data2 := [] },
        { err := none, num := 0, data := [7], data2 := [8] },
        { err := none, num := 0, data := [], data2 := [] },
        { err := none, num := 0, data := [], data2 := [] },
        { err := none, num := 0, data := [], data2 := [] },
        { err := none, num := 0, data := [9], data2 := [] },
        { err := none, num := 0, data := [5], data2 := [6] },
        { err := none, num := 0, data := [], data2 := [] },
        { err := none, num := 0, data := [], data2 := [] },
        { err := none, num := 0, data := [], data2 := [] }] rfl rfl).1 1 1 2).2 rfl
  ⟨((respond_batch_size { id := 1, conn := 0, client := false }
      { script := [{ err := none, num := 3, data := [], data2 := [] }], trace := [],
        conns := 1 } { err := none, num := 3, data := [], data2 := [] } [] rfl rfl).1
      2 1 2).1 (by decide),
   ((h2.2.2.2 () (h2.2.2.1 (by decide) (by decide))).2.2).trans (by decide)⟩

end P2P

/-! ## The lexer -/

namespace Lex

/-- The point after a rune was read at a point. -/
theorem readRune_cases (l : Lexer) :
    (l.unread = true ∧ l.ReadRune = (.ok l.unreadRune,
      { l with point := l.unreadPoint, unreadPoint := l.point, unread := false })) ∨
    (l.unread = false ∧ l.input = [] ∧ l.ReadRune = (.error .eof, l)) ∨
    (l.unread = false ∧ ∃ c cs, l.input = c :: cs ∧ l.ReadRune = (.ok c,
      { l with input := cs, unreadPoint := l.point,
               point := if c = '\n' then { Line := wrapInt (l.point.Line + 1), Col := 0 }
                 else { Line := l.point.Line, Col := wrapInt (l.point.Col + 1) } })) := by
  unfold Lexer.ReadRune
  by_cases hu : l.unread = true
  · left
    simp [hu]
  · right
    have hf : l.unread = false := by simpa using hu
    cases hi : l.input with
    | nil =>
      left
      simp [hf]
    | cons c cs =>
      right
      refine ⟨hf, c, cs, rfl, ?_⟩
      by_cases hc : c = '\n' <;> simp [hf, hc]

theorem readRune_ok (l : Lexer) (r : Char) (h : l.ReadRune.1 = .ok r) :
    l.ReadRune.2.pending + 1 = l.pending ∧ l.ReadRune.2.unread = false ∧
      l.ReadRune.2.ungot = l.ungot ∧ l.ReadRune.2.tokenStart = l.tokenStart := by
  rcases readRune_cases l with ⟨hu, e⟩ | ⟨hu, hi, e⟩ | ⟨hu, c, cs, hi, e⟩
  · rw [e]
    simp [Lexer.pending, hu]
    omega
  · rw [e] at h
    simp at h
  · rw [e]
    simp [Lexer.pending, hu, hi]

theorem readRune_error (l : Lexer) (e : LexError) (h : l.ReadRune.1 = .error e) :
    l.ReadRune.2 = l ∧ e = .eof ∧ l.pending = 0 := by
  rcases readRune_cases l with ⟨hu, e1⟩ | ⟨hu, hi, e1⟩ | ⟨hu, c, cs, hi, e1⟩
  · rw [e1] at h
    simp at h
  · rw [e1] at h ⊢
    simp only [Except.error.injEq] at h
    simp [Lexer.pending, hu, hi, h]
  · rw [e1] at h
    simp at h

/-- Pushing back the rune just read and reading again gives the same rune and
the state after the first read, with the rune recorded in `unreadRune`. -/
theorem readRune_unreadRune (l : Lexer) (r : Char) (h : l.ReadRune.1 = .ok r) :
    (l.ReadRune.2.UnreadRune r).ReadRune = (.ok r, { l.ReadRune.2 with unreadRune := r }) := by
  rcases readRune_cases l with ⟨hu, e⟩ | ⟨hu, hi, e⟩ | ⟨hu, c, cs, hi, e⟩
  · rw [e] at h ⊢
    simp [Lexer.UnreadRune, Lexer.ReadRune]
  · rw [e] at h
    simp at h
  · rw [e] at h ⊢
    simp [Lexer.UnreadRune, Lexer.ReadRune, hu]

theorem unreadRune_point (l : Lexer) (r : Char) (h : l.ReadRune.1 = .ok r) :
    (l.ReadRune.2.UnreadRune r).point = l.point ∧
      (l.ReadRune.2.UnreadRune r).input = l.ReadRune.2.input := by
  rcases readRune_cases l with ⟨hu, e⟩ | ⟨hu, hi, e⟩ | ⟨hu, c, cs, hi, e⟩
  · rw [e]
    simp [Lexer.UnreadRune]
  · rw [e] at h
    simp at h
  · rw [e]
    simp [Lexer.UnreadRune]

/-- C27: pushing back one rune is exact.  After a `ReadRune` that returned `r`,
`UnreadRune(r)` sets `point` back to its value before the read and takes
nothing from the input; the next `ReadRune` returns `r` again, takes nothing
from the input either, and leaves `point` at its value after the first read
(the whole state is the one after the first read, with `r` in `unreadRune`). -/
theorem unreadRune_exact (l : Lexer) (r : Char) (h : l.ReadRune.1 = .ok r) :
    (l.ReadRune.2.UnreadRune r).point = l.point ∧
    (l.ReadRune.2.UnreadRune r).input = l.ReadRune.2.input ∧
    (l.ReadRune.2.UnreadRune r).ReadRune.1 = .ok r ∧
    (l.ReadRune.2.UnreadRune r).ReadRune.2.input = l.ReadRune.2.input ∧
    (l.ReadRune.2.UnreadRune r).ReadRune.2.point = l.ReadRune.2.point ∧
    (l.ReadRune.2.UnreadRune r).ReadRune.2 = { l.ReadRune.2 with unreadRune := r } := by
  have h1 := readRune_unreadRune l r h
  have h2 := unreadRune_point l r h
  rw [h1]
  exact ⟨h2.1, h2.2, rfl, rfl, rfl, rfl⟩

theorem unreadRune_exact_witness :
    ((NewLexer "a\nb".toList).ReadRune.2.ReadRune.2.UnreadRune '\n').point =
        { Line := 1, Col := 1 } ∧
    ((NewLexer "a\nb".toList).ReadRune.2.ReadRune.2.UnreadRune '\n').ReadRune.1 = .ok '\n' ∧
    ((NewLexer "a\nb".toList).ReadRune.2.ReadRune.2.UnreadRune '\n').ReadRune.2.input =
        "b".toList ∧
    ((NewLexer "a\nb".toList).ReadRune.2.ReadRune.2.UnreadRune '\n').ReadRune.2.point =
        { Line := 2, Col := 0 } := by
  obtain ⟨h1, _, h3, h4, h5, _⟩ :=
    unreadRune_exact (NewLexer "a\nb".toList).ReadRune.2 '\n' (by decide)
  exact ⟨h1.trans (by decide), h3, h4.trans (by decide), h5.trans (by decide)⟩

/-! ### Operators and comments in `Get` -/

theorem skipComment_pending (n : Nat) (l : Lexer) :
    (skipComment n l).2.pending ≤ l.pending ∧ (skipComment n l).2.ungot = l.ungot := by
  induction n generalizing l with
  | zero => exact ⟨Nat.le_refl _, rfl⟩
  | succ n ih =>
    unfold skipComment
    cases h : l.ReadRune.1 with
    | error e =>
      simp only
      rw [(readRune_error l e h).1]
      exact ⟨Nat.le_refl _, rfl⟩
    | ok r =>
      obtain ⟨h1, _, h3, _⟩ := readRune_ok l r h
      simp only
      split
      · exact ⟨by simp only; omega, h3⟩
      · obtain ⟨i1, i2⟩ := ih l.ReadRune.2
        exact ⟨by omega, i2.trans h3⟩

theorem slash_congr (l1 : Lexer) (f g : Lexer → Except LexError Lex.Token × Lexer)
    (h : ∀ l, l.pending ≤ l1.pending → f l = g l) : slash l1 f = slash l1 g := by
  unfold slash
  cases h2 : l1.ReadRune.1 with
  | error e => cases e <;> rfl
  | ok r2 =>
    obtain ⟨h3, _, _, _⟩ := readRune_ok _ r2 h2
    have h4 := (skipComment_pending (l1.ReadRune.2.input.length + 1) l1.ReadRune.2).1
    simp only
    rw [h _ (by omega)]

/-- The body of the loop gives the same result for two continuations that
agree on the states with no more runes to read. -/
theorem getBody_congr (lib : Lib) (r : Char) (l1 : Lexer)
    (f g : Lexer → Except LexError Lex.Token × Lexer)
    (h : ∀ l, l.pending ≤ l1.pending → f l = g l) :
    getBody lib r l1 f = getBody lib r l1 g := by
  unfold getBody
  rw [slash_congr l1 f g h, h l1 (Nat.le_refl _)]

/-- With enough rounds the outer loop of `Get` does not depend on their
number. -/
theorem getLoop_fuel (lib : Lib) (n m : Nat) (l : Lexer) (hn : l.pending < n)
    (hm : l.pending < m) : getLoop lib n l = getLoop lib m l := by
  induction n generalizing m l with
  | zero => omega
  | succ n ih =>
    cases m with
    | zero => omega
    | succ m =>
      have hp : ({ l with tokenStart := l.point } : Lexer).pending = l.pending := rfl
      rw [getLoop, getLoop]
      cases h : ({ l with tokenStart := l.point } : Lexer).ReadRune.1 with
      | error e => rfl
      | ok r =>
        obtain ⟨h1, _, _, _⟩ := readRune_ok _ r h
        rw [hp] at h1
        exact getBody_congr lib r _ _ _ fun l2 hl2 => ih _ _ (by omega) (by omega)

/-- The comment loop on an input with a newline: the runes up to and including
the first newline are taken. -/
theorem skipComment_newline (n : Nat) (l : Lexer) (pre rest : List Char)
    (hu : l.unread = false) (hi : l.input = pre ++ '\n' :: rest) (hp : '\n' ∉ pre)
    (hn : pre.length < n) :
    (skipComment n l).1 = none ∧ (skipComment n l).2.input = rest ∧
      (skipComment n l).2.unread = false := by
  induction pre generalizing n l with
  | nil =>
    cases n with
    | zero => simp at hn
    | succ n =>
      rcases readRune_cases l with ⟨hu1, _⟩ | ⟨_, hi1, _⟩ | ⟨_, c, cs, hi1, e⟩
      · rw [hu] at hu1
        exact Bool.noConfusion hu1
      · rw [hi] at hi1
        simp at hi1
      · rw [hi] at hi1
        simp only [List.nil_append, List.cons.injEq] at hi1
        obtain ⟨rfl, rfl⟩ := hi1
        unfold skipComment
        rw [e]
        simp [hu]
  | cons a pre ih =>
    cases n with
    | zero => simp at hn
    | succ n =>
      rcases readRune_cases l with ⟨hu1, _⟩ | ⟨_, hi1, _⟩ | ⟨_, c, cs, hi1, e⟩
      · rw [hu] at hu1
        exact Bool.noConfusion hu1
      · rw [hi] at hi1
        simp at hi1
      · rw [hi] at hi1
        simp only [List.cons_append, List.cons.injEq] at hi1
        obtain ⟨rfl, rfl⟩ := hi1
        have ha : a ≠ '\n' := fun e1 => hp (by simp [e1])
        unfold skipComment
        rw [e]
        simp only [ha, if_false]
        exact ih n _ hu rfl (fun e1 => hp (by simp [e1])) (by simpa using hn)

/-- The comment loop on an input without a newline: all runes are taken and
the error is `io.EOF`. -/
theorem skipComment_eof (n : Nat) (l : Lexer) (hu : l.unread = false) (hp : '\n' ∉ l.input)
    (hn : l.input.length < n) :
    (skipComment n l).1 = some .eof ∧ (skipComment n l).2.input = [] := by
  induction n generalizing l with
  | zero => omega
  | succ n ih =>
    rcases readRune_cases l with ⟨hu1, _⟩ | ⟨_, hi1, e⟩ | ⟨_, c, cs, hi1, e⟩
    · rw [hu] at hu1
      exact Bool.noConfusion hu1
    · unfold skipComment
      rw [e]
      exact ⟨rfl, hi1⟩
    · have hc : c ≠ '\n' := fun e1 => hp (by simp [hi1, e1])
      unfold skipComment
      rw [e]
      simp only [hc, if_false]
      exact ih _ hu (fun e1 => hp (by simp [hi1, e1])) (by simp [hi1] at hn; simpa using hn)

theorem get_eq (lib : Lib) (l l1 : Lexer) (op : Char) (hu : l.ungot = none)
    (h1 : ({ l with tokenStart := l.point } : Lexer).ReadRune = (.ok op, l1)) :
    l.Get lib = getBody lib op l1 (getLoop lib (l.input.length + 1)) := by
  unfold Lexer.Get
  rw [hu]
  simp only
  rw [getLoop, h1]

theorem operator_two (l1 l2 : Lexer) (one : TokenType) (two : List (Char × TokenType))
    (r : Char) (p : Char × TokenType) (h2 : l1.ReadRune = (.ok r, l2))
    (hf : two.find? (fun p => p.1 = r) = some p) :
    operator l1 one two = (.ok (l2.Token p.2), l2) := by
  unfold operator
  rw [h2]
  simp only [hf]

theorem operator_one (l1 l2 : Lexer) (one : TokenType) (two : List (Char × TokenType))
    (r : Char) (h2 : l1.ReadRune = (.ok r, l2))
    (hf : two.find? (fun p => p.1 = r) = none) :
    operator l1 one two = (.ok ((l2.UnreadRune r).Token one), l2.UnreadRune r) := by
  unfold operator
  rw [h2]
  simp only [hf]

theorem operator_eof (l1 l2 : Lexer) (one : TokenType) (two : List (Char × TokenType))
    (h2 : l1.ReadRune = (.error .eof, l2)) :
    operator l1 one two = (.ok (l2.Token one), l2) := by
  unfold operator
  rw [h2]

/-- The operator cases of `Get` when the operator is the first rune that `Get`
reads. -/
theorem get_operator_first (lib : Lib) (l l1 l2 : Lexer) (op : Char) (x : Except LexError Char)
    (hu : l.ungot = none)
    (h1 : ({ l with tokenStart := l.point } : Lexer).ReadRune = (.ok op, l1))
    (h2 : l1.ReadRune = (x, l2)) :
    (op = '+' →
      (x = .ok '+' → l.Get lib = (.ok (l2.Token .T_PlusPlus), l2)) ∧
      (x = .ok '=' → l.Get lib = (.ok (l2.Token .T_PlusEq), l2)) ∧
      (x = .error .eof → l.Get lib = (.ok (l2.Token .T_Plus), l2)) ∧
      (∀ r, x = .ok r → r ≠ '+' → r ≠ '=' →
        l.Get lib = (.ok ((l2.UnreadRune r).Token .T_Plus), l2.UnreadRune r))) ∧
    (op = '-' →
      (x = .ok '-' → l.Get lib = (.ok (l2.Token .T_MinusMinus), l2)) ∧
      (x = .ok '=' → l.Get lib = (.ok (l2.Token .T_MinusEq), l2)) ∧
      (x = .error .eof → l.Get lib = (.ok (l2.Token .T_Minus), l2)) ∧
      (∀ r, x = .ok r → r ≠ '-' → r ≠ '=' →
        l.Get lib = (.ok ((l2.UnreadRune r).Token .T_Minus), l2.UnreadRune r))) ∧
    (op = '*' →
      (x = .ok '=' → l.Get lib = (.ok (l2.Token .T_MultEq), l2)) ∧
      (x = .error .eof → l.Get lib = (.ok (l2.Token .T_Mult), l2)) ∧
      (∀ r, x = .ok r → r ≠ '=' →
        l.Get lib = (.ok ((l2.UnreadRune r).Token .T_Mult), l2.UnreadRune r))) ∧
    (op = '/' →
      (x = .ok '=' → l.Get lib = (.ok (l2.Token .T_DivEq), l2)) ∧
      (x = .error .eof → l.Get lib = (.ok (l2.Token .T_Div), l2)) ∧
      (∀ r, x = .ok r → r ≠ '/' → r ≠ '=' →
        l.Get lib = (.ok ((l2.UnreadRune r).Token .T_Div), l2.UnreadRune r)) ∧
      (x = .ok '/' →
        (∀ e l3, skipComment (l2.input.length + 1) l2 = (some e, l3) →
          l.Get lib = (.error e, l3)) ∧
        (∀ l3, skipComment (l2.input.length + 1) l2 = (none, l3) → l.Get lib = l3.Get lib) ∧
        (∀ pre rest, l2.input = pre ++ '\n' :: rest → '\n' ∉ pre →
          ∃ l3, skipComment (l2.input.length + 1) l2 = (none, l3) ∧ l3.input = rest ∧
            l3.unread = false) ∧
        ('\n' ∉ l2.input →
          ∃ l3, skipComment (l2.input.length + 1) l2 = (some .eof, l3) ∧ l3.input = []))) ∧
    (∀ t, (l2.Token t).Typ = t ∧ (l2.Token t).From = l.point ∧ (l2.Token t).To = l2.point) ∧
    (∀ r t, x = .ok r →
      ((l2.UnreadRune r).Token t).Typ = t ∧ ((l2.UnreadRune r).Token t).From = l.point ∧
      ((l2.UnreadRune r).Token t).To = l1.point ∧ (l2.UnreadRune r).point = l1.point ∧
      (l2.UnreadRune r).input = l2.input ∧
      (l2.UnreadRune r).ReadRune = (.ok r, { l2 with unreadRune := r })) := by
  have hg := get_eq lib l l1 op hu h1
  have e1 : ({ l with tokenStart := l.point } : Lexer).ReadRune.1 = .ok op := by rw [h1]
  have e12 : ({ l with tokenStart := l.point } : Lexer).ReadRune.2 = l1 := by rw [h1]
  obtain ⟨p1, u1, g1, t1⟩ := readRune_ok _ op e1
  rw [e12] at p1 u1 g1 t1
  have hl2 : l1.ReadRune.2 = l2 := by rw [h2]
  have hx : l1.ReadRune.1 = x := by rw [h2]
  have hts : l2.tokenStart = l.point := by
    cases x with
    | error e => rw [← hl2, (readRune_error l1 e hx).1, t1]
    | ok r => rw [← hl2, (readRune_ok l1 r hx).2.2.2, t1]
  refine ⟨?_, ?_, ?_, ?_, ?_, ?_⟩
  · rintro rfl
    have hb : getBody lib '+' l1 (getLoop lib (l.input.length + 1)) =
        operator l1 .T_Plus [('+', .T_PlusPlus), ('=', .T_PlusEq)] := by
      unfold getBody
      rw [if_neg (by decide), if_pos rfl]
    rw [hg, hb]
    refine ⟨?_, ?_, ?_, ?_⟩
    · rintro rfl
      exact operator_two _ _ _ _ _ ('+', .T_PlusPlus) h2 (by decide)
    · rintro rfl
      exact operator_two _ _ _ _ _ ('=', .T_PlusEq) h2 (by decide)
    · rintro rfl
      exact operator_eof _ _ _ _ h2
    · rintro r rfl hr1 hr2
      exact operator_one _ _ _ _ _ h2 (by simp [List.find?_cons, Ne.symm hr1, Ne.symm hr2])
  · rintro rfl
    have hb : getBody lib '-' l1 (getLoop lib (l.input.length + 1)) =
        operator l1 .T_Minus [('-', .T_MinusMinus), ('=', .T_MinusEq)] := by
      unfold getBody
      rw [if_neg (by decide), if_neg (by decide), if_pos rfl]
    rw [hg, hb]
    refine ⟨?_, ?_, ?_, ?_⟩
    · rintro rfl
      exact operator_two _ _ _ _ _ ('-', .T_MinusMinus) h2 (by decide)
    · rintro rfl
      exact operator_two _ _ _ _ _ ('=', .T_MinusEq) h2 (by decide)
    · rintro rfl
      exact operator_eof _ _ _ _ h2
    · rintro r rfl hr1 hr2
      exact operator_one _ _ _ _ _ h2 (by simp [List.find?_cons, Ne.symm hr1, Ne.symm hr2])
  · rintro rfl
    have hb : getBody lib '*' l1 (getLoop lib (l.input.length + 1)) =
        operator l1 .T_Mult [('=', .T_MultEq)] := by
      unfold getBody
      rw [if_neg (by decide), if_neg (by decide), if_neg (by decide), if_pos rfl]
    rw [hg, hb]
    refine ⟨?_, ?_, ?_⟩
    · rintro rfl
      exact operator_two _ _ _ _ _ ('=', .T_MultEq) h2 (by decide)
    · rintro rfl
      exact operator_eof _ _ _ _ h2
    · rintro r rfl hr1
      exact operator_one _ _ _ _ _ h2 (by simp [List.find?_cons, Ne.symm hr1])
  · rintro rfl
    have hb : getBody lib '/' l1 (getLoop lib (l.input.length + 1)) =
        slash l1 (getLoop lib (l.input.length + 1)) := by
      unfold getBody
      rw [if_neg (by decide), if_neg (by decide), if_neg (by decide), if_neg (by decide),
        if_pos rfl]
    rw [hg, hb]
    refine ⟨?_, ?_, ?_, ?_⟩
    · rintro rfl
      unfold slash
      rw [h2]
      simp
    · rintro rfl
      unfold slash
      rw [h2]
    · rintro r rfl hr1 hr2
      unfold slash
      rw [h2]
      simp only
      rw [if_neg hr1, if_neg hr2]
    · rintro rfl
      obtain ⟨p2, u2, g2, _⟩ := readRune_ok _ '/' hx
      rw [hl2] at p2 u2 g2
      have hs : slash l1 (getLoop lib (l.input.length + 1)) =
          match (skipComment (l2.input.length + 1) l2).1 with
          | some err => (.error err, (skipComment (l2.input.length + 1) l2).2)
          | none => getLoop lib (l.input.length + 1) (skipComment (l2.input.length + 1) l2).2 := by
        unfold slash
        rw [h2]
        simp only [if_true]
      rw [hs]
      have hpl : l.pending ≤ l.input.length + 1 := by
        unfold Lexer.pending
        split <;> omega
      have hp0 : ({ l with tokenStart := l.point } : Lexer).pending = l.pending := rfl
      refine ⟨?_, ?_, ?_, ?_⟩
      · intro e l3 h3
        rw [h3]
      · intro l3 h3
        obtain ⟨q1, q2⟩ := skipComment_pending (l2.input.length + 1) l2
        rw [h3] at q1 q2 ⊢
        simp only at q1 q2 ⊢
        have hu3 : l3.ungot = none := by
          rw [q2, g2, g1]
          exact hu
        have hp3 : l3.pending ≤ l3.input.length + 1 := by
          unfold Lexer.pending
          split <;> omega
        unfold Lexer.Get
        rw [hu3]
        simp only
        exact getLoop_fuel lib _ _ l3 (by omega) (by omega)
      · intro pre rest hi hp
        obtain ⟨s1, s2, s3⟩ := skipComment_newline (l2.input.length + 1) l2 pre rest u2 hi hp
          (by rw [hi]; simp; omega)
        exact ⟨(skipComment (l2.input.length + 1) l2).2, by rw [← s1], s2, s3⟩
      · intro hp
        obtain ⟨s1, s2⟩ := skipComment_eof (l2.input.length + 1) l2 u2 hp (by omega)
        exact ⟨(skipComment (l2.input.length + 1) l2).2, by rw [← s1], s2⟩
  · intro t
    exact ⟨rfl, hts, rfl⟩
  · rintro r t rfl
    have h3 := readRune_unreadRune l1 r hx
    have h4 := unreadRune_point l1 r hx
    rw [hl2] at h3 h4
    exact ⟨rfl, hts, h4.1, h4.1, h4.2, h3⟩

theorem readRune_tokenStart (l : Lexer) (p : Point) :
    ({ l with tokenStart := p } : Lexer).ReadRune =
      (l.ReadRune.1, { l.ReadRune.2 with tokenStart := p }) := by
  rcases readRune_cases l with ⟨hu, e⟩ | ⟨hu, hi, e⟩ | ⟨hu, c, cs, hi, e⟩
  · rw [e]
    simp [Lexer.ReadRune, hu]
  · rw [e]
    simp [Lexer.ReadRune, hu, hi]
  · rw [e]
    by_cases hc : c = '\n' <;> simp [Lexer.ReadRune, hu, hi, hc]

theorem skipSpace_ungot (n : Nat) (l : Lexer) : (skipSpace n l).ungot = l.ungot := by
  induction n generalizing l with
  | zero => rfl
  | succ n ih =>
    unfold skipSpace
    cases h : ({ l with tokenStart := l.point } : Lexer).ReadRune.1 with
    | error e => rfl
    | ok r =>
      simp only
      split
      · rw [ih, (readRune_ok _ r h).2.2.1]
      · rfl

/-- The white space in front of a token plays no part in the result of
`Get`. -/
theorem get_skipSpace (lib : Lib) (n : Nat) (l : Lexer) (hu : l.ungot = none) :
    l.Get lib = (skipSpace n l).Get lib := by
  induction n generalizing l with
  | zero => rfl
  | succ n ih =>
    unfold skipSpace
    cases h : ({ l with tokenStart := l.point } : Lexer).ReadRune.1 with
    | error e => rfl
    | ok r =>
      simp only
      split
      · next hsp =>
        obtain ⟨h1, _, h3, _⟩ := readRune_ok _ r h
        have hp : ({ l with tokenStart := l.point } : Lexer).pending = l.pending := rfl
        have hl : l.pending ≤ l.input.length + 1 := by
          unfold Lexer.pending
          split <;> omega
        have hl1 : ({ l with tokenStart := l.point } : Lexer).ReadRune.2.pending ≤
            ({ l with tokenStart := l.point } : Lexer).ReadRune.2.input.length + 1 := by
          unfold Lexer.pending
          split <;> omega
        have hu1 : ({ l with tokenStart := l.point } : Lexer).ReadRune.2.ungot = none :=
          h3.trans hu
        rw [← ih _ hu1]
        have e1 : l.Get lib = getLoop lib (l.input.length + 1)
            ({ l with tokenStart := l.point } : Lexer).ReadRune.2 := by
          rw [get_eq lib l _ r hu (Prod.ext h rfl)]
          unfold getBody
          rw [if_pos hsp]
        have e2 : ({ l with tokenStart := l.point } : Lexer).ReadRune.2.Get lib =
            getLoop lib (({ l with tokenStart := l.point } : Lexer).ReadRune.2.input.length + 2)
              ({ l with tokenStart := l.point } : Lexer).ReadRune.2 := by
          unfold Lexer.Get
          rw [hu1]
        rw [e1, e2]
        exact getLoop_fuel lib _ _ _ (by omega) (by omega)
      · rfl

/-- White space at the start of the input is skipped rune by rune. -/
theorem skipSpace_input (ws rest : List Char) (l : Lexer) (hu : l.unread = false)
    (hi : l.input = ws ++ rest) (hw : ∀ c ∈ ws, IsSpace c = true) :
    (skipSpace ws.length l).input = rest ∧ (skipSpace ws.length l).unread = false := by
  induction ws generalizing l with
  | nil => exact ⟨hi, hu⟩
  | cons c ws ih =>
    rcases readRune_cases l with ⟨hu1, _⟩ | ⟨_, hi1, _⟩ | ⟨_, c2, cs, hi1, e⟩
    · rw [hu] at hu1
      exact Bool.noConfusion hu1
    · rw [hi] at hi1
      simp at hi1
    · rw [hi] at hi1
      simp only [List.cons_append, List.cons.injEq] at hi1
      obtain ⟨rfl, rfl⟩ := hi1
      have hc : IsSpace c = true := hw c (by simp)
      simp only [List.length_cons]
      unfold skipSpace
      rw [readRune_tokenStart, e]
      simp only [hc, if_true]
      exact ih _ hu rfl (fun d hd => hw d (by simp [hd]))

/-- C26 (amended): `Get` is maximal-munch on operators.  Let `Get`, after the
white space that it skips, read the operator `op`, leaving the state `l1`, and
let the next read give `x` and the state `l2`.  A second rune that completes a
two-character operator gives that token (`++`, `+=`, `--`, `-=`, `*=`, `/=`);
the end of the input gives the one-character token; any other second rune
gives the one-character token and is not consumed: it is pushed back, the
token ends before it, and the next `Get` starts at it, that is, it reads this
rune first, with its token starting at the point where the rune stands; except
that `/` followed by `/` gives no token: the runes up to and including the
next newline are skipped and `Get` goes on after them, or returns `io.EOF`
when there is no newline. -/
theorem get_operator (lib : Lib) (n : Nat) (l l1 l2 : Lexer) (op : Char)
    (x : Except LexError Char) (hu : l.ungot = none)
    (h1 : ({ skipSpace n l with tokenStart := (skipSpace n l).point } : Lexer).ReadRune =
      (.ok op, l1))
    (h2 : l1.ReadRune = (x, l2)) :
    (op = '+' →
      (x = .ok '+' → l.Get lib = (.ok (l2.Token .T_PlusPlus), l2)) ∧
      (x = .ok '=' → l.Get lib = (.ok (l2.Token .T_PlusEq), l2)) ∧
      (x = .error .eof → l.Get lib = (.ok (l2.Token .T_Plus), l2)) ∧
      (∀ r, x = .ok r → r ≠ '+' → r ≠ '=' →
        l.Get lib = (.ok ((l2.UnreadRune r).Token .T_Plus), l2.UnreadRune r))) ∧
    (op = '-' →
      (x = .ok '-' → l.Get lib = (.ok (l2.Token .T_MinusMinus), l2)) ∧
      (x = .ok '=' → l.Get lib = (.ok (l2.Token .T_MinusEq), l2)) ∧
      (x = .error .eof → l.Get lib = (.ok (l2.Token .T_Minus), l2)) ∧
      (∀ r, x = .ok r → r ≠ '-' → r ≠ '=' →
        l.Get lib = (.ok ((l2.UnreadRune r).Token .T_Minus), l2.UnreadRune r))) ∧
    (op = '*' →
      (x = .ok '=' → l.Get lib = (.ok (l2.Token .T_MultEq), l2)) ∧
      (x = .error .eof → l.Get lib = (.ok (l2.Token .T_Mult), l2)) ∧
      (∀ r, x = .ok r → r ≠ '=' →
        l.Get lib = (.ok ((l2.UnreadRune r).Token .T_Mult), l2.UnreadRune r))) ∧
    (op = '/' →
      (x = .ok '=' → l.Get lib = (.ok (l2.Token .T_DivEq), l2)) ∧
      (x = .error .eof → l.Get lib = (.ok (l2.Token .T_Div), l2)) ∧
      (∀ r, x = .ok r → r ≠ '/' → r ≠ '=' →
        l.Get lib = (.ok ((l2.UnreadRune r).Token .T_Div), l2.UnreadRune r)) ∧
      (x = .ok '/' →
        (∀ e l3, skipComment (l2.input.length + 1) l2 = (some e, l3) →
          l.Get lib = (.error e, l3)) ∧
        (∀ l3, skipComment (l2.input.length + 1) l2 = (none, l3) → l.Get lib = l3.Get lib) ∧
        (∀ pre rest, l2.input = pre ++ '\n' :: rest → '\n' ∉ pre →
          ∃ l3, skipComment (l2.input.length + 1) l2 = (none, l3) ∧ l3.input = rest ∧
            l3.unread = false) ∧
        ('\n' ∉ l2.input →
          ∃ l3, skipComment (l2.input.length + 1) l2 = (some .eof, l3) ∧ l3.input = []))) ∧
    (∀ t, (l2.Token t).Typ = t ∧ (l2.Token t).From = (skipSpace n l).point ∧
      (l2.Token t).To = l2.point) ∧
    (∀ r t, x = .ok r →
      ((l2.UnreadRune r).Token t).Typ = t ∧
      ((l2.UnreadRune r).Token t).From = (skipSpace n l).point ∧
      ((l2.UnreadRune r).Token t).To = l1.point ∧ (l2.UnreadRune r).point = l1.point ∧
      (l2.UnreadRune r).input = l2.input ∧
      (l2.UnreadRune r).ReadRune = (.ok r, { l2 with unreadRune := r })) ∧
    (∀ r, x = .ok r →
      (l2.UnreadRune r).ungot = none ∧
      ({ l2.UnreadRune r with tokenStart := (l2.UnreadRune r).point } : Lexer).ReadRune =
        (.ok r, { l2 with unreadRune := r, tokenStart := l1.point }) ∧
      (l2.UnreadRune r).Get lib =
        getBody lib r { l2 with unreadRune := r, tokenStart := l1.point }
          (getLoop lib ((l2.UnreadRune r).input.length + 1))) ∧
    (∀ ws rest, l.unread = false → l.input = ws ++ rest → (∀ c ∈ ws, IsSpace c = true) →
      (skipSpace ws.length l).input = rest ∧ (skipSpace ws.length l).unread = false) := by
  have hus : (skipSpace n l).ungot = none := (skipSpace_ungot n l).trans hu
  obtain ⟨c1, c2, c3, c4, c5, c6⟩ := get_operator_first lib (skipSpace n l) l1 l2 op x hus h1 h2
  rw [get_skipSpace lib n l hu]
  refine ⟨c1, c2, c3, c4, c5, c6, ?_, fun ws rest hur hi hw => skipSpace_input ws rest l hur hi hw⟩
  rintro r rfl
  obtain ⟨_, _, _, hpt, _, hrr⟩ := c6 r .T_Plus rfl
  have e1 : ({ skipSpace n l with tokenStart := (skipSpace n l).point } : Lexer).ReadRune.1 =
      .ok op := by rw [h1]
  have e12 : ({ skipSpace n l with tokenStart := (skipSpace n l).point } : Lexer).ReadRune.2 =
      l1 := by rw [h1]
  have g1 := (readRune_ok _ op e1).2.2.1
  rw [e12] at g1
  have hx : l1.ReadRune.1 = .ok r := by rw [h2]
  have hl2 : l1.ReadRune.2 = l2 := by rw [h2]
  have g2 := (readRune_ok l1 r hx).2.2.1
  rw [hl2] at g2
  have hug : (l2.UnreadRune r).ungot = none := by
    show l2.ungot = none
    rw [g2, g1]
    exact hus
  have hread : ({ l2.UnreadRune r with tokenStart := (l2.UnreadRune r).point } : Lexer).ReadRune =
      (.ok r, { l2 with unreadRune := r, tokenStart := l1.point }) := by
    rw [readRune_tokenStart, hrr, hpt]
  exact ⟨hug, hread, get_eq lib _ _ r hug hread⟩

theorem get_operator_witness :
    (NewLexer " +-".toList).Get asciiLib =
      (.ok { Typ := .T_Plus, From := { Line := 1, Col := 1 }, To := { Line := 1, Col := 2 },
             StrVal := [], TypeInfo := { Typ := 0, Bits := 0 } },
        { input := [], point := { Line := 1, Col := 2 },
          tokenStart := { Line := 1, Col := 1 }, ungot := none, unread := true,
          unreadRune := '-', unreadPoint := { Line := 1, Col := 3 } }) ∧
    ({ input := [], point := { Line := 1, Col := 2 },
       tokenStart := { Line := 1, Col := 2 }, ungot := none, unread := true,
       unreadRune := '-', unreadPoint := { Line := 1, Col := 3 } } : Lexer).ReadRune =
      (.ok '-',
        { input := [], point := { Line := 1, Col := 3 },
          tokenStart := { Line := 1, Col := 2 }, ungot := none, unread := false,
          unreadRune := '-', unreadPoint := { Line := 1, Col := 2 } }) :=
  have h := get_operator asciiLib 1 (NewLexer " +-".toList)
      { input := "-".toList, point := { Line := 1, Col := 2 },
        tokenStart := { Line := 1, Col := 1 }, ungot := none, unread := false,
        unreadRune := Char.ofNat 0, unreadPoint := { Line := 1, Col := 1 } }
      { input := [], point := { Line := 1, Col := 3 },
        tokenStart := { Line := 1, Col := 1 }, ungot := none, unread := false,
        unreadRune := Char.ofNat 0, unreadPoint := { Line := 1, Col := 2 } }
      '+' (.ok '-') rfl (by decide) (by decide)
  ⟨(h.1 rfl).2.2.2 '-' rfl (by decide) (by decide), (h.2.2.2.2.2.2.1 '-' rfl).2.1⟩

/-- C26 (counterexample): `/` followed by `/` is not the token `T_Div` with
the second `/` left for the next `Get`.  On the text `//a`, newline, `+` the
first `Get` skips the comment and returns the `+` of line 2; on the text `//`
it returns `io.EOF`. -/
theorem get_comment_not_div :
    ((NewLexer "//a\n+".toList).Get asciiLib).1 =
      .ok { Typ := .T_Plus, From := { Line := 2, Col := 0 }, To := { Line := 2, Col := 1 },
            StrVal := [], TypeInfo := { Typ := 0, Bits := 0 } } ∧
    ((NewLexer "//a\n+".toList).Get asciiLib).2.input = [] ∧
    ((NewLexer "//".toList).Get asciiLib).1 = .error .eof := by
  decide

end Lex

end Mpc
